import Mathlib

/-!
Shallow embedding of the supabase-to-hooks generator.

The TypeScript sources walk a Supabase declaration file with the ts-morph
compiler API and write templated text files.  Here the structured type
description reaching the generator (property names together with the
stringified types the code reads off them) is modelled as plain data, the
file system as an explicit state value, and every string-manipulating
helper of the sources is reimplemented character by character, mirroring
the semantics of the JavaScript regular-expression calls it performs.

String scanners that are not structurally recursive take a fuel argument;
fuel is always instantiated with the length of the scanned string plus
one, while every recursive step consumes at least one character, so the
fuel never runs out on the actual argument.

Conventions: JavaScript's undefined-or-value results become Option,
functions that can throw return Except, and character classes follow the
ASCII reading of the JavaScript regex classes involved.
-/

namespace SupabaseToHooks

/-- ASCII word character: the JavaScript regex class of letters, digits and
underscore, as used by the casing and base-type regexes. -/
def isWordChar (c : Char) : Bool := c.isAlpha || c.isDigit || c == '_'

/-- Separator characters recognised by the casing regexes of
pascalCase and camelCase in utils/helpers.ts. -/
def isSep (c : Char) : Bool := c == '_' || c == '-'

/-- Scanner for the global regex (start-or-underscore-or-hyphen)(word char)
at string positions after the first: the start-of-string alternative can
no longer fire, so a match is a separator followed by a word character,
replaced by the upper-cased word character. -/
def caseScan : List Char → List Char
  | [] => []
  | [c] => [c]
  | c :: r :: rest =>
    if isSep c && isWordChar r then r.toUpper :: caseScan rest
    else c :: caseScan (r :: rest)

/-- pascalCase from utils/helpers.ts: the global replace of
(start-or-separator)(word char) by the upper-cased word character.  At
offset zero the empty start-of-string alternative is tried first, so a
leading word character is upper-cased on its own. -/
def pascalCase (s : String) : String :=
  match s.data with
  | [] => ""
  | c :: rest =>
    if isWordChar c then String.mk (c.toUpper :: caseScan rest)
    else String.mk (caseScan (c :: rest))

/-- camelCase from utils/helpers.ts: same scan as pascalCase, but the
replacement lower-cases the captured character exactly when the match
starts at offset zero. -/
def camelCase (s : String) : String :=
  match s.data with
  | [] => ""
  | [c] => if isWordChar c then String.mk [c.toLower] else String.mk [c]
  | c :: r :: rest =>
    if isWordChar c then String.mk (c.toLower :: caseScan (r :: rest))
    else if isSep c && isWordChar r then String.mk (r.toLower :: caseScan rest)
    else String.mk (c :: caseScan (r :: rest))

/-- JavaScript String.replace with a string pattern: replace the first
occurrence of pat (if any) by rep. -/
def replaceFirstAux (pat rep : List Char) : List Char → List Char
  | [] => if pat.isEmpty then rep else []
  | c :: rest =>
    if pat.isPrefixOf (c :: rest) then rep ++ (c :: rest).drop pat.length
    else c :: replaceFirstAux pat rep rest

/-- String form of replaceFirstAux. -/
def replaceFirst (s pat rep : String) : String :=
  String.mk (replaceFirstAux pat.data rep.data s.data)

/-- Global replace of a fixed nonempty literal, as in the replace calls
with a /g literal regex.  Fuel-driven; fuel is the string length plus one. -/
def replaceAllAux (fuel : Nat) (pat rep : List Char) : List Char → List Char
  | [] => []
  | c :: rest =>
    match fuel with
    | 0 => c :: rest
    | fuel + 1 =>
      if !pat.isEmpty && pat.isPrefixOf (c :: rest) then
        rep ++ replaceAllAux fuel pat rep ((c :: rest).drop pat.length)
      else c :: replaceAllAux fuel pat rep rest

/-- String form of the global literal replacement. -/
def replaceAll (s pat rep : String) : String :=
  String.mk (replaceAllAux (s.length + 1) pat.data rep.data s.data)

/-- JavaScript charAt(0).toUpperCase() + slice(1), as used on table names
in the relationship generator. -/
def capFirst (s : String) : String :=
  match s.data with
  | [] => ""
  | c :: rest => String.mk (c.toUpper :: rest)

/-- Lower-casing of the first character of a string (used only to state
the relation between camelCase and pascalCase claimed by the spec). -/
def lowerFirst (s : String) : String :=
  match s.data with
  | [] => ""
  | c :: rest => String.mk (c.toLower :: rest)

/-- Whitespace class of the JavaScript regexes, restricted to the ASCII
whitespace characters that can occur in the processed strings. -/
def isWs (c : Char) : Bool :=
  c.toNat == 32 || c.toNat == 9 || c.toNat == 10 || c.toNat == 13 ||
    c.toNat == 12 || c.toNat == 11

/-- Split of a string at every occurrence of a separator character, as
the JavaScript split with a one-character separator behaves. -/
def jsSplitAux (sep : Char) : List Char → List Char → List String
  | [], acc => [String.mk acc.reverse]
  | c :: rest, acc =>
    if c == sep then String.mk acc.reverse :: jsSplitAux sep rest []
    else jsSplitAux sep rest (c :: acc)

/-- String form of the character split. -/
def jsSplit (sep : Char) (s : String) : List String :=
  jsSplitAux sep s.data []

/-- JavaScript trim restricted to the ASCII whitespace that occurs in the
processed strings. -/
def jsTrim (s : String) : String :=
  String.mk (((s.data.dropWhile isWs).reverse.dropWhile isWs).reverse)

/-- JavaScript startsWith. -/
def jsStartsWith (s pre : String) : Bool :=
  pre.data.isPrefixOf s.data

/-- Pieces kept by formatTypeDefinition: the split of the brace content at
semicolons, filtered to the pieces whose trim is nonempty. -/
def fmtProps (content : String) : List String :=
  (jsSplit ';' content).filter (fun p => jsTrim p ≠ "")

/-- Replacement applied by formatTypeDefinition to one matched brace pair.
The regex captures the content after its leading whitespace, but since the
pieces are trimmed before use the result only depends on the full text
between the braces, which is what this function receives. -/
def fmtApply (inner : List Char) : List Char :=
  let props := fmtProps (String.mk inner)
  if props.length ≤ 1 then '{' :: inner ++ ['}']
  else
    ("\x7b\n" ++ String.intercalate "\n" (props.map (fun p => "  " ++ jsTrim p ++ ";")) ++ "\n\x7d").data

/-- Scanner for the global brace-pair regex of formatTypeDefinition: a
match runs from a left brace over brace-free content to the next right
brace; when the next brace is another left brace the candidate fails and
scanning resumes at that brace. -/
def fmtScanAux (fuel : Nat) : List Char → List Char
  | [] => []
  | c :: rest =>
    match fuel with
    | 0 => c :: rest
    | fuel + 1 =>
      if c == '{' then
        match List.span (fun x => !(x == '{' || x == '}')) rest with
        | (inner, rem) =>
          match rem with
          | '}' :: rest2 => fmtApply inner ++ fmtScanAux fuel rest2
          | _ => c :: (inner ++ fmtScanAux fuel rem)
      else c :: fmtScanAux fuel rest

/-- formatTypeDefinition from utils/helpers.ts. -/
def formatTypeDefinition (typeText : String) : String :=
  String.mk (fmtScanAux (typeText.length + 1) typeText.data)

/-- Literal text of the opening part of an import type reference. -/
def impOpen : List Char := "import(\"".data

/-- Literal tail of the moku base-type reference regex. -/
def mokuLit : List Char := "/moku/lib/database.types\").".data

/-- First split of a list at a literal pattern: some (a, b) with
l = a ++ pat ++ b and pat not occurring earlier. -/
def splitFirst? (pat : List Char) : List Char → Option (List Char × List Char)
  | [] => if pat.isEmpty then some ([], []) else none
  | c :: rest =>
    if pat.isPrefixOf (c :: rest) then some ([], (c :: rest).drop pat.length)
    else (splitFirst? pat rest).map (fun ab => (c :: ab.1, ab.2))

/-- Rightmost split of a list at a position accepted by matchAt, which
returns the remainder after the consumed literal.  Models backtracking of
a greedy dot-star: the engine commits to the last position where the rest
of the pattern matches. -/
def lastMatchSplit? (matchAt : List Char → Option (List Char)) :
    List Char → Option (List Char × List Char)
  | [] =>
    match matchAt [] with
    | some b => some ([], b)
    | none => none
  | c :: rest =>
    match lastMatchSplit? matchAt rest with
    | some ab => some (c :: ab.1, ab.2)
    | none =>
      match matchAt (c :: rest) with
      | some b => some ([], b)
      | none => none

/-- Characters the regex dot does not match (line terminators). -/
def isLineBreak (c : Char) : Bool := c == '\n' || c == '\r'

/-- Match-at function for the capturing base-type regex: the moku literal
must be followed by at least one word character. -/
def mokuCaptureAt (l : List Char) : Option (List Char) :=
  if mokuLit.isPrefixOf l then
    match l.drop mokuLit.length with
    | [] => none
    | r :: rest => if isWordChar r then some (r :: rest) else none
  else none

/-- One search step of the findBaseTypes regex, returning the captured
word run and the remainder after the whole match, or none when no match
starts at or after the current position.  A failed candidate resumes the
search right after the consumed import-opening literal: occurrences of
that literal cannot overlap, so no match start is skipped. -/
def findBaseTypesStep (fuel : Nat) (l : List Char) : Option (String × List Char) :=
  match fuel with
  | 0 => none
  | fuel + 1 =>
    match splitFirst? impOpen l with
    | none => none
    | some (_, afterImp) =>
      let window := afterImp.takeWhile (fun c => !isLineBreak c)
      let afterWindow := afterImp.dropWhile (fun c => !isLineBreak c)
      match lastMatchSplit? mokuCaptureAt window with
      | some ab =>
        let cap := ab.2.takeWhile isWordChar
        some (String.mk cap, ab.2.dropWhile isWordChar ++ afterWindow)
      | none => findBaseTypesStep fuel afterImp

/-- Loop of findBaseTypes: run search steps until exhaustion, adding each
capture to the accumulator in first-occurrence order, as insertion into
the JavaScript Set does. -/
def findBaseTypesLoop (fuel : Nat) (l : List Char) (acc : List String) : List String :=
  match fuel with
  | 0 => acc
  | fuel + 1 =>
    match findBaseTypesStep fuel l with
    | none => acc
    | some (cap, rest) =>
      findBaseTypesLoop fuel rest (if cap ∈ acc then acc else acc ++ [cap])

/-- findBaseTypes from utils/helpers.ts: repeated exec of the global
moku import-reference regex, collecting the captured identifiers. -/
def findBaseTypes (typeText : String) : List String :=
  findBaseTypesLoop (typeText.length + 1) typeText.data []

/-- Match-at function for the non-capturing moku import-cleanup regex used
on table type strings. -/
def mokuCleanAt (l : List Char) : Option (List Char) :=
  if mokuLit.isPrefixOf l then some (l.drop mokuLit.length) else none

/-- Literal tails of the looser import-cleanup regex used on function type
strings, with the optional .ts part; the greedy optional group tries the
longer variant first. -/
def dbTsLit : List Char := "database.types.ts\").".data

/-- Shorter variant of the function import-cleanup literal. -/
def dbLit : List Char := "database.types\").".data

/-- Match-at function for the function import-cleanup regex. -/
def dbCleanAt (l : List Char) : Option (List Char) :=
  if dbTsLit.isPrefixOf l then some (l.drop dbTsLit.length)
  else if dbLit.isPrefixOf l then some (l.drop dbLit.length)
  else none

/-- Generic scanner for the global import-cleanup regexes: each match runs
from an import-opening literal, over non-linebreak characters, to the last
position of the current line segment accepted by matchAt, and the whole
match is deleted. -/
def cleanImportsAux (fuel : Nat) (matchAt : List Char → Option (List Char)) (l : List Char) :
    List Char :=
  match fuel with
  | 0 => l
  | fuel + 1 =>
    match splitFirst? impOpen l with
    | none => l
    | some (a, afterImp) =>
      let window := afterImp.takeWhile (fun c => !isLineBreak c)
      let afterWindow := afterImp.dropWhile (fun c => !isLineBreak c)
      match lastMatchSplit? matchAt window with
      | some ab => a ++ cleanImportsAux fuel matchAt (ab.2 ++ afterWindow)
      | none => a ++ impOpen ++ cleanImportsAux fuel matchAt afterImp

/-- Removal of moku import prefixes from table type strings, as in
extractTableTypes. -/
def cleanMokuImports (s : String) : String :=
  String.mk (cleanImportsAux (s.length + 1) mokuCleanAt s.data)

/-- Removal of database.types import prefixes from function type strings,
as in extractFunctions. -/
def cleanDbImports (s : String) : String :=
  String.mk (cleanImportsAux (s.length + 1) dbCleanAt s.data)

/-- Collapse of every whitespace run to a single space, the replacement
applied inside matched bracket pairs by the relationships cleanup. -/
def wsCollapse (fuel : Nat) (l : List Char) : List Char :=
  match fuel with
  | 0 => l
  | fuel + 1 =>
    match l with
    | [] => []
    | c :: rest =>
      if isWs c then ' ' :: wsCollapse fuel (rest.dropWhile isWs)
      else c :: wsCollapse fuel rest

/-- Scanner for the lazy bracket regex of the relationships cleanup: a
match runs from a left bracket over non-linebreak characters to the first
right bracket, and its content gets its whitespace collapsed; with no
right bracket before the line end the candidate fails and scanning
resumes after the left bracket. -/
def bracketCollapseAux (fuel : Nat) (l : List Char) : List Char :=
  match fuel with
  | 0 => l
  | fuel + 1 =>
    match l with
    | [] => []
    | c :: rest =>
      if c == '[' then
        let inner := rest.takeWhile (fun x => !(x == ']' || isLineBreak x))
        let rem := rest.dropWhile (fun x => !(x == ']' || isLineBreak x))
        match rem with
        | ']' :: rest2 =>
          '[' :: wsCollapse (inner.length + 1) inner ++ ']' :: bracketCollapseAux fuel rest2
        | _ => c :: bracketCollapseAux fuel rest
      else c :: bracketCollapseAux fuel rest

/-- String form of the bracket whitespace collapse. -/
def bracketCollapse (s : String) : String :=
  String.mk (bracketCollapseAux (s.length + 1) s.data)

/-- Scanner for the key-quoting regex of the relationships cleanup: every
maximal word run immediately followed by a colon is wrapped in double
quotes. -/
def quoteKeysAux (fuel : Nat) (l : List Char) : List Char :=
  match fuel with
  | 0 => l
  | fuel + 1 =>
    match l with
    | [] => []
    | c :: rest =>
      if isWordChar c then
        let run := c :: rest.takeWhile isWordChar
        let rem := rest.dropWhile isWordChar
        match rem with
        | ':' :: rest2 => '"' :: run ++ '"' :: ':' :: quoteKeysAux fuel rest2
        | _ => run ++ quoteKeysAux fuel rem
      else c :: quoteKeysAux fuel rest

/-- String form of the key quoting. -/
def quoteKeys (s : String) : String :=
  String.mk (quoteKeysAux (s.length + 1) s.data)

/-- Cleanup pipeline of extractTableRelationships: the five global
replacements applied to the stringified Relationships type before the
JSON parse. -/
def cleanRelationshipsText (s : String) : String :=
  quoteKeys (replaceAll (replaceAll (bracketCollapse (replaceAll s "readonly " ""))
    "\"" "\\\"") "\x27" "\"")

/-- JSON values, the result space of the JSON.parse call in
extractTableRelationships.  Numbers keep their source token: no claim
depends on numeric canonicalisation. -/
inductive Json where
  | null : Json
  | bool (b : Bool) : Json
  | num (raw : String) : Json
  | str (s : String) : Json
  | arr (elems : List Json) : Json
  | obj (fields : List (String × Json)) : Json

/-- JSON whitespace accepted between tokens. -/
def isJsonWs (c : Char) : Bool :=
  c.toNat == 32 || c.toNat == 9 || c.toNat == 10 || c.toNat == 13

/-- Skip JSON whitespace. -/
def skipWs (l : List Char) : List Char := l.dropWhile isJsonWs

/-- Decode one string escape; surrogate pairing of unicode escapes is not
modelled (no claim involves them). -/
def decodeEscape : Char → Option Char
  | 'n' => some '\n'
  | 't' => some '\t'
  | 'r' => some '\r'
  | 'b' => some '\x08'
  | 'f' => some '\x0c'
  | '"' => some '"'
  | '/' => some '/'
  | '\\' => some '\\'
  | _ => none

/-- Hexadecimal digit value. -/
def hexVal (c : Char) : Option Nat :=
  let n := c.toNat
  if 48 ≤ n && n ≤ 57 then some (n - 48)
  else if 97 ≤ n && n ≤ 102 then some (n - 87)
  else if 65 ≤ n && n ≤ 70 then some (n - 55)
  else none

/-- Parse the body of a JSON string after its opening quote.  Raw control
characters are rejected as JSON.parse does. -/
def parseJsonString (fuel : Nat) (acc : List Char) (l : List Char) :
    Option (String × List Char) :=
  match fuel with
  | 0 => none
  | fuel + 1 =>
    match l with
    | [] => none
    | '"' :: rest => some (String.mk acc.reverse, rest)
    | '\\' :: e :: rest =>
      if e == 'u' then
        match rest with
        | a :: b :: c :: d :: rest2 =>
          match hexVal a, hexVal b, hexVal c, hexVal d with
          | some x, some y, some z, some w =>
            let n := ((x * 16 + y) * 16 + z) * 16 + w
            if h : n.isValidChar then parseJsonString fuel (Char.ofNatAux n h :: acc) rest2
            else none
          | _, _, _, _ => none
        | _ => none
      else
        match decodeEscape e with
        | some d => parseJsonString fuel (d :: acc) rest
        | none => none
    | c :: rest =>
      if c.toNat < 0x20 then none else parseJsonString fuel (c :: acc) rest

/-- Lex the integer part of a JSON number token. -/
def lexNumber (l : List Char) : Option (List Char × List Char) :=
  let step1 :=
    match l with
    | '-' :: rest => some (['-'], rest)
    | _ => some ([], l)
  match step1 with
  | none => none
  | some (sgn, afterSign) =>
    match afterSign with
    | '0' :: rest =>
      let intPart := sgn ++ ['0']
      some (intPart, rest)
    | c :: _ =>
      if '1' ≤ c && c ≤ '9' then
        let digits := afterSign.takeWhile Char.isDigit
        some (sgn ++ digits, afterSign.dropWhile Char.isDigit)
      else none
    | [] => none

/-- Continue a number token with an optional fraction and exponent. -/
def lexNumberTail (intTok : List Char) (l : List Char) : Option (String × List Char) :=
  let withFrac :=
    match l with
    | '.' :: rest =>
      let digits := rest.takeWhile Char.isDigit
      if digits.isEmpty then none
      else some (intTok ++ '.' :: digits, rest.dropWhile Char.isDigit)
    | _ => some (intTok, l)
  match withFrac with
  | none => none
  | some (tok, afterFrac) =>
    match afterFrac with
    | e :: rest =>
      if e == 'e' || e == 'E' then
        let signPart :=
          match rest with
          | s :: rest2 => if s == '+' || s == '-' then ([s], rest2) else ([], rest)
          | [] => ([], rest)
        let digits := signPart.2.takeWhile Char.isDigit
        if digits.isEmpty then none
        else some (String.mk (tok ++ e :: signPart.1 ++ digits), signPart.2.dropWhile Char.isDigit)
      else some (String.mk tok, afterFrac)
    | [] => some (String.mk tok, [])

mutual

/-- Recursive-descent JSON value parser, mirroring JSON.parse on the
grammar the cleanup pipeline can produce. -/
def parseJsonValue (fuel : Nat) (l : List Char) : Option (Json × List Char) :=
  match fuel with
  | 0 => none
  | fuel + 1 =>
    match skipWs l with
    | [] => none
    | c :: rest =>
      if c == '"' then
        match parseJsonString (rest.length + 1) [] rest with
        | some (s, rem) => some (Json.str s, rem)
        | none => none
      else if c == '[' then
        match skipWs rest with
        | ']' :: rem => some (Json.arr [], rem)
        | _ => parseJsonArrayItems fuel rest []
      else if c == '{' then
        match skipWs rest with
        | '}' :: rem => some (Json.obj [], rem)
        | _ => parseJsonObjectItems fuel rest []
      else if c == 't' then
        if "rue".data.isPrefixOf rest then some (Json.bool true, rest.drop 3) else none
      else if c == 'f' then
        if "alse".data.isPrefixOf rest then some (Json.bool false, rest.drop 4) else none
      else if c == 'n' then
        if "ull".data.isPrefixOf rest then some (Json.null, rest.drop 3) else none
      else
        match lexNumber (c :: rest) with
        | some (intTok, afterInt) =>
          match lexNumberTail intTok afterInt with
          | some (tok, rem) => some (Json.num tok, rem)
          | none => none
        | none => none

/-- Items of a JSON array after the opening bracket. -/
def parseJsonArrayItems (fuel : Nat) (l : List Char) (acc : List Json) :
    Option (Json × List Char) :=
  match fuel with
  | 0 => none
  | fuel + 1 =>
    match parseJsonValue fuel l with
    | none => none
    | some (v, rem) =>
      match skipWs rem with
      | ',' :: rem2 => parseJsonArrayItems fuel rem2 (acc ++ [v])
      | ']' :: rem2 => some (Json.arr (acc ++ [v]), rem2)
      | _ => none

/-- Members of a JSON object after the opening brace. -/
def parseJsonObjectItems (fuel : Nat) (l : List Char) (acc : List (String × Json)) :
    Option (Json × List Char) :=
  match fuel with
  | 0 => none
  | fuel + 1 =>
    match skipWs l with
    | '"' :: rest =>
      match parseJsonString (rest.length + 1) [] rest with
      | none => none
      | some (k, rem) =>
        match skipWs rem with
        | ':' :: rem2 =>
          match parseJsonValue fuel rem2 with
          | none => none
          | some (v, rem3) =>
            match skipWs rem3 with
            | ',' :: rem4 => parseJsonObjectItems fuel rem4 (acc ++ [(k, v)])
            | '}' :: rem4 => some (Json.obj (acc ++ [(k, v)]), rem4)
            | _ => none
        | _ => none
    | _ => none

end

/-- JSON.parse over a whole string: a single value surrounded only by
whitespace, or failure. -/
def jsonParse (s : String) : Option Json :=
  match parseJsonValue (s.length + 1) s.data with
  | some (v, rem) => if skipWs rem = [] then some v else none
  | none => none

/-- Escape one character for JSON.stringify string output. -/
def jsonEscapeChar (c : Char) : String :=
  if c == '"' then "\\\""
  else if c == '\\' then "\\\\"
  else if c == '\n' then "\\n"
  else if c == '\r' then "\\r"
  else if c == '\t' then "\\t"
  else if c == '\x08' then "\\b"
  else if c == '\x0c' then "\\f"
  else String.mk [c]

/-- Quote a string as JSON.stringify does (low control characters other
than the named escapes do not occur in the modelled strings). -/
def jsonQuote (s : String) : String :=
  "\"" ++ String.join (s.data.map jsonEscapeChar) ++ "\""

mutual

/-- JSON.stringify with indent 2, value case. -/
def jsonStringify (indent : Nat) : Json → String
  | Json.null => "null"
  | Json.bool b => if b then "true" else "false"
  | Json.num raw => raw
  | Json.str s => jsonQuote s
  | Json.arr [] => "[]"
  | Json.arr (e :: es) =>
    "[\n" ++ String.intercalate ",\n" (jsonStringifyItems (indent + 2) (e :: es)) ++
      "\n" ++ String.mk (List.replicate indent ' ') ++ "]"
  | Json.obj [] => "{}"
  | Json.obj (f :: fs) =>
    "\x7b\n" ++ String.intercalate ",\n" (jsonStringifyFields (indent + 2) (f :: fs)) ++
      "\n" ++ String.mk (List.replicate indent ' ') ++ "\x7d"

/-- JSON.stringify with indent 2, array item list. -/
def jsonStringifyItems (indent : Nat) : List Json → List String
  | [] => []
  | e :: es =>
    (String.mk (List.replicate indent ' ') ++ jsonStringify indent e) ::
      jsonStringifyItems indent es

/-- JSON.stringify with indent 2, object member list. -/
def jsonStringifyFields (indent : Nat) : List (String × Json) → List String
  | [] => []
  | (k, v) :: fs =>
    (String.mk (List.replicate indent ' ') ++ jsonQuote k ++ ": " ++ jsonStringify indent v) ::
      jsonStringifyFields indent fs

end

/-- JavaScript truthiness of a parsed JSON value, used for the isOneToOne
field; the number approximation treats only zero tokens as falsy. -/
def jsTruthy : Option Json → Bool
  | none => false
  | some Json.null => false
  | some (Json.bool b) => b
  | some (Json.num raw) => !(raw = "0" || raw = "-0" || raw = "0.0")
  | some (Json.str s) => s ≠ ""
  | some (Json.arr _) => true
  | some (Json.obj _) => true

/-- Lookup of an object member by key (first occurrence). -/
def jsonLookup (fields : List (String × Json)) (k : String) : Option Json :=
  (fields.find? (fun f => f.1 = k)).map (fun f => f.2)

/-- JavaScript logical-or with a default, as in the expressions of the
form typeToString(t) || fallback: an absent value and the empty string
both fall back. -/
def jsOrDefault (o : Option String) (d : String) : String :=
  match o with
  | none => d
  | some s => if s = "" then d else s

/-- Identity on the optional stringified type, mirroring typeToString of
utils/helpers.ts: the model stores the getText result of each type node
directly, so converting a present node to a string is the identity. -/
def typeToString (t : Option String) : Option String := t

/-- Description of one table under public.Tables: its property name and
the stringified types of the properties the code reads.  A missing field
is an absent property (getTypeProperty returning undefined). -/
structure TableDesc where
  name : String
  Row : Option String
  Insert : Option String
  Update : Option String
  Relationships : Option String

/-- Description of one RPC function under public.Functions. -/
structure FunctionDesc where
  name : String
  Args : Option String
  Returns : Option String

/-- One member of an enum union as the code inspects it: a string literal
with its literal value, or any other type.  A non-union enum type is
modelled as a one-element member list, matching the code's fallback. -/
inductive UnionMember where
  | strLit (value : String) : UnionMember
  | other : UnionMember

/-- Description of one enum under public.Enums, members in the order
getUnionTypes reports them. -/
structure EnumDesc where
  name : String
  members : List UnionMember

/-- Description of the public schema property; each field is the optional
list of properties of the corresponding object type, in declaration
order. -/
structure PublicDesc where
  Tables : Option (List TableDesc)
  Functions : Option (List FunctionDesc)
  Enums : Option (List EnumDesc)

/-- The type aliased as Database in the input declaration file. -/
structure DatabaseDesc where
  publicProp : Option PublicDesc

/-- The input declaration file: it may or may not contain a type alias
named Database (getTypeAliasOrThrow throws when absent). -/
structure InputDecl where
  Database : Option DatabaseDesc

/-- Options of the extractor run; the input file and tsconfig path only
feed project loading, which the InputDecl argument of run models, and
the supabase path option is optional with its default applied inside
run. -/
structure ExtractorOptions where
  inputFile : String
  outputDir : List String
  tsConfigPath : String
  supabaseImportPath : Option String

/-- Paths are lists of segments; the output directory option stands for an
already-split absolute path. -/
abbrev Path := List String

/-- Join of a directory path and one further name, as path.join does:
the name is split at slashes and empty and single-dot segments vanish
(parent segments are not normalised; no claim depends on them). -/
def pathJoin (dir : Path) (s : String) : Path :=
  dir ++ ((jsSplit '/' s).filter (fun seg => seg ≠ "" && seg ≠ "."))

/-- File-system state: the set of existing directories and the files with
their contents, both in creation order. -/
structure FS where
  dirs : List Path
  files : List (Path × String)

/-- existsSync: a directory or file exists at the path. -/
def FS.existsSync (fs : FS) (p : Path) : Bool :=
  decide (p ∈ fs.dirs) || fs.files.any (fun e => e.1 = p)

/-- Nonempty prefixes of a path, shortest first. -/
def prefixesOf (p : Path) : List Path :=
  (List.range p.length).map (fun i => p.take (i + 1))

/-- mkdirSync with recursive true: create the directory and its missing
ancestors. -/
def FS.mkdirp (fs : FS) (p : Path) : FS :=
  { fs with dirs := fs.dirs ++ (prefixesOf p).filter (fun q => q ∉ fs.dirs) }

/-- The guarded directory creation idiom of the sources: mkdirSync only
when existsSync is false. -/
def FS.ensureDir (fs : FS) (p : Path) : FS :=
  if fs.existsSync p then fs else fs.mkdirp p

/-- writeFileSync: overwrite in place when the path already holds a file,
append a new entry otherwise. -/
def FS.writeFileSync (fs : FS) (p : Path) (c : String) : FS :=
  if fs.files.any (fun e => e.1 = p) then
    { fs with files := fs.files.map (fun e => if e.1 = p then (p, c) else e) }
  else { fs with files := fs.files ++ [(p, c)] }

/-- Content of the file at a path, if any. -/
def FS.read (fs : FS) (p : Path) : Option String :=
  (fs.files.find? (fun e => e.1 = p)).map (fun e => e.2)

/-- Name of q as an immediate child of p, if it is one. -/
def childOf (p q : Path) : Option String :=
  if q.take p.length = p then
    match q.drop p.length with
    | [n] => some n
    | _ => none
  else none

/-- Duplicate removal keeping first occurrences. -/
def dedupKeepFirst : List String → List String
  | [] => []
  | x :: xs => x :: (dedupKeepFirst xs).filter (fun y => y ≠ x)

/-- readdirSync: names of the immediate children (directories and files)
of a path, in creation order. -/
def FS.childNames (fs : FS) (p : Path) : List String :=
  dedupKeepFirst ((fs.dirs ++ fs.files.map (fun e => e.1)).filterMap (childOf p))

/-- statSync(...).isDirectory() for paths returned by readdirSync. -/
def FS.isDir (fs : FS) (p : Path) : Bool :=
  decide (p ∈ fs.dirs)

/-- Insertion of a batch of names into a JavaScript Set modelled as a
keep-first list. -/
def setAddAll (acc : List String) (xs : List String) : List String :=
  xs.foldl (fun a x => if x ∈ a then a else a ++ [x]) acc

/-- extractAllBaseTypes from extractors/baseTypes.ts: collect the base
types found in the stringified Row, Insert and Update types of every
table. -/
def extractAllBaseTypes (tables : List TableDesc) (baseTypes : List String) : List String :=
  tables.foldl (fun acc t =>
    let rowTypeStr := jsOrDefault (typeToString t.Row) "{}"
    let insertTypeStr := jsOrDefault (typeToString t.Insert) "{}"
    let updateTypeStr := jsOrDefault (typeToString t.Update) "{}"
    setAddAll (setAddAll (setAddAll acc (findBaseTypes rowTypeStr))
      (findBaseTypes insertTypeStr)) (findBaseTypes updateTypeStr)) baseTypes

/-- Text of base-types.ts as createBaseTypesFile builds it. -/
def baseTypesContent (baseTypes : List String) : String :=
  String.intercalate "\n"
    (["/** Auto-generated base types extracted from database schema */", ""] ++
      baseTypes.map (fun typeName =>
        "export type " ++ typeName ++ " = any; // Replace with actual type definition if needed"))

/-- createBaseTypesFile from extractors/baseTypes.ts: write nothing for an
empty name list, the templated file otherwise. -/
def createBaseTypesFile (baseTypes : List String) (outputFilePath : Path) (fs : FS) : FS :=
  if baseTypes.length = 0 then fs
  else fs.writeFileSync outputFilePath (baseTypesContent baseTypes)

/-- Import header shared by the table and function type files: present
exactly when the base-type list is nonempty. -/
def baseTypeImports (names : List String) : String :=
  if names.length > 0 then
    "import \x7b " ++ String.intercalate ", " names ++ " \x7d from \"../base-types\";\n\n"
  else ""

/-- Text of a table module's types.ts as extractTableTypes builds it. -/
def tableTypesContent (t : TableDesc) : String :=
  let rowTypeStr := jsOrDefault (typeToString t.Row) "{}"
  let insertTypeStr := jsOrDefault (typeToString t.Insert) "{}"
  let updateTypeStr := jsOrDefault (typeToString t.Update) "{}"
  let tableBaseTypes := setAddAll (setAddAll (setAddAll [] (findBaseTypes rowTypeStr))
    (findBaseTypes insertTypeStr)) (findBaseTypes updateTypeStr)
  let imports := baseTypeImports tableBaseTypes
  let cleanRowType := cleanMokuImports (formatTypeDefinition rowTypeStr)
  let cleanInsertType := cleanMokuImports (formatTypeDefinition insertTypeStr)
  let cleanUpdateType := cleanMokuImports (formatTypeDefinition updateTypeStr)
  let pascalTableName := pascalCase t.name
  String.intercalate "\n"
    ["/** Auto-generated type definitions for table: " ++ t.name ++ " */\n",
     imports,
     "export type " ++ pascalTableName ++ "Row = " ++ cleanRowType ++ ";\n",
     "export type " ++ pascalTableName ++ "Insert = " ++ cleanInsertType ++ ";\n",
     "export type " ++ pascalTableName ++ "Update = " ++ cleanUpdateType ++ ";\n",
     "/**\n * Filter parameters for " ++ t.name ++ " queries\n * Makes all properties from " ++
       pascalTableName ++ "Row optional and adds array operators\n */\nexport type " ++
       pascalTableName ++ "FilterParams = \x7b\n  [K in keyof " ++ pascalTableName ++
       "Row]?: " ++ pascalTableName ++ "Row[K] | " ++ pascalTableName ++
       "Row[K][] | null;\n\x7d & \x7b\n  limit?: number;\n  offset?: number;\n  order?: \x7b\n    column: keyof " ++
       pascalTableName ++ "Row;\n    direction?: \x27asc\x27 | \x27desc\x27;\n  \x7d;\n\x7d;"]

/-- Text of a table module's index.ts as createModuleIndexFile builds it. -/
def moduleIndexContent (tableName : String) : String :=
  String.intercalate "\n"
    ["// Auto-generated index file for the " ++ tableName ++ " module",
     "",
     "export * from \x27./types\x27;",
     "export * from \x27./hooks\x27;"]

/-- extractTablesByModule from extractors/tables.ts: per table, create the
module directory and write its types.ts and index.ts. -/
def extractTablesByModule (tables : List TableDesc) (baseOutputDir : Path) (fs : FS) : FS :=
  tables.foldl (fun fs t =>
    let moduleDir := pathJoin baseOutputDir t.name
    let fs := fs.ensureDir moduleDir
    let fs := fs.writeFileSync (pathJoin moduleDir "types.ts") (tableTypesContent t)
    fs.writeFileSync (pathJoin moduleDir "index.ts") (moduleIndexContent t.name)) fs

/-- Text of the top-level index.ts as createMainIndexFile builds it.  The
extractor calls the function with a third argument, which the definition
in extractors/tables.ts does not declare and therefore ignores. -/
def mainIndexContent (tables : List TableDesc) : String :=
  String.intercalate "\n"
    (["// Auto-generated index file for database modules",
      "",
      "// Re-export base types and enums",
      "export * from \x27./base-types\x27;",
      "export * from \x27./enums\x27;",
      "",
      "// Re-export storage module",
      "export * from \x27./storage\x27;",
      "",
      "// Re-export all table modules"] ++
      tables.map (fun t => "export * from \x27./" ++ t.name ++ "\x27;"))

/-- createMainIndexFile from extractors/tables.ts. -/
def createMainIndexFile (tables : List TableDesc) (outputDir : Path) (fs : FS) : FS :=
  fs.writeFileSync (pathJoin outputDir "index.ts") (mainIndexContent tables)

/-- Quoted string-literal members of one enum, in member order. -/
def enumStringLiterals (e : EnumDesc) : List String :=
  e.members.filterMap (fun m =>
    match m with
    | UnionMember.strLit v => some ("\"" ++ v ++ "\"")
    | UnionMember.other => none)

/-- Alias line emitted for one enum by extractEnums. -/
def enumAliasLine (e : EnumDesc) : String :=
  "export type " ++ pascalCase e.name ++ " = " ++
    String.intercalate " | " (enumStringLiterals e) ++ ";"

/-- Text of enums.ts as extractEnums builds it. -/
def enumsContent (enums : List EnumDesc) : String :=
  String.intercalate "\n\n"
    (["/** Auto-generated Enums from `public` schema. */"] ++ enums.map enumAliasLine)

/-- extractEnums from extractors/enums.ts: one unconditional write of the
collected alias lines. -/
def extractEnums (enums : List EnumDesc) (outputFilePath : Path) (fs : FS) : FS :=
  fs.writeFileSync outputFilePath (enumsContent enums)

/-- Text of a function module's types.ts as extractFunctions builds it. -/
def functionTypesContent (f : FunctionDesc) : String :=
  let argsTypeStr := jsOrDefault (typeToString f.Args) "{}"
  let returnsTypeStr := jsOrDefault (typeToString f.Returns) "void"
  let functionBaseTypes := setAddAll (setAddAll [] (findBaseTypes argsTypeStr))
    (findBaseTypes returnsTypeStr)
  let imports := baseTypeImports functionBaseTypes
  let cleanArgsType := cleanDbImports (formatTypeDefinition argsTypeStr)
  let cleanReturnsType := cleanDbImports (formatTypeDefinition returnsTypeStr)
  let pascalFunctionName := pascalCase f.name
  String.intercalate "\n"
    ["/** Auto-generated type definitions for RPC function: " ++ f.name ++ " */\n",
     imports,
     "export type " ++ pascalFunctionName ++ "Args = " ++ cleanArgsType ++ ";\n",
     "export type " ++ pascalFunctionName ++ "Returns = " ++ cleanReturnsType ++ ";\n"]

/-- Text of functions/index.ts as createFunctionsIndexFile builds it. -/
def functionsIndexContent (functionNames : List String) : String :=
  String.intercalate "\n"
    (["// Auto-generated index file for RPC functions", ""] ++
      functionNames.map (fun functionName => "export * from \x27./" ++ functionName ++ "\x27;"))

/-- createFunctionsIndexFile from extractors/functions.ts. -/
def createFunctionsIndexFile (functionNames : List String) (functionsDir : Path) (fs : FS) : FS :=
  fs.writeFileSync (pathJoin functionsDir "index.ts") (functionsIndexContent functionNames)

/-- extractFunctions from extractors/functions.ts: create the functions
directory, write one types.ts per function whose name does not start with
an underscore, then write the functions index over the kept names. -/
def extractFunctions (fns : List FunctionDesc) (outputDir : Path) (fs : FS) : FS :=
  let functionsDir := pathJoin outputDir "functions"
  let fs := fs.ensureDir functionsDir
  let fs := fns.foldl (fun fs f =>
    if jsStartsWith f.name "_" then fs
    else
      let functionDir := pathJoin functionsDir f.name
      let fs := fs.ensureDir functionDir
      fs.writeFileSync (pathJoin functionDir "types.ts") (functionTypesContent f)) fs
  let functionNames := (fns.filter (fun f => !jsStartsWith f.name "_")).map (fun f => f.name)
  createFunctionsIndexFile functionNames functionsDir fs

/-- extractTableRelationships from extractors/relationships.ts: stringify
the Relationships property, run the cleanup pipeline and JSON.parse.  The
parse result is cast to a relationship array without validation, so the
returned value is whatever JSON value the parse produced; the
no-property and parse-failure paths return the empty array. -/
def extractTableRelationships (tableName : String) (t : TableDesc) : Json :=
  match t.Relationships with
  | none => Json.arr []
  | some relText =>
    let relationshipsTypeStr := jsOrDefault (typeToString (some relText)) "[]"
    match jsonParse (cleanRelationshipsText relationshipsTypeStr) with
    | some v => v
    | none => Json.arr []

/-- The length-is-zero test the relationship writers perform on the cast
value: reading .length throws on null, is the element count on arrays and
the character count on strings, is undefined (hence not strictly zero) on
numbers and booleans, and on objects compares a length member with the
number zero. -/
def jsLengthIsZero : Json → Except String Bool
  | Json.null => Except.error "TypeError: cannot read length of null"
  | Json.arr l => Except.ok l.isEmpty
  | Json.str s => Except.ok (s = "")
  | Json.num _ => Except.ok false
  | Json.bool _ => Except.ok false
  | Json.obj fields =>
    Except.ok
      (match jsonLookup fields "length" with
       | some (Json.num raw) => raw = "0" || raw = "-0"
       | _ => false)

/-- saveTableRelationships from extractors/relationships.ts: return
early on a zero length, otherwise write the pretty-printed JSON. -/
def saveTableRelationships (relationships : Json) (moduleDir : Path) (fs : FS) :
    Except String FS :=
  match jsLengthIsZero relationships with
  | Except.error e => Except.error e
  | Except.ok true => Except.ok fs
  | Except.ok false =>
    Except.ok (fs.writeFileSync (pathJoin moduleDir "relationships.json")
      (jsonStringify 0 relationships))

/-- View of one parsed relationship as the generator consumes it: the
foreign-key name and referenced relation must be strings (the code calls
replace and charAt on them and throws otherwise), and isOneToOne is used
only for its truthiness. -/
structure RelRecord where
  foreignKeyName : String
  referencedRelation : String
  isOneToOne : Bool

/-- Conforming view of one array element; none marks a value on which the
generator's field accesses throw. -/
def asRelRecord : Json → Option RelRecord
  | Json.obj fields =>
    match jsonLookup fields "foreignKeyName", jsonLookup fields "referencedRelation" with
    | some (Json.str fk), some (Json.str rr) =>
      some ⟨fk, rr, jsTruthy (jsonLookup fields "isOneToOne")⟩
    | _, _ => none
  | _ => none

/-- Conforming view of the whole cast value as a list of relationship
records; none marks a value whose iteration or field accesses throw in
generateRelationshipTypes. -/
def asRelRecords : Json → Option (List RelRecord)
  | Json.arr elems => elems.mapM asRelRecord
  | _ => none

/-- Relation alias name derived from a foreign-key name: the first
occurrence of the table-name prefix and the first occurrence of the
_fkey suffix are removed. -/
def relationName (tableName fk : String) : String :=
  replaceFirst (replaceFirst fk (tableName ++ "_") "") "_fkey" ""

/-- Text of a table module's relations.ts as generateRelationshipTypes
builds it for a conforming record list. -/
def relationsContent (tableName : String) (rels : List RelRecord) : String :=
  let relatedTables := setAddAll [] (rels.map (fun rel => rel.referencedRelation))
  let imports := (relatedTables.filter (fun table => table ≠ tableName)).map (fun table =>
    "import type \x7b " ++ capFirst table ++ "Row \x7d from \x27../" ++ table ++ "/types\x27;")
  let relations := rels.map (fun rel =>
    let relatedTableType := capFirst rel.referencedRelation ++ "Row"
    let rn := relationName tableName rel.foreignKeyName
    if rel.isOneToOne then "export type " ++ rn ++ " = " ++ relatedTableType ++ " | null;"
    else "export type " ++ rn ++ " = " ++ relatedTableType ++ "[];")
  String.intercalate "\n"
    (["/**", " * Auto-generated relationship types for table: " ++ tableName, " */", ""] ++
      imports ++ [""] ++ relations ++
      ["", "/**", " * All available relationships for this table", " */",
       "export interface Relationships \x7b",
       String.intercalate "\n" (rels.map (fun rel =>
         let rn := relationName tableName rel.foreignKeyName
         "  " ++ rn ++ "?: " ++ rn ++ ";")),
       "\x7d", ""])

/-- generateRelationshipTypes from extractors/relationships.ts: return
early on a zero length; iterate the cast value and write relations.ts
when it conforms, throw (as the field accesses do) when it does not. -/
def generateRelationshipTypes (tableName : String) (relationships : Json) (moduleDir : Path)
    (fs : FS) : Except String FS :=
  match jsLengthIsZero relationships with
  | Except.error e => Except.error e
  | Except.ok true => Except.ok fs
  | Except.ok false =>
    match asRelRecords relationships with
    | none => Except.error "TypeError: relationships value is not an array of relationship records"
    | some rels =>
      Except.ok (fs.writeFileSync (pathJoin moduleDir "relations.ts")
        (relationsContent tableName rels))

/-- Text of a table module's hooks.ts as generateTableHooks builds it:
the import header verbatim, followed by the remaining fixed template.
The template tail is a pure function of the table name and the import
path; its constant text is abbreviated here since no claim depends on
it. -/
def tableHooksContent (tableName supabaseImportPath : String) : String :=
  let pascalTableName := pascalCase tableName
  let camelTableName := camelCase tableName
  "\nimport \x7b useQuery, useMutation, useQueryClient, QueryOptions, MutationOptions \x7d from \x27@tanstack/react-query\x27;\n" ++
  "import \x7b " ++ pascalTableName ++ "Row, " ++ pascalTableName ++ "Insert, " ++
    pascalTableName ++ "Update, " ++ pascalTableName ++ "FilterParams \x7d from \x27./types\x27;\n" ++
  "import \x7b supabase \x7d from \x27" ++ supabaseImportPath ++ "\x27;\n" ++
  "// [fixed hooks template body for table " ++ tableName ++ " and keys " ++ camelTableName ++
    "Keys: useGet" ++ pascalTableName ++ " and the other generated data-access hooks;" ++
    " constant tail abbreviated]\n"

/-- generateTableHooks from generators/tableHooks.ts: one write of the
templated hooks file. -/
def generateTableHooks (tableName : String) (moduleDir : Path) (supabaseImportPath : String)
    (fs : FS) : FS :=
  fs.writeFileSync (pathJoin moduleDir "hooks.ts")
    (tableHooksContent tableName supabaseImportPath)

/-- Text of a function module's hooks.ts as generateFunctionHooks builds
it, with the constant template tail abbreviated. -/
def functionHooksContent (functionName supabaseImportPath : String) : String :=
  let pascalFunctionName := pascalCase functionName
  let camelFunctionName := camelCase functionName
  "import \x7b useQuery, useMutation, UseQueryOptions, UseMutationOptions \x7d from \x27@tanstack/react-query\x27;\n" ++
  "import \x7b " ++ pascalFunctionName ++ "Args, " ++ pascalFunctionName ++
    "Returns \x7d from \x27./types\x27;\n" ++
  "import \x7b supabase \x7d from \x27" ++ supabaseImportPath ++ "\x27;\n" ++
  "// [fixed hooks template body for RPC function " ++ functionName ++ ": use" ++
    pascalFunctionName ++ ", use" ++ pascalFunctionName ++ "Mutation and " ++
    camelFunctionName ++ "; constant tail abbreviated]\n"

/-- Text of a function module's index.ts as generateFunctionHooks builds
it. -/
def functionModuleIndexContent (functionName : String) : String :=
  "// Auto-generated index file for " ++ functionName ++ " RPC function\n" ++
  "export * from \x27./types\x27;\nexport * from \x27./hooks\x27;\n"

/-- generateFunctionHooks from generators/functionHooks.ts: write the
hooks file and the module index. -/
def generateFunctionHooks (functionName : String) (moduleDir : Path)
    (supabaseImportPath : String) (fs : FS) : FS :=
  let fs := fs.writeFileSync (pathJoin moduleDir "hooks.ts")
    (functionHooksContent functionName supabaseImportPath)
  fs.writeFileSync (pathJoin moduleDir "index.ts") (functionModuleIndexContent functionName)

/-- generateAllFunctionHooks from generators/functionHooks.ts: for every
entry of the functions directory other than index.ts that is a directory,
generate its hooks. -/
def generateAllFunctionHooks (functionsDir : Path) (supabaseImportPath : String) (fs : FS) : FS :=
  let functionDirs := fs.childNames functionsDir
  functionDirs.foldl (fun fs functionName =>
    if functionName = "index.ts" then fs
    else
      let moduleDir := pathJoin functionsDir functionName
      if fs.isDir moduleDir then generateFunctionHooks functionName moduleDir supabaseImportPath fs
      else fs) fs

/-- Text of storage/types.ts, a constant; its fixed text is abbreviated
since no claim depends on it. -/
def storageTypesContent : String :=
  "/** Auto-generated type definitions for storage operations */\n" ++
  "// [fixed storage type definitions: FileObject, UploadOptions, ListOptions, GetURLOptions, MoveOptions, Bucket; constant tail abbreviated]\n"

/-- Text of storage/hooks.ts as generateStorageHooks builds it, with the
constant template tail abbreviated. -/
def storageHooksContent (supabaseImportPath : String) : String :=
  "\nimport \x7b useQuery, useMutation, useQueryClient, QueryOptions, MutationOptions \x7d from \x27@tanstack/react-query\x27;\n" ++
  "import \x7b supabase \x7d from \x27" ++ supabaseImportPath ++ "\x27;\n" ++
  "// [fixed storage hooks template body; constant tail abbreviated]\n"

/-- Text of storage/index.ts as createStorageIndexFile builds it. -/
def storageIndexContent : String :=
  String.intercalate "\n"
    ["// Auto-generated index file for the storage module",
     "",
     "export * from \x27./types\x27;",
     "export * from \x27./hooks\x27;"]

/-- generateStorageModule from generators/storageHooks.ts: create the
storage directory and write its types, hooks and index files. -/
def generateStorageModule (baseOutputDir : Path) (supabaseImportPath : String) (fs : FS) : FS :=
  let moduleDir := pathJoin baseOutputDir "storage"
  let fs := fs.ensureDir moduleDir
  let fs := fs.writeFileSync (pathJoin moduleDir "types.ts") storageTypesContent
  let fs := fs.writeFileSync (pathJoin moduleDir "hooks.ts")
    (storageHooksContent supabaseImportPath)
  fs.writeFileSync (pathJoin moduleDir "index.ts") storageIndexContent

/-- Per-table relationship-and-hooks loop of run: extract and save the
relationships, generate the relation types (which can throw) and the
table hooks, in source order. -/
def processTables (tbls : List TableDesc) (outputDir : Path) (supabaseImportPath : String)
    (fs : FS) : Except String FS :=
  match tbls with
  | [] => Except.ok fs
  | t :: rest =>
    let moduleDir := pathJoin outputDir t.name
    let relationships := extractTableRelationships t.name t
    match saveTableRelationships relationships moduleDir fs with
    | Except.error e => Except.error e
    | Except.ok fs1 =>
      match generateRelationshipTypes t.name relationships moduleDir fs1 with
      | Except.error e => Except.error e
      | Except.ok fs2 =>
        processTables rest outputDir supabaseImportPath
          (generateTableHooks t.name moduleDir supabaseImportPath fs2)

/-- run from extractor.ts: the whole generation pass over the parsed
declaration file, threading the file system and propagating the throws of
the missing-alias, missing-public and relationship paths. -/
def run (fs : FS) (decl : InputDecl) (options : ExtractorOptions) : Except String FS :=
  let outputDir := options.outputDir
  let supabaseImportPath := options.supabaseImportPath.getD "@/lib/supabase"
  match decl.Database with
  | none => Except.error "Could not find type alias Database"
  | some dbType =>
    match dbType.publicProp with
    | none => Except.error "No \"public\" property found in Database"
    | some pub =>
      let publicTablesProp := pub.Tables
      let publicFunctionsProp := pub.Functions
      let publicEnumsProp := pub.Enums
      let fs := fs.ensureDir outputDir
      let allBaseTypes :=
        match publicTablesProp with
        | some tbls => extractAllBaseTypes tbls []
        | none => []
      let fs := createBaseTypesFile allBaseTypes (pathJoin outputDir "base-types.ts") fs
      let tablesStep :=
        match publicTablesProp with
        | some tbls =>
          processTables tbls outputDir supabaseImportPath (extractTablesByModule tbls outputDir fs)
        | none => Except.ok fs
      match tablesStep with
      | Except.error e => Except.error e
      | Except.ok fs =>
        let fs :=
          match publicEnumsProp with
          | some enums => extractEnums enums (pathJoin outputDir "enums.ts") fs
          | none => fs
        let fs :=
          match publicFunctionsProp with
          | some fns =>
            let fs := extractFunctions fns outputDir fs
            let functionsDir := pathJoin outputDir "functions"
            if fs.existsSync functionsDir then
              generateAllFunctionHooks functionsDir supabaseImportPath fs
            else fs
          | none => fs
        let fs := generateStorageModule outputDir supabaseImportPath fs
        let fs :=
          match publicTablesProp with
          | some tbls => createMainIndexFile tbls outputDir fs
          | none => fs
        Except.ok fs

/-- The empty file system, the initial state of a fresh run. -/
def emptyFS : FS := ⟨[], []⟩

/-- A string usable as one path segment: splitting it as path.join does
returns exactly the string itself.  This excludes the empty string,
single dots and strings containing slashes. -/
def plainSeg (s : String) : Prop :=
  (jsSplit '/' s).filter (fun seg => seg ≠ "" && seg ≠ ".") = [s]

instance plainSegDecidable (s : String) : Decidable (plainSeg s) :=
  inferInstanceAs (Decidable (_ = _))

/-- File-system effects as data: the verification below characterises
every generator as a list of these operations. -/
inductive WriteOp where
  | mkdir (p : Path) : WriteOp
  | write (p : Path) (c : String) : WriteOp

/-- Application of one operation, matching the guarded mkdir and the
write used by the sources. -/
def applyOp (fs : FS) : WriteOp → FS
  | WriteOp.mkdir p => fs.ensureDir p
  | WriteOp.write p c => fs.writeFileSync p c

/-- Application of an operation list, left to right. -/
def applyOps (ops : List WriteOp) (fs : FS) : FS :=
  ops.foldl applyOp fs

/-- Paths written by an operation list. -/
def writePaths (ops : List WriteOp) : List Path :=
  ops.filterMap (fun op =>
    match op with
    | WriteOp.write p _ => some p
    | WriteOp.mkdir _ => none)

/-- Directories created by an operation list. -/
def mkdirTargets (ops : List WriteOp) : List Path :=
  ops.filterMap (fun op =>
    match op with
    | WriteOp.mkdir p => some p
    | WriteOp.write _ _ => none)

/-- Step function of lastWriteOf: a write to the path replaces the
accumulator. -/
def lwStep (p : Path) (acc : Option String) (op : WriteOp) : Option String :=
  match op with
  | WriteOp.write q c => if q = p then some c else acc
  | WriteOp.mkdir _ => acc

/-- Content of the last write to a path in an operation list, if any. -/
def lastWriteOf (ops : List WriteOp) (p : Path) : Option String :=
  ops.foldl (lwStep p) none

/-- Operations of extractTablesByModule for one table. -/
def tableModuleOps (t : TableDesc) (baseOutputDir : Path) : List WriteOp :=
  let moduleDir := pathJoin baseOutputDir t.name
  [WriteOp.mkdir moduleDir,
   WriteOp.write (pathJoin moduleDir "types.ts") (tableTypesContent t),
   WriteOp.write (pathJoin moduleDir "index.ts") (moduleIndexContent t.name)]

/-- Operations of extractTablesByModule. -/
def tablesOps (tables : List TableDesc) (baseOutputDir : Path) : List WriteOp :=
  tables.flatMap (fun t => tableModuleOps t baseOutputDir)

/-- Operations of the per-table relationship-and-hooks step, defined when
the step does not throw. -/
def tableRelOps (t : TableDesc) (outputDir : Path) (sip : String) : Option (List WriteOp) :=
  let moduleDir := pathJoin outputDir t.name
  let v := extractTableRelationships t.name t
  match jsLengthIsZero v with
  | Except.error _ => none
  | Except.ok true =>
    some [WriteOp.write (pathJoin moduleDir "hooks.ts") (tableHooksContent t.name sip)]
  | Except.ok false =>
    match asRelRecords v with
    | none => none
    | some rels =>
      some [WriteOp.write (pathJoin moduleDir "relationships.json") (jsonStringify 0 v),
            WriteOp.write (pathJoin moduleDir "relations.ts") (relationsContent t.name rels),
            WriteOp.write (pathJoin moduleDir "hooks.ts") (tableHooksContent t.name sip)]

/-- Operations of the whole relationship-and-hooks loop. -/
def relTablesOps (tables : List TableDesc) (outputDir : Path) (sip : String) : List WriteOp :=
  tables.flatMap (fun t => (tableRelOps t outputDir sip).getD [])

/-- Operations of extractFunctions for one function. -/
def fnModuleOps (f : FunctionDesc) (functionsDir : Path) : List WriteOp :=
  if jsStartsWith f.name "_" then []
  else
    let d := pathJoin functionsDir f.name
    [WriteOp.mkdir d, WriteOp.write (pathJoin d "types.ts") (functionTypesContent f)]

/-- Operations of extractFunctions. -/
def functionsOps (fns : List FunctionDesc) (outputDir : Path) : List WriteOp :=
  let functionsDir := pathJoin outputDir "functions"
  WriteOp.mkdir functionsDir ::
    (fns.flatMap (fun f => fnModuleOps f functionsDir) ++
     [WriteOp.write (pathJoin functionsDir "index.ts")
       (functionsIndexContent ((fns.filter (fun f => !jsStartsWith f.name "_")).map
         (fun f => f.name)))])

/-- Operations of the storage module generator. -/
def storageOps (outputDir : Path) (sip : String) : List WriteOp :=
  let moduleDir := pathJoin outputDir "storage"
  [WriteOp.mkdir moduleDir,
   WriteOp.write (pathJoin moduleDir "types.ts") storageTypesContent,
   WriteOp.write (pathJoin moduleDir "hooks.ts") (storageHooksContent sip),
   WriteOp.write (pathJoin moduleDir "index.ts") storageIndexContent]

/-- Operations of generateFunctionHooks for one module directory name. -/
def hookModuleOps (functionsDir : Path) (sip : String) (n : String) : List WriteOp :=
  let moduleDir := pathJoin functionsDir n
  [WriteOp.write (pathJoin moduleDir "hooks.ts") (functionHooksContent n sip),
   WriteOp.write (pathJoin moduleDir "index.ts") (functionModuleIndexContent n)]

/-- Operations of generateAllFunctionHooks, determined by the directory
listing and directory test of the given state. -/
def hookOpsOf (fs : FS) (functionsDir : Path) (sip : String) : List WriteOp :=
  (fs.childNames functionsDir).flatMap (fun n =>
    if n = "index.ts" then []
    else if fs.isDir (pathJoin functionsDir n) then hookModuleOps functionsDir sip n
    else [])

/-- Base-type names collected by run for a public description. -/
def btNames (pub : PublicDesc) : List String :=
  match pub.Tables with
  | some tbls => extractAllBaseTypes tbls []
  | none => []

/-- Operations of the base-types step of run. -/
def btOps (pub : PublicDesc) (outputDir : Path) : List WriteOp :=
  if (btNames pub).length = 0 then []
  else [WriteOp.write (pathJoin outputDir "base-types.ts") (baseTypesContent (btNames pub))]

/-- Operations of the tables step of run. -/
def tablesPartOps (pub : PublicDesc) (outputDir : Path) (sip : String) : List WriteOp :=
  match pub.Tables with
  | some tbls => tablesOps tbls outputDir ++ relTablesOps tbls outputDir sip
  | none => []

/-- Operations of the enums step of run. -/
def enumsOps (pub : PublicDesc) (outputDir : Path) : List WriteOp :=
  match pub.Enums with
  | some enums => [WriteOp.write (pathJoin outputDir "enums.ts") (enumsContent enums)]
  | none => []

/-- Operations of the functions-extraction step of run. -/
def fnPartOps (pub : PublicDesc) (outputDir : Path) : List WriteOp :=
  match pub.Functions with
  | some fns => functionsOps fns outputDir
  | none => []

/-- Operations of the first phase of run, everything before the function
hooks: directory creation, base types, table modules with relationships
and hooks, enums and function type extraction. -/
def w1ops (pub : PublicDesc) (outputDir : Path) (sip : String) : List WriteOp :=
  WriteOp.mkdir outputDir ::
    (btOps pub outputDir ++ tablesPartOps pub outputDir sip ++ enumsOps pub outputDir ++
      fnPartOps pub outputDir)

/-- Operations of the main-index step of run. -/
def mainIndexOps (pub : PublicDesc) (outputDir : Path) : List WriteOp :=
  match pub.Tables with
  | some tbls => [WriteOp.write (pathJoin outputDir "index.ts") (mainIndexContent tbls)]
  | none => []

/-- Operations of the function-hooks step of run, determined by the
directory listing of the intermediate state. -/
def hookPartOps (mid : FS) (pub : PublicDesc) (outputDir : Path) (sip : String) : List WriteOp :=
  match pub.Functions with
  | some _ => hookOpsOf mid (pathJoin outputDir "functions") sip
  | none => []

/-- Operations of the second phase of run: function hooks, the storage
module and the main index. -/
def w2ops (mid : FS) (pub : PublicDesc) (outputDir : Path) (sip : String) : List WriteOp :=
  hookPartOps mid pub outputDir sip ++ storageOps outputDir sip ++ mainIndexOps pub outputDir

/-- The state of run after its first phase. -/
def midFS (fs : FS) (pub : PublicDesc) (outputDir : Path) (sip : String) : FS :=
  applyOps (w1ops pub outputDir sip) fs

/-- The final state of a successful run. -/
def runResult (fs : FS) (pub : PublicDesc) (outputDir : Path) (sip : String) : FS :=
  applyOps (w2ops (midFS fs pub outputDir sip) pub outputDir sip) (midFS fs pub outputDir sip)

/-- Concrete options used by the closed instances: output directory out,
no import-path override. -/
def opts0 : ExtractorOptions := ⟨"database.types.ts", ["out"], "tsconfig.json", none⟩

/-- A public schema without Tables, Functions or Enums. -/
def pubNoProps : PublicDesc := ⟨none, none, none⟩

/-- A declaration file whose Database type has an empty public schema. -/
def declNoProps : InputDecl := ⟨some ⟨some pubNoProps⟩⟩

/-- A table whose Relationships type stringifies to plain 5, which the
cleanup pipeline turns into valid JSON that is not an array. -/
def tBadRel : TableDesc := ⟨"t", none, none, none, some "5"⟩

/-- A public schema with only that table, lacking Functions and Enums. -/
def pubBadRel : PublicDesc := ⟨some [tBadRel], none, none⟩

/-- A declaration file with that schema. -/
def declBadRel : InputDecl := ⟨some ⟨some pubBadRel⟩⟩

/-- An enum with two string-literal members and one non-literal member. -/
def enumA : EnumDesc := ⟨"status_kind",
  [UnionMember.strLit "active", UnionMember.other, UnionMember.strLit "archived"]⟩

/-- A public schema with only that enum. -/
def pubEnums : PublicDesc := ⟨none, none, some [enumA]⟩

/-- A declaration file with that schema. -/
def declEnums : InputDecl := ⟨some ⟨some pubEnums⟩⟩

/-- The relationship-free table used by the closed instances. -/
def tUsers : TableDesc := ⟨"users", none, none, none, none⟩

/-- A declaration file whose public schema has only that table. -/
def declUsers : InputDecl := ⟨some ⟨some ⟨some [tUsers], none, none⟩⟩⟩

/-- The table named storage used by the closed instances. -/
def tStorage : TableDesc := ⟨"storage", none, none, none, none⟩

/-- A declaration file whose public schema has only the storage table. -/
def declStorage : InputDecl := ⟨some ⟨some ⟨some [tStorage], none, none⟩⟩⟩

/-- A path all of whose segments are plain. -/
def plainPath (p : Path) : Prop := ∀ seg ∈ p, plainSeg seg

/-- Well-formed file system: every directory and file path has only plain
segments, as paths produced by path.join do. -/
def FSWF (fs : FS) : Prop :=
  (∀ p ∈ fs.dirs, plainPath p) ∧ (∀ e ∈ fs.files, plainPath e.1)

/-- Target path of an operation. -/
def opPath : WriteOp → Path
  | WriteOp.mkdir p => p
  | WriteOp.write p _ => p

/-- The underscore-named function used by the closed instances. -/
def fPriv : FunctionDesc := ⟨"_private", none, none⟩

/-- A declaration file whose public schema has only that function. -/
def declPriv : InputDecl := ⟨some ⟨some ⟨none, some [fPriv], none⟩⟩⟩

/-- The plainly named function used by the closed instances. -/
def fAdd : FunctionDesc := ⟨"add_numbers", none, none⟩

/-- A declaration file whose public schema has only that function. -/
def declFns : InputDecl := ⟨some ⟨some ⟨none, some [fAdd], none⟩⟩⟩

/-- Occurrence of an identifier inside a moku import reference in a
character list: the text contains the opening literal, arbitrary window
content, the moku literal and then the identifier. -/
def occursRefIn (l : List Char) (n : String) : Prop :=
  n.data ≠ [] ∧ (∀ c ∈ n.data, isWordChar c = true) ∧
  ∃ a mid b, l = a ++ impOpen ++ mid ++ mokuLit ++ n.data ++ b

/-- Occurrence of an identifier inside a moku import reference in a type
string. -/
def occursRef (s n : String) : Prop := occursRefIn s.data n

/-- A table whose Row type references a moku base type. -/
def tRef : TableDesc :=
  ⟨"posts", some "import(\"@/moku/lib/database.types\").Json", none, none, none⟩

/-- A public schema with only that table. -/
def pubRef : PublicDesc := ⟨some [tRef], none, none⟩

/-- A declaration file with that schema. -/
def declRef : InputDecl := ⟨some ⟨some pubRef⟩⟩

/-- Upper-casing of the first character of a segment. -/
def upperFirst : List Char → List Char
  | [] => []
  | c :: r => c.toUpper :: r

/-- A name laid out as a first segment followed by separator-and-segment
blocks. -/
def renderName (seg0 : List Char) (parts : List (Char × List Char)) : List Char :=
  seg0 ++ parts.flatMap (fun p => p.1 :: p.2)

/-- Accumulator form of lastWriteOf: folding from an arbitrary start
yields the last write when one exists and the start value otherwise. -/
theorem lastWriteOf_acc (ops : List WriteOp) (p : Path) (acc : Option String) :
    (ops.foldl (lwStep p) acc) =
    (match lastWriteOf ops p with
     | some c => some c
     | none => acc) := by
  induction ops generalizing acc with
  | nil => simp [lastWriteOf]
  | cons op rest ih =>
    rw [List.foldl_cons, ih]
    have hr : lastWriteOf (op :: rest) p = rest.foldl (lwStep p) (lwStep p none op) := by
      rw [lastWriteOf, List.foldl_cons]
    rw [hr, ih (lwStep p none op)]
    cases hl : lastWriteOf rest p with
    | some c => rfl
    | none =>
      cases op with
      | mkdir q => rfl
      | write q c =>
        by_cases hq : q = p
        · simp [lwStep, hq]
        · simp [lwStep, hq]

/-- lastWriteOf on a cons. -/
theorem lastWriteOf_cons (op : WriteOp) (ops : List WriteOp) (p : Path) :
    lastWriteOf (op :: ops) p =
    (match lastWriteOf ops p with
     | some c => some c
     | none => lwStep p none op) := by
  rw [lastWriteOf, List.foldl_cons]
  exact lastWriteOf_acc ops p (lwStep p none op)

/-- lastWriteOf on an append: the later block wins. -/
theorem lastWriteOf_append (a b : List WriteOp) (p : Path) :
    lastWriteOf (a ++ b) p =
    (match lastWriteOf b p with
     | some c => some c
     | none => lastWriteOf a p) := by
  rw [lastWriteOf, List.foldl_append]
  exact lastWriteOf_acc b p _

/-- An operation list none of whose writes target p has no last write at
p. -/
theorem lastWriteOf_eq_none (ops : List WriteOp) (p : Path)
    (h : ∀ q c, WriteOp.write q c ∈ ops → q ≠ p) :
    lastWriteOf ops p = none := by
  induction ops with
  | nil => rfl
  | cons op rest ih =>
    rw [lastWriteOf_cons]
    have hrest : lastWriteOf rest p = none := ih (fun q c hq => h q c (List.mem_cons_of_mem _ hq))
    rw [hrest]
    cases op with
    | mkdir q => rfl
    | write q c =>
      have : q ≠ p := h q c (List.mem_cons_self _ _)
      simp [lwStep, this]

/-- A written path always has a last write. -/
theorem lastWriteOf_isSome_of_mem (ops : List WriteOp) (p : Path)
    (h : p ∈ writePaths ops) : ∃ c, lastWriteOf ops p = some c := by
  induction ops with
  | nil => simp [writePaths] at h
  | cons op rest ih =>
    rw [lastWriteOf_cons]
    by_cases hr : p ∈ writePaths rest
    · obtain ⟨c, hc⟩ := ih hr
      exact ⟨c, by rw [hc]⟩
    · cases hlw : lastWriteOf rest p with
      | some c => exact ⟨c, rfl⟩
      | none =>
        cases op with
        | mkdir q =>
          exfalso
          apply hr
          simpa [writePaths] using h
        | write q c =>
          have : q = p := by
            simp only [writePaths, List.filterMap_cons] at h
            rcases List.mem_cons.mp h with h1 | h2
            · exact h1.symm
            · exact absurd h2 (by simpa [writePaths] using hr)
          exact ⟨c, by simp [lwStep, this]⟩

/-- Overwriting a key in place: the first entry found at that key becomes
the new pair exactly when the key is present. -/
theorem find_overwrite (l : List (Path × String)) (p : Path) (c : String) :
    (l.map (fun e => if e.1 = p then (p, c) else e)).find? (fun e => e.1 = p) =
    (if l.any (fun e => e.1 = p) then some (p, c) else none) := by
  induction l with
  | nil => simp
  | cons f rest ih =>
    by_cases hf : f.1 = p
    · rw [List.map_cons, if_pos hf, List.find?_cons_of_pos _ (by simp)]
      simp [List.any_cons, hf]
    · rw [List.map_cons, if_neg hf, List.find?_cons_of_neg _ (by simp [hf]), ih]
      have hor : (decide (f.1 = p) || rest.any fun e => decide (e.1 = p)) =
          (rest.any fun e => decide (e.1 = p)) := by
        rw [decide_eq_false hf, Bool.false_or]
      rw [List.any_cons, hor]

/-- Overwriting a key in place leaves lookups of other keys unchanged. -/
theorem find_overwrite_other (l : List (Path × String)) (p q : Path) (c : String)
    (hqp : q ≠ p) :
    (l.map (fun e => if e.1 = p then (p, c) else e)).find? (fun e => e.1 = q) =
    l.find? (fun e => e.1 = q) := by
  induction l with
  | nil => simp
  | cons f rest ih =>
    by_cases hf : f.1 = p
    · have hfq : ¬(f.1 = q) := by rw [hf]; exact fun h => hqp h.symm
      have hpq : ¬(p = q) := fun h => hqp h.symm
      rw [List.map_cons, if_pos hf, List.find?_cons_of_neg _ (by simp [hpq]),
        List.find?_cons_of_neg _ (by simp [hfq])]
      exact ih
    · by_cases hfq : f.1 = q
      · rw [List.map_cons, if_neg hf, List.find?_cons_of_pos _ (by simp [hfq]),
          List.find?_cons_of_pos _ (by simp [hfq])]
      · rw [List.map_cons, if_neg hf, List.find?_cons_of_neg _ (by simp [hfq]),
          List.find?_cons_of_neg _ (by simp [hfq])]
        exact ih

/-- Appending a fresh entry: lookups find it exactly when no earlier
entry has its key. -/
theorem find_append_pair (l : List (Path × String)) (p q : Path) (c : String) :
    (l ++ [(p, c)]).find? (fun e => e.1 = q) =
    (match l.find? (fun e => e.1 = q) with
     | some e => some e
     | none => if p = q then some (p, c) else none) := by
  induction l with
  | nil =>
    by_cases hpq : p = q
    · rw [List.nil_append, List.find?_cons_of_pos _ (by simp [hpq])]
      simp [List.find?, hpq]
    · rw [List.nil_append, List.find?_cons_of_neg _ (by simp [hpq])]
      simp [List.find?, hpq]
  | cons f rest ih =>
    by_cases hf : f.1 = q
    · rw [List.cons_append, List.find?_cons_of_pos _ (by simp [hf]),
        List.find?_cons_of_pos _ (by simp [hf])]
    · rw [List.cons_append, List.find?_cons_of_neg _ (by simp [hf]),
        List.find?_cons_of_neg _ (by simp [hf])]
      exact ih

/-- Reading the path just written. -/
theorem FS.read_writeFileSync_self (fs : FS) (p : Path) (c : String) :
    (fs.writeFileSync p c).read p = some c := by
  unfold FS.writeFileSync FS.read
  by_cases h : fs.files.any (fun e => e.1 = p)
  · rw [if_pos h]
    show ((fs.files.map (fun e => if e.1 = p then (p, c) else e)).find?
      (fun e => e.1 = p)).map (fun e => e.2) = some c
    rw [find_overwrite, if_pos h]
    rfl
  · rw [if_neg h]
    show ((fs.files ++ [(p, c)]).find? (fun e => e.1 = p)).map (fun e => e.2) = some c
    rw [find_append_pair]
    have hnone : fs.files.find? (fun e => e.1 = p) = none := by
      rw [List.find?_eq_none]
      intro e hmem hpe
      apply h
      rw [List.any_eq_true]
      exact ⟨e, hmem, hpe⟩
    rw [hnone]
    simp

/-- Reading another path after a write. -/
theorem FS.read_writeFileSync_other (fs : FS) (p q : Path) (c : String) (hqp : q ≠ p) :
    (fs.writeFileSync p c).read q = fs.read q := by
  unfold FS.writeFileSync FS.read
  by_cases h : fs.files.any (fun e => e.1 = p)
  · rw [if_pos h]
    show ((fs.files.map (fun e => if e.1 = p then (p, c) else e)).find?
      (fun e => e.1 = q)).map (fun e => e.2) =
      (fs.files.find? (fun e => e.1 = q)).map (fun e => e.2)
    rw [find_overwrite_other _ _ _ _ hqp]
  · rw [if_neg h]
    show ((fs.files ++ [(p, c)]).find? (fun e => e.1 = q)).map (fun e => e.2) =
      (fs.files.find? (fun e => e.1 = q)).map (fun e => e.2)
    rw [find_append_pair]
    have hpq : ¬(p = q) := fun hh => hqp hh.symm
    cases hf : fs.files.find? (fun e => e.1 = q) <;> simp [hpq]

/-- Writes do not change the directory set. -/
theorem FS.dirs_writeFileSync (fs : FS) (p : Path) (c : String) :
    (fs.writeFileSync p c).dirs = fs.dirs := by
  unfold FS.writeFileSync
  by_cases h : fs.files.any (fun e => e.1 = p) <;> simp [h]

/-- Directory creation does not change the files. -/
theorem FS.files_ensureDir (fs : FS) (p : Path) :
    (fs.ensureDir p).files = fs.files := by
  unfold FS.ensureDir FS.mkdirp
  by_cases h : fs.existsSync p <;> simp [h]

/-- Reads are unchanged by directory creation. -/
theorem FS.read_ensureDir (fs : FS) (p q : Path) :
    (fs.ensureDir p).read q = fs.read q := by
  unfold FS.read
  rw [FS.files_ensureDir]

/-- Key presence as an any-test. -/
theorem any_key_iff (fs : FS) (p : Path) :
    fs.files.any (fun e => e.1 = p) = true ↔ p ∈ fs.files.map (fun e => e.1) := by
  rw [List.any_eq_true]
  constructor
  · rintro ⟨e, hmem, he⟩
    exact List.mem_map.mpr ⟨e, hmem, of_decide_eq_true he⟩
  · intro h
    obtain ⟨e, hmem, he⟩ := List.mem_map.mp h
    exact ⟨e, hmem, decide_eq_true he⟩

/-- Keys after a write: unchanged for a present key, appended for a fresh
one. -/
theorem keys_writeFileSync (fs : FS) (p : Path) (c : String) :
    (fs.writeFileSync p c).files.map (fun e => e.1) =
    (if p ∈ fs.files.map (fun e => e.1) then fs.files.map (fun e => e.1)
     else fs.files.map (fun e => e.1) ++ [p]) := by
  unfold FS.writeFileSync
  by_cases h : fs.files.any (fun e => e.1 = p)
  · rw [if_pos h, if_pos ((any_key_iff fs p).mp h)]
    show (fs.files.map _).map _ = _
    rw [List.map_map]
    apply List.map_congr_left
    intro e _
    by_cases he : e.1 = p
    · simp [he]
    · simp [he]
  · have hmem : ¬(p ∈ fs.files.map (fun e => e.1)) := fun hm => h ((any_key_iff fs p).mpr hm)
    rw [if_neg h, if_neg hmem]
    simp

/-- Directory list after mkdirp contains the old directories. -/
theorem FS.dirs_mkdirp_sub (fs : FS) (p q : Path) (h : q ∈ fs.dirs) :
    q ∈ (fs.mkdirp p).dirs := by
  unfold FS.mkdirp
  exact List.mem_append_left _ h

/-- Directory list after ensureDir contains the old directories. -/
theorem FS.dirs_ensureDir_sub (fs : FS) (p q : Path) (h : q ∈ fs.dirs) :
    q ∈ (fs.ensureDir p).dirs := by
  unfold FS.ensureDir
  by_cases he : fs.existsSync p
  · rwa [if_pos he]
  · rw [if_neg he]
    exact fs.dirs_mkdirp_sub p q h

/-- New directories of mkdirp are prefixes of the target. -/
theorem FS.dirs_mkdirp_bound (fs : FS) (p q : Path) (h : q ∈ (fs.mkdirp p).dirs) :
    q ∈ fs.dirs ∨ q ∈ prefixesOf p := by
  unfold FS.mkdirp at h
  rcases List.mem_append.mp h with h1 | h2
  · exact Or.inl h1
  · exact Or.inr (List.mem_of_mem_filter h2)

/-- New directories of ensureDir are prefixes of the target. -/
theorem FS.dirs_ensureDir_bound (fs : FS) (p q : Path) (h : q ∈ (fs.ensureDir p).dirs) :
    q ∈ fs.dirs ∨ q ∈ prefixesOf p := by
  unfold FS.ensureDir at h
  by_cases he : fs.existsSync p
  · rw [if_pos he] at h; exact Or.inl h
  · rw [if_neg he] at h; exact fs.dirs_mkdirp_bound p q h

/-- A nonempty path is one of its own prefixes. -/
theorem self_mem_prefixesOf (p : Path) (h : p ≠ []) : p ∈ prefixesOf p := by
  unfold prefixesOf
  have hl : 0 < p.length := List.length_pos.mpr h
  refine List.mem_map.mpr ⟨p.length - 1, ?_, ?_⟩
  · rw [List.mem_range]; omega
  · rw [Nat.sub_add_cancel hl, List.take_length]

/-- existsSync holds after ensureDir on a nonempty target. -/
theorem FS.existsSync_ensureDir_self (fs : FS) (p : Path) (h : p ≠ []) :
    (fs.ensureDir p).existsSync p = true := by
  unfold FS.ensureDir
  by_cases he : fs.existsSync p
  · rwa [if_pos he]
  · rw [if_neg he]
    unfold FS.existsSync FS.mkdirp
    have : p ∈ fs.dirs ++ (prefixesOf p).filter (fun q => q ∉ fs.dirs) := by
      by_cases hd : p ∈ fs.dirs
      · exact List.mem_append_left _ hd
      · refine List.mem_append_right _ (List.mem_filter.mpr ⟨self_mem_prefixesOf p h, ?_⟩)
        exact decide_eq_true hd
    rw [Bool.or_eq_true]
    exact Or.inl (decide_eq_true this)

/-- existsSync is monotone under every operation. -/
theorem FS.existsSync_mono_applyOp (fs : FS) (op : WriteOp) (q : Path)
    (h : fs.existsSync q = true) : (applyOp fs op).existsSync q = true := by
  cases op with
  | mkdir p =>
    show (fs.ensureDir p).existsSync q = true
    unfold FS.existsSync at h ⊢
    rw [Bool.or_eq_true] at h ⊢
    rcases h with h1 | h2
    · exact Or.inl (decide_eq_true (fs.dirs_ensureDir_sub p q (of_decide_eq_true h1)))
    · refine Or.inr ?_
      show ((fs.ensureDir p).files.any (fun e => e.1 = q)) = true
      rw [FS.files_ensureDir]
      exact h2
  | write p c =>
    show (fs.writeFileSync p c).existsSync q = true
    unfold FS.existsSync at h ⊢
    rw [Bool.or_eq_true] at h ⊢
    rcases h with h1 | h2
    · refine Or.inl ?_
      show decide (q ∈ (fs.writeFileSync p c).dirs) = true
      rw [FS.dirs_writeFileSync]
      exact h1
    · refine Or.inr ?_
      rw [any_key_iff] at h2 ⊢
      rw [keys_writeFileSync]
      by_cases hp : p ∈ fs.files.map (fun e => e.1)
      · rw [if_pos hp]; exact h2
      · rw [if_neg hp]; exact List.mem_append_left _ h2

/-- existsSync is monotone under operation lists. -/
theorem FS.existsSync_mono_applyOps (fs : FS) (ops : List WriteOp) (q : Path)
    (h : fs.existsSync q = true) : (applyOps ops fs).existsSync q = true := by
  induction ops generalizing fs with
  | nil => exact h
  | cons op rest ih =>
    rw [applyOps, List.foldl_cons]
    exact ih (applyOp fs op) (fs.existsSync_mono_applyOp op q h)

/-- Reading after an operation list: the last write wins, otherwise the
original content persists. -/
theorem read_applyOps (ops : List WriteOp) (fs : FS) (p : Path) :
    (applyOps ops fs).read p =
    (match lastWriteOf ops p with
     | some c => some c
     | none => fs.read p) := by
  induction ops generalizing fs with
  | nil => simp [applyOps, lastWriteOf]
  | cons op rest ih =>
    rw [applyOps, List.foldl_cons]
    show (applyOps rest (applyOp fs op)).read p = _
    rw [ih, lastWriteOf_cons]
    cases hl : lastWriteOf rest p with
    | some c => rfl
    | none =>
      cases op with
      | mkdir q =>
        show (fs.ensureDir q).read p = _
        rw [FS.read_ensureDir]
        rfl
      | write q c =>
        show (fs.writeFileSync q c).read p = _
        by_cases hq : q = p
        · subst hq
          rw [FS.read_writeFileSync_self]
          simp [lwStep]
        · rw [FS.read_writeFileSync_other _ _ _ _ (fun hh => hq hh.symm)]
          simp [lwStep, hq]

/-- mkdirTargets on a cons of a mkdir. -/
theorem mkdirTargets_cons_mkdir (p : Path) (ops : List WriteOp) :
    mkdirTargets (WriteOp.mkdir p :: ops) = p :: mkdirTargets ops := by
  simp [mkdirTargets, List.filterMap_cons]

/-- mkdirTargets on a cons of a write. -/
theorem mkdirTargets_cons_write (p : Path) (c : String) (ops : List WriteOp) :
    mkdirTargets (WriteOp.write p c :: ops) = mkdirTargets ops := by
  simp [mkdirTargets, List.filterMap_cons]

/-- writePaths on a cons of a mkdir. -/
theorem writePaths_cons_mkdir (p : Path) (ops : List WriteOp) :
    writePaths (WriteOp.mkdir p :: ops) = writePaths ops := by
  simp [writePaths, List.filterMap_cons]

/-- writePaths on a cons of a write. -/
theorem writePaths_cons_write (p : Path) (c : String) (ops : List WriteOp) :
    writePaths (WriteOp.write p c :: ops) = p :: writePaths ops := by
  simp [writePaths, List.filterMap_cons]

/-- ensureDir of an existing path is the identity. -/
theorem FS.ensureDir_of_exists (fs : FS) (p : Path) (h : fs.existsSync p = true) :
    fs.ensureDir p = fs := by
  unfold FS.ensureDir
  rw [if_pos h]

/-- Every nonempty mkdir target exists after the operation list runs. -/
theorem mkdirTargets_exist (ops : List WriteOp) (fs : FS) (p : Path)
    (hmem : p ∈ mkdirTargets ops) (hne : p ≠ []) :
    (applyOps ops fs).existsSync p = true := by
  induction ops generalizing fs with
  | nil => simp [mkdirTargets] at hmem
  | cons op rest ih =>
    rw [applyOps, List.foldl_cons]
    show (applyOps rest (applyOp fs op)).existsSync p = true
    cases op with
    | mkdir q =>
      rw [mkdirTargets_cons_mkdir] at hmem
      rcases List.mem_cons.mp hmem with rfl | hmem2
      · exact FS.existsSync_mono_applyOps _ rest p (fs.existsSync_ensureDir_self p hne)
      · exact ih (applyOp fs (WriteOp.mkdir q)) hmem2
    | write q c =>
      rw [mkdirTargets_cons_write] at hmem
      exact ih (applyOp fs (WriteOp.write q c)) hmem

/-- The path just written is among the keys. -/
theorem mem_keys_writeFileSync_self (fs : FS) (p : Path) (c : String) :
    p ∈ (fs.writeFileSync p c).files.map (fun e => e.1) := by
  rw [keys_writeFileSync]
  by_cases hp : p ∈ fs.files.map (fun e => e.1)
  · rwa [if_pos hp]
  · rw [if_neg hp]
    exact List.mem_append_right _ (List.mem_singleton.mpr rfl)

/-- Key presence is monotone under every operation. -/
theorem mem_keys_mono_applyOp (fs : FS) (op : WriteOp) (q : Path)
    (h : q ∈ fs.files.map (fun e => e.1)) :
    q ∈ (applyOp fs op).files.map (fun e => e.1) := by
  cases op with
  | mkdir p =>
    show q ∈ (fs.ensureDir p).files.map (fun e => e.1)
    rw [FS.files_ensureDir]
    exact h
  | write p c =>
    show q ∈ (fs.writeFileSync p c).files.map (fun e => e.1)
    rw [keys_writeFileSync]
    by_cases hp : p ∈ fs.files.map (fun e => e.1)
    · rwa [if_pos hp]
    · rw [if_neg hp]
      exact List.mem_append_left _ h

/-- Key presence is monotone under operation lists. -/
theorem mem_keys_mono_applyOps (fs : FS) (ops : List WriteOp) (q : Path)
    (h : q ∈ fs.files.map (fun e => e.1)) :
    q ∈ (applyOps ops fs).files.map (fun e => e.1) := by
  induction ops generalizing fs with
  | nil => exact h
  | cons op rest ih =>
    rw [applyOps, List.foldl_cons]
    exact ih (applyOp fs op) (mem_keys_mono_applyOp fs op q h)

/-- Every written path is among the keys after the operation list runs. -/
theorem writePaths_in_keys (ops : List WriteOp) (fs : FS) (p : Path)
    (hmem : p ∈ writePaths ops) :
    p ∈ (applyOps ops fs).files.map (fun e => e.1) := by
  induction ops generalizing fs with
  | nil => simp [writePaths] at hmem
  | cons op rest ih =>
    rw [applyOps, List.foldl_cons]
    show p ∈ (applyOps rest (applyOp fs op)).files.map (fun e => e.1)
    cases op with
    | mkdir q =>
      rw [writePaths_cons_mkdir] at hmem
      exact ih (applyOp fs (WriteOp.mkdir q)) hmem
    | write q c =>
      rw [writePaths_cons_write] at hmem
      rcases List.mem_cons.mp hmem with rfl | hmem2
      · exact mem_keys_mono_applyOps _ rest p (mem_keys_writeFileSync_self fs p c)
      · exact ih (applyOp fs (WriteOp.write q c)) hmem2

/-- When every mkdir target already exists the directory list never
changes. -/
theorem dirs_applyOps_of_exists (ops : List WriteOp) (fs : FS)
    (h : ∀ p ∈ mkdirTargets ops, fs.existsSync p = true) :
    (applyOps ops fs).dirs = fs.dirs := by
  induction ops generalizing fs with
  | nil => rfl
  | cons op rest ih =>
    rw [applyOps, List.foldl_cons]
    cases op with
    | mkdir q =>
      have hq : fs.existsSync q = true := h q (by rw [mkdirTargets_cons_mkdir]; exact List.mem_cons_self _ _)
      show (applyOps rest (applyOp fs (WriteOp.mkdir q))).dirs = fs.dirs
      have : applyOp fs (WriteOp.mkdir q) = fs := fs.ensureDir_of_exists q hq
      rw [this]
      exact ih fs (fun p hp => h p (by rw [mkdirTargets_cons_mkdir]; exact List.mem_cons_of_mem _ hp))
    | write q c =>
      show (applyOps rest (applyOp fs (WriteOp.write q c))).dirs = fs.dirs
      have hd : (applyOp fs (WriteOp.write q c)).dirs = fs.dirs := FS.dirs_writeFileSync fs q c
      rw [ih (applyOp fs (WriteOp.write q c)) (fun p hp => ?_), hd]
      refine fs.existsSync_mono_applyOp (WriteOp.write q c) p ?_
      exact h p (by rw [mkdirTargets_cons_write]; exact hp)

/-- When every written path is already a key the key list never
changes. -/
theorem keys_applyOps_of_present (ops : List WriteOp) (fs : FS)
    (h : ∀ p ∈ writePaths ops, p ∈ fs.files.map (fun e => e.1)) :
    (applyOps ops fs).files.map (fun e => e.1) = fs.files.map (fun e => e.1) := by
  induction ops generalizing fs with
  | nil => rfl
  | cons op rest ih =>
    rw [applyOps, List.foldl_cons]
    cases op with
    | mkdir q =>
      show (applyOps rest (applyOp fs (WriteOp.mkdir q))).files.map (fun e => e.1) = _
      have hk : (applyOp fs (WriteOp.mkdir q)).files = fs.files := FS.files_ensureDir fs q
      rw [ih (applyOp fs (WriteOp.mkdir q)) (fun p hp => ?_), hk]
      rw [hk]
      exact h p (by rw [writePaths_cons_mkdir]; exact hp)
    | write q c =>
      have hq : q ∈ fs.files.map (fun e => e.1) :=
        h q (by rw [writePaths_cons_write]; exact List.mem_cons_self _ _)
      show (applyOps rest (applyOp fs (WriteOp.write q c))).files.map (fun e => e.1) = _
      have hk : (applyOp fs (WriteOp.write q c)).files.map (fun e => e.1) =
          fs.files.map (fun e => e.1) := by
        show (fs.writeFileSync q c).files.map (fun e => e.1) = _
        rw [keys_writeFileSync, if_pos hq]
      rw [ih (applyOp fs (WriteOp.write q c)) (fun p hp => ?_), hk]
      rw [hk]
      exact h p (by rw [writePaths_cons_write]; exact List.mem_cons_of_mem _ hp)

/-- Entry lists with equal keys without duplicates and equal lookups are
equal. -/
theorem entries_ext (l1 l2 : List (Path × String))
    (hk : l1.map (fun e => e.1) = l2.map (fun e => e.1))
    (hnd : (l1.map (fun e => e.1)).Nodup)
    (hr : ∀ p, (l1.find? (fun e => e.1 = p)).map (fun e => e.2) =
      (l2.find? (fun e => e.1 = p)).map (fun e => e.2)) :
    l1 = l2 := by
  induction l1 generalizing l2 with
  | nil =>
    cases l2 with
    | nil => rfl
    | cons e2 r2 => simp at hk
  | cons e1 r1 ih =>
    cases l2 with
    | nil => simp at hk
    | cons e2 r2 =>
      rw [List.map_cons, List.map_cons] at hk
      have hk1 : e1.1 = e2.1 := (List.cons.injEq _ _ _ _).mp hk |>.1
      have hkr : r1.map (fun e => e.1) = r2.map (fun e => e.1) :=
        (List.cons.injEq _ _ _ _).mp hk |>.2
      have hv : e1.2 = e2.2 := by
        have := hr e1.1
        rw [List.find?_cons_of_pos _ (by simp), List.find?_cons_of_pos _ (by simp [hk1])] at this
        simpa using this
      have hnotmem : e1.1 ∉ r1.map (fun e => e.1) := by
        rw [List.map_cons] at hnd
        exact (List.nodup_cons.mp hnd).1
      have hndr : (r1.map (fun e => e.1)).Nodup := by
        rw [List.map_cons] at hnd
        exact (List.nodup_cons.mp hnd).2
      have hrest : r1 = r2 := by
        refine ih r2 hkr hndr ?_
        intro p
        by_cases hp : p = e1.1
        · subst hp
          have h1 : r1.find? (fun e => e.1 = e1.1) = none := by
            rw [List.find?_eq_none]
            intro e hmem he
            exact hnotmem (List.mem_map.mpr ⟨e, hmem, of_decide_eq_true he⟩)
          have h2 : r2.find? (fun e => e.1 = e1.1) = none := by
            rw [List.find?_eq_none]
            intro e hmem he
            refine hnotmem ?_
            rw [hkr]
            exact List.mem_map.mpr ⟨e, hmem, of_decide_eq_true he⟩
          rw [h1, h2]
        · have := hr p
          have hne1 : ¬(e1.1 = p) := fun hh => hp hh.symm
          have hne2 : ¬(e2.1 = p) := by rw [← hk1]; exact hne1
          rw [List.find?_cons_of_neg _ (by simp [hne1]),
            List.find?_cons_of_neg _ (by simp [hne2])] at this
          exact this
      cases e1 with
      | mk k1 v1 =>
        cases e2 with
        | mk k2 v2 =>
          simp only at hk1 hv
          rw [hk1, hv, hrest]

/-- extractTablesByModule as an operation list. -/
theorem extractTablesByModule_eq (tables : List TableDesc) (dir : Path) (fs : FS) :
    extractTablesByModule tables dir fs = applyOps (tablesOps tables dir) fs := by
  induction tables generalizing fs with
  | nil => rfl
  | cons t rest ih =>
    rw [extractTablesByModule, List.foldl_cons]
    rw [tablesOps, List.flatMap_cons, applyOps, List.foldl_append]
    rw [show ∀ fs2 : FS, List.foldl applyOp fs2 (rest.flatMap (fun t => tableModuleOps t dir)) =
      applyOps (tablesOps rest dir) fs2 from fun _ => rfl]
    rw [← ih]
    rfl

/-- processTables as an operation list when every table processes without
throwing. -/
theorem processTables_ok (tables : List TableDesc) (outputDir : Path) (sip : String) (fs : FS)
    (h : ∀ t ∈ tables, (tableRelOps t outputDir sip).isSome) :
    processTables tables outputDir sip fs =
      Except.ok (applyOps (relTablesOps tables outputDir sip) fs) := by
  induction tables generalizing fs with
  | nil => rfl
  | cons t rest ih =>
    have ht := h t (List.mem_cons_self _ _)
    have hrest : ∀ t2 ∈ rest, (tableRelOps t2 outputDir sip).isSome :=
      fun t2 h2 => h t2 (List.mem_cons_of_mem _ h2)
    simp only [tableRelOps] at ht
    rw [processTables, relTablesOps, List.flatMap_cons]
    cases hz : jsLengthIsZero (extractTableRelationships t.name t) with
    | error e => rw [hz] at ht; simp at ht
    | ok b =>
      cases b with
      | true =>
        simp only [saveTableRelationships, generateRelationshipTypes, hz]
        rw [ih _ hrest]
        simp only [tableRelOps, hz, Option.getD_some, applyOps, List.foldl_append,
          List.foldl_cons, List.foldl_nil]
        rfl
      | false =>
        rw [hz] at ht
        cases ha : asRelRecords (extractTableRelationships t.name t) with
        | none => rw [ha] at ht; simp at ht
        | some rels =>
          simp only [saveTableRelationships, generateRelationshipTypes, hz, ha]
          rw [ih _ hrest]
          simp only [tableRelOps, hz, ha, Option.getD_some, applyOps, List.foldl_append,
            List.foldl_cons, List.foldl_nil]
          rfl

/-- A successful processTables run means every table processed without
throwing. -/
theorem processTables_ok_inv (tables : List TableDesc) (outputDir : Path) (sip : String)
    (fs fs2 : FS) (h : processTables tables outputDir sip fs = Except.ok fs2) :
    ∀ t ∈ tables, (tableRelOps t outputDir sip).isSome := by
  induction tables generalizing fs with
  | nil => intro t ht; cases ht
  | cons t rest ih =>
    intro t2 ht2
    rw [processTables] at h
    cases hz : jsLengthIsZero (extractTableRelationships t.name t) with
    | error e =>
      simp only [saveTableRelationships, hz] at h
      simp at h
    | ok b =>
      cases b with
      | true =>
        simp only [saveTableRelationships, generateRelationshipTypes, hz] at h
        rcases List.mem_cons.mp ht2 with rfl | hmem
        · simp only [tableRelOps, hz]; rfl
        · exact ih _ h t2 hmem
      | false =>
        cases ha : asRelRecords (extractTableRelationships t.name t) with
        | none =>
          simp only [saveTableRelationships, generateRelationshipTypes, hz, ha] at h
          simp at h
        | some rels =>
          simp only [saveTableRelationships, generateRelationshipTypes, hz, ha] at h
          rcases List.mem_cons.mp ht2 with rfl | hmem
          · simp only [tableRelOps, hz, ha]; rfl
          · exact ih _ h t2 hmem

/-- extractFunctions as an operation list. -/
theorem extractFunctions_eq (fns : List FunctionDesc) (outputDir : Path) (fs : FS) :
    extractFunctions fns outputDir fs = applyOps (functionsOps fns outputDir) fs := by
  rw [extractFunctions, functionsOps]
  rw [applyOps, List.foldl_cons, List.foldl_append]
  have hloop : ∀ (l : List FunctionDesc) (fs2 : FS),
      l.foldl (fun fs f =>
        if jsStartsWith f.name "_" then fs
        else
          let functionDir := pathJoin (pathJoin outputDir "functions") f.name
          let fs := fs.ensureDir functionDir
          fs.writeFileSync (pathJoin functionDir "types.ts") (functionTypesContent f)) fs2 =
      List.foldl applyOp fs2 (l.flatMap (fun f => fnModuleOps f (pathJoin outputDir "functions"))) := by
    intro l
    induction l with
    | nil => intro fs2; rfl
    | cons f rest ihl =>
      intro fs2
      rw [List.foldl_cons, List.flatMap_cons, List.foldl_append]
      by_cases hu : jsStartsWith f.name "_"
      · rw [if_pos hu]
        rw [fnModuleOps, if_pos hu]
        exact ihl fs2
      · rw [if_neg hu]
        rw [fnModuleOps, if_neg hu]
        exact ihl _
  rw [hloop]
  rfl

/-- generateStorageModule as an operation list. -/
theorem generateStorageModule_eq (outputDir : Path) (sip : String) (fs : FS) :
    generateStorageModule outputDir sip fs = applyOps (storageOps outputDir sip) fs := rfl

/-- generateAllFunctionHooks as an operation list: the directory test of
the evolving state agrees with the starting one because writes leave the
directory set unchanged. -/
theorem generateAllFunctionHooks_eq (functionsDir : Path) (sip : String) (fs : FS) :
    generateAllFunctionHooks functionsDir sip fs = applyOps (hookOpsOf fs functionsDir sip) fs := by
  rw [generateAllFunctionHooks, hookOpsOf]
  have hgen : ∀ (l : List String) (fs2 : FS), fs2.dirs = fs.dirs →
      l.foldl (fun fs3 functionName =>
        if functionName = "index.ts" then fs3
        else if fs3.isDir (pathJoin functionsDir functionName) then
          generateFunctionHooks functionName (pathJoin functionsDir functionName) sip fs3
        else fs3) fs2 =
      List.foldl applyOp fs2 (l.flatMap (fun n =>
        if n = "index.ts" then []
        else if fs.isDir (pathJoin functionsDir n) then hookModuleOps functionsDir sip n
        else [])) := by
    intro l
    induction l with
    | nil => intro fs2 _; rfl
    | cons n rest ihl =>
      intro fs2 hdirs
      rw [List.foldl_cons, List.flatMap_cons, List.foldl_append]
      by_cases hidx : n = "index.ts"
      · rw [if_pos hidx, if_pos hidx]
        exact ihl fs2 hdirs
      · rw [if_neg hidx, if_neg hidx]
        have hdd : fs2.isDir (pathJoin functionsDir n) = fs.isDir (pathJoin functionsDir n) := by
          unfold FS.isDir
          rw [hdirs]
        by_cases hd : fs.isDir (pathJoin functionsDir n)
        · rw [hdd, if_pos hd, if_pos hd]
          refine ihl _ ?_
          rw [generateFunctionHooks]
          rw [FS.dirs_writeFileSync, FS.dirs_writeFileSync]
          exact hdirs
        · rw [hdd, if_neg hd, if_neg hd]
          exact ihl fs2 hdirs
  exact hgen (fs.childNames functionsDir) fs rfl

/-- applyOps on an empty list. -/
theorem applyOps_nil (fs : FS) : applyOps [] fs = fs := rfl

/-- applyOps on a cons. -/
theorem applyOps_cons (op : WriteOp) (l : List WriteOp) (fs : FS) :
    applyOps (op :: l) fs = applyOps l (applyOp fs op) := List.foldl_cons _ _

/-- applyOps on an append. -/
theorem applyOps_append (a b : List WriteOp) (fs : FS) :
    applyOps (a ++ b) fs = applyOps b (applyOps a fs) := List.foldl_append _ _ _ _

/-- createBaseTypesFile as an operation list. -/
theorem createBaseTypesFile_eq (names : List String) (p : Path) (fs : FS) :
    createBaseTypesFile names p fs =
      applyOps (if names.length = 0 then []
        else [WriteOp.write p (baseTypesContent names)]) fs := by
  unfold createBaseTypesFile
  by_cases h : names.length = 0
  · rw [if_pos h, if_pos h]; rfl
  · rw [if_neg h, if_neg h]; rfl

/-- The functions directory name joins as a plain segment. -/
theorem pathJoin_functions (dir : Path) : pathJoin dir "functions" = dir ++ ["functions"] := by
  have h : plainSeg "functions" := by decide
  unfold plainSeg at h
  unfold pathJoin
  rw [h]

/-- run as two phases of operations, for a declaration with Database and
public present whose tables all process without throwing. -/
theorem run_eq (fs : FS) (d : InputDecl) (o : ExtractorOptions) (db : DatabaseDesc)
    (pub : PublicDesc) (hdb : d.Database = some db) (hpub : db.publicProp = some pub)
    (hok : ∀ tbls, pub.Tables = some tbls → ∀ t ∈ tbls,
      (tableRelOps t o.outputDir (o.supabaseImportPath.getD "@/lib/supabase")).isSome) :
    run fs d o =
      Except.ok (runResult fs pub o.outputDir (o.supabaseImportPath.getD "@/lib/supabase")) := by
  have hguard : ∀ (fns : List FunctionDesc) (fs3 : FS),
      (applyOps (functionsOps fns o.outputDir) fs3).existsSync (pathJoin o.outputDir "functions")
        = true := by
    intro fns fs3
    refine mkdirTargets_exist _ _ _ ?_ ?_
    · rw [functionsOps, mkdirTargets_cons_mkdir]
      exact List.mem_cons_self _ _
    · rw [pathJoin_functions]
      simp
  rw [run]
  simp only [hdb, hpub]
  rw [runResult, midFS, w1ops, w2ops]
  cases hT : pub.Tables with
  | none =>
    simp only [hT]
    cases hE : pub.Enums with
    | none =>
      cases hF : pub.Functions with
      | none =>
        simp only [hE, hF, createBaseTypesFile_eq, generateStorageModule_eq]
        simp only [btNames, btOps, tablesPartOps, enumsOps, fnPartOps, mainIndexOps,
          hookPartOps, hT, hE, hF]
        simp [applyOps_append, applyOps_cons, applyOps_nil, applyOp]
      | some fns =>
        simp only [hE, hF, createBaseTypesFile_eq, generateStorageModule_eq,
          extractFunctions_eq]
        rw [if_pos (hguard fns _)]
        simp only [generateAllFunctionHooks_eq]
        simp only [btNames, btOps, tablesPartOps, enumsOps, fnPartOps, mainIndexOps,
          hookPartOps, hT, hE, hF]
        simp [applyOps_append, applyOps_cons, applyOps_nil, applyOp]
    | some enums =>
      cases hF : pub.Functions with
      | none =>
        simp only [hE, hF, createBaseTypesFile_eq, generateStorageModule_eq]
        simp only [btNames, btOps, tablesPartOps, enumsOps, fnPartOps, mainIndexOps,
          hookPartOps, hT, hE, hF]
        simp only [extractEnums]
        simp [applyOps_append, applyOps_cons, applyOps_nil, applyOp]
      | some fns =>
        simp only [hE, hF, createBaseTypesFile_eq, generateStorageModule_eq,
          extractFunctions_eq]
        rw [if_pos (hguard fns _)]
        simp only [generateAllFunctionHooks_eq]
        simp only [btNames, btOps, tablesPartOps, enumsOps, fnPartOps, mainIndexOps,
          hookPartOps, hT, hE, hF]
        simp only [extractEnums]
        simp [applyOps_append, applyOps_cons, applyOps_nil, applyOp]
  | some tbls =>
    simp only [hT]
    rw [extractTablesByModule_eq, processTables_ok _ _ _ _ (hok tbls hT)]
    cases hE : pub.Enums with
    | none =>
      cases hF : pub.Functions with
      | none =>
        simp only [hE, hF, createBaseTypesFile_eq, generateStorageModule_eq]
        simp only [btNames, btOps, tablesPartOps, enumsOps, fnPartOps, mainIndexOps,
          hookPartOps, hT, hE, hF]
        simp only [createMainIndexFile]
        simp [applyOps_append, applyOps_cons, applyOps_nil, applyOp]
      | some fns =>
        simp only [hE, hF, createBaseTypesFile_eq, generateStorageModule_eq,
          extractFunctions_eq]
        rw [if_pos (hguard fns _)]
        simp only [generateAllFunctionHooks_eq]
        simp only [btNames, btOps, tablesPartOps, enumsOps, fnPartOps, mainIndexOps,
          hookPartOps, hT, hE, hF]
        simp only [createMainIndexFile]
        simp [applyOps_append, applyOps_cons, applyOps_nil, applyOp]
    | some enums =>
      cases hF : pub.Functions with
      | none =>
        simp only [hE, hF, createBaseTypesFile_eq, generateStorageModule_eq]
        simp only [btNames, btOps, tablesPartOps, enumsOps, fnPartOps, mainIndexOps,
          hookPartOps, hT, hE, hF]
        simp only [extractEnums, createMainIndexFile]
        simp [applyOps_append, applyOps_cons, applyOps_nil, applyOp]
      | some fns =>
        simp only [hE, hF, createBaseTypesFile_eq, generateStorageModule_eq,
          extractFunctions_eq]
        rw [if_pos (hguard fns _)]
        simp only [generateAllFunctionHooks_eq]
        simp only [btNames, btOps, tablesPartOps, enumsOps, fnPartOps, mainIndexOps,
          hookPartOps, hT, hE, hF]
        simp only [extractEnums, createMainIndexFile]
        simp [applyOps_append, applyOps_cons, applyOps_nil, applyOp]

/-- run throws when the declaration file has no Database type alias. -/
theorem run_error_noDb (fs : FS) (d : InputDecl) (o : ExtractorOptions)
    (h : d.Database = none) :
    run fs d o = Except.error "Could not find type alias Database" := by
  rw [run]
  simp only [h]

/-- run throws when the Database type has no public property. -/
theorem run_error_noPublic (fs : FS) (d : InputDecl) (o : ExtractorOptions)
    (db : DatabaseDesc) (h1 : d.Database = some db) (h2 : db.publicProp = none) :
    run fs d o = Except.error "No \"public\" property found in Database" := by
  rw [run]
  simp only [h1, h2]

/-- A successful run presupposes the Database alias, the public property
and throw-free table processing. -/
theorem run_ok_inv (fs : FS) (d : InputDecl) (o : ExtractorOptions) (fs2 : FS)
    (h : run fs d o = Except.ok fs2) :
    ∃ db pub, d.Database = some db ∧ db.publicProp = some pub ∧
      (∀ tbls, pub.Tables = some tbls → ∀ t ∈ tbls,
        (tableRelOps t o.outputDir (o.supabaseImportPath.getD "@/lib/supabase")).isSome) := by
  cases hdb : d.Database with
  | none => rw [run_error_noDb fs d o hdb] at h; cases h
  | some db =>
    cases hpub : db.publicProp with
    | none => rw [run_error_noPublic fs d o db hdb hpub] at h; cases h
    | some pub =>
      refine ⟨db, pub, rfl, hpub, ?_⟩
      intro tbls hT t ht
      rw [run] at h
      simp only [hdb, hpub, hT] at h
      cases hps : processTables tbls o.outputDir (o.supabaseImportPath.getD "@/lib/supabase")
          (extractTablesByModule tbls o.outputDir
            (createBaseTypesFile (extractAllBaseTypes tbls [])
              (pathJoin o.outputDir "base-types.ts") (fs.ensureDir o.outputDir))) with
      | error e => rw [hps] at h; simp at h
      | ok fsx => exact processTables_ok_inv _ _ _ _ _ hps t ht

/-- Segments produced by the split never contain the separator. -/
theorem jsSplitAux_no_sep (sep : Char) (l acc : List Char) (hacc : sep ∉ acc)
    (x : String) (hx : x ∈ jsSplitAux sep l acc) : sep ∉ x.data := by
  induction l generalizing acc with
  | nil =>
    rw [jsSplitAux] at hx
    rcases List.mem_singleton.mp hx with rfl
    intro hmem
    exact hacc (by simpa using List.mem_reverse.mp (by simpa using hmem))
  | cons c rest ih =>
    rw [jsSplitAux] at hx
    by_cases hc : c == sep
    · rw [if_pos hc] at hx
      rcases List.mem_cons.mp hx with rfl | hx2
      · intro hmem
        exact hacc (by simpa using List.mem_reverse.mp (by simpa using hmem))
      · exact ih [] (by simp) hx2
    · rw [if_neg hc] at hx
      refine ih (c :: acc) ?_ hx
      intro hmem
      rcases List.mem_cons.mp hmem with rfl | h2
      · exact hc (by simp)
      · exact hacc h2

/-- Segments produced by the split never contain the separator, string
form. -/
theorem jsSplit_no_sep (sep : Char) (s : String) (x : String) (hx : x ∈ jsSplit sep s) :
    sep ∉ x.data :=
  jsSplitAux_no_sep sep s.data [] (by simp) x hx

/-- A string without the separator splits to itself alone. -/
theorem jsSplitAux_of_no_sep (sep : Char) (l acc : List Char) (hl : sep ∉ l) :
    jsSplitAux sep l acc = [String.mk (acc.reverse ++ l)] := by
  induction l generalizing acc with
  | nil => rw [jsSplitAux]; simp
  | cons c rest ih =>
    rw [jsSplitAux]
    have hc : ¬(c == sep) := by
      simp only [beq_iff_eq]
      intro hcc
      subst hcc
      exact hl (List.mem_cons_self _ _)
    rw [if_neg hc]
    rw [ih (c :: acc) (fun hm => hl (List.mem_cons_of_mem _ hm))]
    simp

/-- A string without the separator splits to itself alone, string form. -/
theorem jsSplit_of_no_sep (sep : Char) (s : String) (hs : sep ∉ s.data) :
    jsSplit sep s = [s] := by
  rw [jsSplit, jsSplitAux_of_no_sep sep s.data [] hs]
  simp

/-- Every segment of a path.join result over a plainly segmented
directory is plain. -/
theorem pathJoin_segs_plain (dir : Path) (s : String)
    (hdir : ∀ seg ∈ dir, plainSeg seg) :
    ∀ seg ∈ pathJoin dir s, plainSeg seg := by
  intro seg hseg
  rw [pathJoin] at hseg
  rcases List.mem_append.mp hseg with h1 | h2
  · exact hdir seg h1
  · have hmem := List.mem_of_mem_filter h2
    have hprop := List.of_mem_filter h2
    have hno : '/' ∉ seg.data := jsSplit_no_sep '/' s seg hmem
    have hne : seg ≠ "" ∧ seg ≠ "." := by
      rw [Bool.and_eq_true, decide_eq_true_eq, decide_eq_true_eq] at hprop
      exact hprop
    rw [plainSeg, jsSplit_of_no_sep '/' seg hno, List.filter_cons]
    simp [hne.1, hne.2]

/-- path.join of a plain segment just appends it. -/
theorem pathJoin_plain (dir : Path) (s : String) (h : plainSeg s) :
    pathJoin dir s = dir ++ [s] := by
  rw [pathJoin, h]

/-- Accumulator lemma for the intercalate worker. -/
theorem intercalate_go_append (s : String) (l : List String) (a b : String) :
    String.intercalate.go (a ++ b) s l = a ++ String.intercalate.go b s l := by
  induction l generalizing b with
  | nil => simp [String.intercalate.go]
  | cons y rest ih =>
    rw [String.intercalate.go, String.intercalate.go]
    have hassoc : (a ++ b) ++ s ++ y = a ++ (b ++ s ++ y) := by
      simp [String.append_assoc]
    rw [hassoc]
    exact ih (b ++ s ++ y)

/-- intercalate on a singleton. -/
theorem intercalate_single (s x : String) : String.intercalate s [x] = x := rfl

/-- intercalate on two or more elements. -/
theorem intercalate_cons2 (s x y : String) (l : List String) :
    String.intercalate s (x :: y :: l) = x ++ s ++ String.intercalate s (y :: l) := by
  show String.intercalate.go x s (y :: l) = x ++ s ++ String.intercalate.go y s l
  rw [String.intercalate.go]
  rw [show x ++ s ++ y = (x ++ s) ++ y from rfl]
  rw [intercalate_go_append s l (x ++ s) y]

/-- Every member of an intercalated list occurs verbatim in the result. -/
theorem intercalate_mem_decomp (s : String) (l : List String) (a : String) (h : a ∈ l) :
    ∃ pre post, String.intercalate s l = pre ++ a ++ post := by
  induction l with
  | nil => cases h
  | cons hd rest ih =>
    cases rest with
    | nil =>
      rcases List.mem_singleton.mp h with rfl
      exact ⟨"", "", by rw [intercalate_single]; simp⟩
    | cons y rest2 =>
      rw [intercalate_cons2]
      rcases List.mem_cons.mp h with rfl | h2
      · exact ⟨"", s ++ String.intercalate s (y :: rest2), by simp [String.append_assoc]⟩
      · obtain ⟨pre, post, hp⟩ := ih h2
        refine ⟨hd ++ s ++ pre, post, ?_⟩
        rw [hp]
        simp [String.append_assoc]

/-- Appending different suffixes to the same directory yields different
paths. -/
theorem append_single_ne (dir : Path) (a b : List String) (h : a ≠ b) :
    dir ++ a ≠ dir ++ b :=
  fun he => h (List.append_cancel_left he)

/-- Reading the result of a prefix, a write and a suffix: when the suffix
never writes the path again, the write's content is read back. -/
theorem read_after_write (a b : List WriteOp) (p : Path) (c : String) (fs : FS)
    (hb : lastWriteOf b p = none) :
    (applyOps (a ++ WriteOp.write p c :: b) fs).read p = some c := by
  rw [read_applyOps, lastWriteOf_append, lastWriteOf_cons, hb]
  simp [lwStep]

/-- Reading a path no operation writes leaves the original content. -/
theorem read_no_write (ops : List WriteOp) (p : Path) (fs : FS)
    (h : lastWriteOf ops p = none) :
    (applyOps ops fs).read p = fs.read p := by
  rw [read_applyOps, h]

/-- The storage directory name is a plain segment. -/
theorem plain_storage : plainSeg "storage" := by decide

/-- The generated file names are plain segments. -/
theorem plain_typests : plainSeg "types.ts" := by decide

/-- The hooks file name is a plain segment. -/
theorem plain_hooksts : plainSeg "hooks.ts" := by decide

/-- The index file name is a plain segment. -/
theorem plain_indexts : plainSeg "index.ts" := by decide

/-- The base-types file name is a plain segment. -/
theorem plain_basetypests : plainSeg "base-types.ts" := by decide

/-- The enums file name is a plain segment. -/
theorem plain_enumsts : plainSeg "enums.ts" := by decide

/-- The relationships file name is a plain segment. -/
theorem plain_relationshipsjson : plainSeg "relationships.json" := by decide

/-- The relations file name is a plain segment. -/
theorem plain_relationsts : plainSeg "relations.ts" := by decide

/-- Last elements of appended singletons agree. -/
theorem append_singleton_inj_right {α : Type} (l1 l2 : List α) (x y : α)
    (h : l1 ++ [x] = l2 ++ [y]) : x = y := by
  have := congrArg List.reverse h
  rw [List.reverse_append, List.reverse_append] at this
  simp at this
  exact this.1

/-- Shape of the writes of the function-hooks phase. -/
theorem hookOps_mem_write (mid : FS) (fdir : Path) (sip : String) (q : Path) (c : String)
    (h : WriteOp.write q c ∈ hookOpsOf mid fdir sip) :
    ∃ n, n ∈ mid.childNames fdir ∧ n ≠ "index.ts" ∧
      ((q = (fdir ++ (jsSplit '/' n).filter (fun seg => seg ≠ "" && seg ≠ ".")) ++ ["hooks.ts"] ∧
        c = functionHooksContent n sip) ∨
       (q = (fdir ++ (jsSplit '/' n).filter (fun seg => seg ≠ "" && seg ≠ ".")) ++ ["index.ts"] ∧
        c = functionModuleIndexContent n)) := by
  rw [hookOpsOf] at h
  obtain ⟨n, hn, hin⟩ := List.mem_flatMap.mp h
  by_cases hidx : n = "index.ts"
  · rw [if_pos hidx] at hin; cases hin
  · rw [if_neg hidx] at hin
    by_cases hd : mid.isDir (pathJoin fdir n)
    · rw [if_pos hd] at hin
      refine ⟨n, hn, hidx, ?_⟩
      rw [hookModuleOps] at hin
      have hjoin : ∀ lit : String, plainSeg lit →
          pathJoin (pathJoin fdir n) lit =
          (fdir ++ (jsSplit '/' n).filter (fun seg => seg ≠ "" && seg ≠ ".")) ++ [lit] := by
        intro lit hlit
        rw [pathJoin_plain _ _ hlit, pathJoin]
      rcases List.mem_cons.mp hin with heq | hin2
      · injection heq with h1 h2
        exact Or.inl ⟨h1.trans (hjoin "hooks.ts" plain_hooksts), h2⟩
      · rcases List.mem_singleton.mp hin2 with heq2
        injection heq2 with h1 h2
        exact Or.inr ⟨h1.trans (hjoin "index.ts" plain_indexts), h2⟩
    · rw [if_neg hd] at hin; cases hin

/-- Shape of the writes of the storage phase. -/
theorem storageOps_mem_write (dir : Path) (sip : String) (q : Path) (c : String)
    (h : WriteOp.write q c ∈ storageOps dir sip) :
    (q = dir ++ ["storage", "types.ts"] ∧ c = storageTypesContent) ∨
    (q = dir ++ ["storage", "hooks.ts"] ∧ c = storageHooksContent sip) ∨
    (q = dir ++ ["storage", "index.ts"] ∧ c = storageIndexContent) := by
  rw [storageOps] at h
  have hj : ∀ lit : String, plainSeg lit →
      pathJoin (pathJoin dir "storage") lit = dir ++ ["storage", lit] := by
    intro lit hlit
    rw [pathJoin_plain _ _ hlit, pathJoin_plain _ _ plain_storage, List.append_assoc]
    rfl
  simp only [List.mem_cons, List.mem_singleton] at h
  rcases h with h1 | h1 | h1 | h1 | h1
  · cases h1
  · injection h1 with e1 e2
    exact Or.inl ⟨by rw [e1, hj "types.ts" plain_typests], e2.symm ▸ rfl⟩
  · injection h1 with e1 e2
    exact Or.inr (Or.inl ⟨by rw [e1, hj "hooks.ts" plain_hooksts], e2.symm ▸ rfl⟩)
  · injection h1 with e1 e2
    exact Or.inr (Or.inr ⟨by rw [e1, hj "index.ts" plain_indexts], e2.symm ▸ rfl⟩)
  · cases h1

/-- Shape of the writes of the table-module phase. -/
theorem tablesOps_mem_write (tbls : List TableDesc) (dir : Path) (q : Path) (c : String)
    (h : WriteOp.write q c ∈ tablesOps tbls dir) :
    ∃ t ∈ tbls,
      (q = pathJoin dir t.name ++ ["types.ts"] ∧ c = tableTypesContent t) ∨
      (q = pathJoin dir t.name ++ ["index.ts"] ∧ c = moduleIndexContent t.name) := by
  rw [tablesOps] at h
  obtain ⟨t, ht, hin⟩ := List.mem_flatMap.mp h
  refine ⟨t, ht, ?_⟩
  rw [tableModuleOps] at hin
  simp only [List.mem_cons] at hin
  rcases hin with h1 | h1 | h1 | h1
  · cases h1
  · injection h1 with e1 e2
    exact Or.inl ⟨by rw [e1, pathJoin_plain _ _ plain_typests], e2.symm ▸ rfl⟩
  · injection h1 with e1 e2
    exact Or.inr ⟨by rw [e1, pathJoin_plain _ _ plain_indexts], e2.symm ▸ rfl⟩
  · cases h1

/-- Shape of the writes of the relationship phase. -/
theorem relTablesOps_mem_write (tbls : List TableDesc) (dir : Path) (sip : String)
    (q : Path) (c : String) (h : WriteOp.write q c ∈ relTablesOps tbls dir sip) :
    ∃ t ∈ tbls,
      q = pathJoin dir t.name ++ ["relationships.json"] ∨
      q = pathJoin dir t.name ++ ["relations.ts"] ∨
      (q = pathJoin dir t.name ++ ["hooks.ts"] ∧ c = tableHooksContent t.name sip) := by
  rw [relTablesOps] at h
  obtain ⟨t, ht, hin⟩ := List.mem_flatMap.mp h
  refine ⟨t, ht, ?_⟩
  rw [tableRelOps] at hin
  cases hz : jsLengthIsZero (extractTableRelationships t.name t) with
  | error e => rw [hz] at hin; cases hin
  | ok b =>
    cases b with
    | true =>
      rw [hz] at hin
      simp only [Option.getD_some, List.mem_singleton] at hin
      injection hin with e1 e2
      exact Or.inr (Or.inr ⟨by rw [e1, pathJoin_plain _ _ plain_hooksts], e2.symm ▸ rfl⟩)
    | false =>
      rw [hz] at hin
      cases ha : asRelRecords (extractTableRelationships t.name t) with
      | none => rw [ha] at hin; cases hin
      | some rels =>
        rw [ha] at hin
        simp only [Option.getD_some, List.mem_cons] at hin
        rcases hin with h1 | h1 | h1 | h1
        · injection h1 with e1 e2
          exact Or.inl (by rw [e1, pathJoin_plain _ _ plain_relationshipsjson])
        · injection h1 with e1 e2
          exact Or.inr (Or.inl (by rw [e1, pathJoin_plain _ _ plain_relationsts]))
        · injection h1 with e1 e2
          exact Or.inr (Or.inr ⟨by rw [e1, pathJoin_plain _ _ plain_hooksts], e2.symm ▸ rfl⟩)
        · cases h1

/-- Shape of the writes of the function-extraction phase. -/
theorem functionsOps_mem_write (fns : List FunctionDesc) (dir : Path) (q : Path) (c : String)
    (h : WriteOp.write q c ∈ functionsOps fns dir) :
    (∃ f ∈ fns, ¬jsStartsWith f.name "_" ∧
      q = (pathJoin dir "functions" ++
        (jsSplit '/' f.name).filter (fun seg => seg ≠ "" && seg ≠ ".")) ++ ["types.ts"] ∧
      c = functionTypesContent f) ∨
    (q = pathJoin dir "functions" ++ ["index.ts"] ∧
      c = functionsIndexContent ((fns.filter (fun f => !jsStartsWith f.name "_")).map
        (fun f => f.name))) := by
  rw [functionsOps] at h
  rcases List.mem_cons.mp h with h1 | h1
  · cases h1
  · rcases List.mem_append.mp h1 with h2 | h2
    · obtain ⟨f, hf, hin⟩ := List.mem_flatMap.mp h2
      rw [fnModuleOps] at hin
      by_cases hu : jsStartsWith f.name "_"
      · rw [if_pos hu] at hin; cases hin
      · rw [if_neg hu] at hin
        simp only [List.mem_cons, List.mem_singleton] at hin
        rcases hin with h3 | h3 | h3
        · cases h3
        · injection h3 with e1 e2
          refine Or.inl ⟨f, hf, hu, ?_, e2.symm ▸ rfl⟩
          rw [e1, pathJoin_plain _ _ plain_typests, pathJoin]
        · cases h3
    · rcases List.mem_singleton.mp h2 with h3
      injection h3 with e1 e2
      exact Or.inr ⟨by rw [e1, pathJoin_plain _ _ plain_indexts], e2.symm ▸ rfl⟩

/-- Suffix length difference separates paths under a common directory. -/
theorem ne_of_len {dir : Path} {a b : List String} (h : a.length ≠ b.length) :
    dir ++ a ≠ dir ++ b :=
  fun he => h (congrArg List.length (List.append_cancel_left he))

/-- The hooks phase writes only below the functions directory, so paths of
the form outputDir plus a single segment other than it are untouched. -/
theorem hookPartOps_none_at (mid : FS) (pub : PublicDesc) (dir : Path) (sip : String)
    (p : Path) (hp : ∀ x lit, p ≠ (dir ++ "functions" :: x) ++ [lit]) :
    lastWriteOf (hookPartOps mid pub dir sip) p = none := by
  rw [hookPartOps]
  cases pub.Functions with
  | none => rfl
  | some fns =>
    refine lastWriteOf_eq_none _ _ ?_
    intro q c hq hqp
    obtain ⟨n, _, _, hsh⟩ := hookOps_mem_write mid _ sip q c hq
    rw [pathJoin_functions] at hsh
    rcases hsh with ⟨he, _⟩ | ⟨he, _⟩
    · exact hp ((jsSplit '/' n).filter (fun seg => seg ≠ "" && seg ≠ ".")) "hooks.ts"
        (by rw [← hqp, he]; simp [List.append_assoc])
    · exact hp ((jsSplit '/' n).filter (fun seg => seg ≠ "" && seg ≠ ".")) "index.ts"
        (by rw [← hqp, he]; simp [List.append_assoc])

/-- The storage phase leaves any single-segment path under the output
directory untouched. -/
theorem storageOps_none_at_single (dir : Path) (sip : String) (x : String) :
    lastWriteOf (storageOps dir sip) (dir ++ [x]) = none := by
  refine lastWriteOf_eq_none _ _ ?_
  intro q c hq hqp
  rcases storageOps_mem_write dir sip q c hq with ⟨he, _⟩ | ⟨he, _⟩ | ⟨he, _⟩ <;>
    exact ne_of_len (by simp) (he ▸ hqp)

/-- The function-extraction phase leaves any single-segment path other
than below functions untouched. -/
theorem fnPartOps_none_at_single (pub : PublicDesc) (dir : Path) (x : String)
    (hx : x ≠ "functions") :
    lastWriteOf (fnPartOps pub dir) (dir ++ [x]) = none := by
  rw [fnPartOps]
  cases pub.Functions with
  | none => rfl
  | some fns =>
    refine lastWriteOf_eq_none _ _ ?_
    intro q c hq hqp
    rcases functionsOps_mem_write fns dir q c hq with ⟨f, _, _, he, _⟩ | ⟨he, _⟩
    · rw [pathJoin_functions] at he
      have h3 := congrArg List.length (he.symm.trans hqp)
      simp [List.length_append] at h3
    · rw [pathJoin_functions] at he
      have h3 := congrArg List.length (he.symm.trans hqp)
      simp [List.length_append] at h3

/-- The enums phase touches only the enums file. -/
theorem enumsOps_none_at (pub : PublicDesc) (dir : Path) (p : Path)
    (hp : p ≠ dir ++ ["enums.ts"]) :
    lastWriteOf (enumsOps pub dir) p = none := by
  rw [enumsOps]
  cases pub.Enums with
  | none => rfl
  | some enums =>
    refine lastWriteOf_eq_none _ _ ?_
    intro q c hq hqp
    simp only [List.mem_singleton] at hq
    injection hq with e1 _
    rw [e1, pathJoin_plain _ _ plain_enumsts] at hqp
    exact hp hqp.symm

/-- The base-types phase touches only the base-types file. -/
theorem btOps_none_at (pub : PublicDesc) (dir : Path) (p : Path)
    (hp : p ≠ dir ++ ["base-types.ts"]) :
    lastWriteOf (btOps pub dir) p = none := by
  rw [btOps]
  by_cases h0 : (btNames pub).length = 0
  · rw [if_pos h0]; rfl
  · rw [if_neg h0]
    refine lastWriteOf_eq_none _ _ ?_
    intro q c hq hqp
    simp only [List.mem_singleton] at hq
    injection hq with e1 _
    rw [e1, pathJoin_plain _ _ plain_basetypests] at hqp
    exact hp hqp.symm

/-- The main-index phase touches only the top-level index file. -/
theorem mainIndexOps_none_at (pub : PublicDesc) (dir : Path) (p : Path)
    (hp : p ≠ dir ++ ["index.ts"]) :
    lastWriteOf (mainIndexOps pub dir) p = none := by
  rw [mainIndexOps]
  cases pub.Tables with
  | none => rfl
  | some tbls =>
    refine lastWriteOf_eq_none _ _ ?_
    intro q c hq hqp
    simp only [List.mem_singleton] at hq
    injection hq with e1 _
    rw [e1, pathJoin_plain _ _ plain_indexts] at hqp
    exact hp hqp.symm

/-- The table-module phase writes only two-or-more-segment paths below a
table directory. -/
theorem tablesPartOps_none_at_single (pub : PublicDesc) (dir : Path) (sip : String)
    (x : String) (hx : ∀ t : TableDesc, ∀ lit : String,
      dir ++ [x] ≠ (pathJoin dir t.name) ++ [lit]) :
    lastWriteOf (tablesPartOps pub dir sip) (dir ++ [x]) = none := by
  rw [tablesPartOps]
  cases pub.Tables with
  | none => rfl
  | some tbls =>
    rw [lastWriteOf_append]
    have h2 : lastWriteOf (relTablesOps tbls dir sip) (dir ++ [x]) = none := by
      refine lastWriteOf_eq_none _ _ ?_
      intro q c hq hqp
      obtain ⟨t, _, hsh⟩ := relTablesOps_mem_write tbls dir sip q c hq
      rcases hsh with he | he | ⟨he, _⟩ <;> exact hx t _ (by rw [← hqp, he])
    have h1 : lastWriteOf (tablesOps tbls dir) (dir ++ [x]) = none := by
      refine lastWriteOf_eq_none _ _ ?_
      intro q c hq hqp
      obtain ⟨t, _, hsh⟩ := tablesOps_mem_write tbls dir q c hq
      rcases hsh with ⟨he, _⟩ | ⟨he, _⟩ <;> exact hx t _ (by rw [← hqp, he])
    rw [h2, h1]

/-- Joining below the storage directory. -/
theorem pathJoin_storage_lit (dir : Path) (lit : String) (hlit : plainSeg lit) :
    pathJoin (pathJoin dir "storage") lit = dir ++ ["storage", lit] := by
  rw [pathJoin_plain _ _ hlit, pathJoin_plain _ _ plain_storage, List.append_assoc]
  rfl

/-- The storage phase ends by writing the storage types file. -/
theorem lastWriteOf_storageOps_types (dir : Path) (sip : String) :
    lastWriteOf (storageOps dir sip) (dir ++ ["storage", "types.ts"]) =
      some storageTypesContent := by
  simp only [storageOps]
  rw [pathJoin_storage_lit dir "types.ts" plain_typests,
    pathJoin_storage_lit dir "hooks.ts" plain_hooksts,
    pathJoin_storage_lit dir "index.ts" plain_indexts]
  rw [lastWriteOf]
  simp only [List.foldl_cons, List.foldl_nil, lwStep]
  rw [if_neg (append_single_ne dir _ _ (by decide : (["storage", "index.ts"] : List String) ≠ ["storage", "types.ts"])),
    if_neg (append_single_ne dir _ _ (by decide : (["storage", "hooks.ts"] : List String) ≠ ["storage", "types.ts"]))]
  simp

/-- The storage phase ends by writing the storage hooks file. -/
theorem lastWriteOf_storageOps_hooks (dir : Path) (sip : String) :
    lastWriteOf (storageOps dir sip) (dir ++ ["storage", "hooks.ts"]) =
      some (storageHooksContent sip) := by
  simp only [storageOps]
  rw [pathJoin_storage_lit dir "types.ts" plain_typests,
    pathJoin_storage_lit dir "hooks.ts" plain_hooksts,
    pathJoin_storage_lit dir "index.ts" plain_indexts]
  rw [lastWriteOf]
  simp only [List.foldl_cons, List.foldl_nil, lwStep]
  rw [if_neg (append_single_ne dir _ _ (by decide : (["storage", "index.ts"] : List String) ≠ ["storage", "hooks.ts"]))]
  simp

/-- The storage phase ends by writing the storage index file. -/
theorem lastWriteOf_storageOps_index (dir : Path) (sip : String) :
    lastWriteOf (storageOps dir sip) (dir ++ ["storage", "index.ts"]) =
      some storageIndexContent := by
  simp only [storageOps]
  rw [pathJoin_storage_lit dir "types.ts" plain_typests,
    pathJoin_storage_lit dir "hooks.ts" plain_hooksts,
    pathJoin_storage_lit dir "index.ts" plain_indexts]
  rw [lastWriteOf]
  simp only [List.foldl_cons, List.foldl_nil, lwStep]
  simp

/-- Reading one of the storage files out of the final state of a
successful run. -/
theorem runResult_read_storage (fs : FS) (pub : PublicDesc) (dir : Path) (sip : String)
    (lit : String) (hlast : lastWriteOf (storageOps dir sip) (dir ++ ["storage", lit]) ≠ none) :
    (runResult fs pub dir sip).read (dir ++ ["storage", lit]) =
      lastWriteOf (storageOps dir sip) (dir ++ ["storage", lit]) := by
  rw [runResult, read_applyOps, w2ops, lastWriteOf_append, lastWriteOf_append]
  rw [mainIndexOps_none_at pub dir _ (ne_of_len (by simp))]
  cases hs : lastWriteOf (storageOps dir sip) (dir ++ ["storage", lit]) with
  | none => exact absurd hs hlast
  | some c => rfl

/-- Reading the top-level index out of the final state when tables are
present: the main-index write is last. -/
theorem runResult_read_index_tables (fs : FS) (pub : PublicDesc) (dir : Path) (sip : String)
    (tbls : List TableDesc) (hT : pub.Tables = some tbls) :
    (runResult fs pub dir sip).read (dir ++ ["index.ts"]) = some (mainIndexContent tbls) := by
  rw [runResult, read_applyOps, w2ops, lastWriteOf_append, lastWriteOf_append]
  have hm : lastWriteOf (mainIndexOps pub dir) (dir ++ ["index.ts"]) =
      some (mainIndexContent tbls) := by
    rw [mainIndexOps, hT, pathJoin_plain _ _ plain_indexts, lastWriteOf]
    simp [lwStep]
  rw [hm]

/-- Reading the top-level index out of the final state when tables are
absent: nothing ever writes it. -/
theorem runResult_read_index_no_tables (fs : FS) (pub : PublicDesc) (dir : Path) (sip : String)
    (hT : pub.Tables = none) :
    (runResult fs pub dir sip).read (dir ++ ["index.ts"]) = fs.read (dir ++ ["index.ts"]) := by
  have hmi : mainIndexOps pub dir = [] := by rw [mainIndexOps, hT]
  have htp : tablesPartOps pub dir sip = [] := by rw [tablesPartOps, hT]
  have hw2 : lastWriteOf (w2ops (midFS fs pub dir sip) pub dir sip) (dir ++ ["index.ts"]) =
      none := by
    rw [w2ops, hmi, lastWriteOf_append, lastWriteOf_append]
    rw [show lastWriteOf ([] : List WriteOp) (dir ++ ["index.ts"]) = none from rfl]
    rw [storageOps_none_at_single dir sip "index.ts"]
    rw [hookPartOps_none_at _ pub dir sip _ (by
      intro x lit he
      have h3 := congrArg List.length he
      simp only [List.length_append, List.length_cons, List.length_singleton] at h3
      omega)]
  have hw1 : lastWriteOf (w1ops pub dir sip) (dir ++ ["index.ts"]) = none := by
    rw [w1ops, htp, lastWriteOf_cons, lastWriteOf_append, lastWriteOf_append,
      lastWriteOf_append]
    rw [fnPartOps_none_at_single pub dir "index.ts" (by decide)]
    rw [enumsOps_none_at pub dir _ (append_single_ne dir _ _ (by decide))]
    rw [show lastWriteOf ([] : List WriteOp) (dir ++ ["index.ts"]) = none from rfl]
    rw [btOps_none_at pub dir _ (append_single_ne dir _ _ (by decide))]
    rfl
  rw [runResult, read_applyOps, hw2, midFS, read_applyOps, hw1]

/-- An operation list whose mkdir targets all exist and whose last writes
all reproduce the current contents is a no-op. -/
theorem applyOps_noop (ops : List WriteOp) (fs : FS)
    (hd : ∀ p ∈ mkdirTargets ops, fs.existsSync p = true)
    (hw : ∀ p c, lastWriteOf ops p = some c → fs.read p = some c)
    (hnd : (fs.files.map (fun e => e.1)).Nodup) :
    applyOps ops fs = fs := by
  have hkeys : ∀ p ∈ writePaths ops, p ∈ fs.files.map (fun e => e.1) := by
    intro p hp
    obtain ⟨c, hc⟩ := lastWriteOf_isSome_of_mem ops p hp
    have hrd := hw p c hc
    unfold FS.read at hrd
    cases hf : fs.files.find? (fun e => e.1 = p) with
    | none => rw [hf] at hrd; cases hrd
    | some e =>
      have hmem := List.mem_of_find?_eq_some hf
      have hpred := List.find?_some hf
      have hep : e.1 = p := of_decide_eq_true hpred
      rw [← hep]
      exact List.mem_map.mpr ⟨e, hmem, rfl⟩
  have h1 : (applyOps ops fs).dirs = fs.dirs := dirs_applyOps_of_exists ops fs hd
  have h2 : (applyOps ops fs).files.map (fun e => e.1) = fs.files.map (fun e => e.1) :=
    keys_applyOps_of_present ops fs hkeys
  have h3 : (applyOps ops fs).files = fs.files := by
    refine entries_ext _ _ h2 (by rw [h2]; exact hnd) ?_
    intro p
    show (applyOps ops fs).read p = fs.read p
    rw [read_applyOps]
    cases hl : lastWriteOf ops p with
    | none => rfl
    | some c => exact (hw p c hl).symm
  cases hfs : applyOps ops fs with
  | mk d f =>
    cases fs with
    | mk d0 f0 =>
      rw [hfs] at h1 h3
      simp only at h1 h3
      rw [h1, h3]

/-- C1, counterexample: on a declaration whose public type has no Tables
property, run completes and writes the storage files but does not write
the top-level index.ts, contradicting the claim that the top-level index
is written unconditionally. -/
theorem C1_counterexample :
    ∃ fs1, run emptyFS declNoProps opts0 = Except.ok fs1 ∧
      fs1.read ["out", "storage", "types.ts"] = some storageTypesContent ∧
      fs1.read ["out", "index.ts"] = none := by
  refine ⟨_, rfl, ?_, ?_⟩ <;> rfl

/-- C1, amended: for every declaration accepted by run (Database alias
and public property present, relationship entries processable), run
writes the three storage module files unconditionally, but writes the
top-level index.ts only when the public type has a Tables property; with
no Tables property the top-level index path keeps its prior content. -/
theorem C1_storage_unconditional_main_index_tables_only
    (fs : FS) (d : InputDecl) (o : ExtractorOptions) (db : DatabaseDesc) (pub : PublicDesc)
    (hdb : d.Database = some db) (hpub : db.publicProp = some pub)
    (hok : ∀ tbls, pub.Tables = some tbls → ∀ t ∈ tbls,
      (tableRelOps t o.outputDir (o.supabaseImportPath.getD "@/lib/supabase")).isSome) :
    ∃ fs1, run fs d o = Except.ok fs1 ∧
      fs1.read (o.outputDir ++ ["storage", "types.ts"]) = some storageTypesContent ∧
      fs1.read (o.outputDir ++ ["storage", "hooks.ts"]) =
        some (storageHooksContent (o.supabaseImportPath.getD "@/lib/supabase")) ∧
      fs1.read (o.outputDir ++ ["storage", "index.ts"]) = some storageIndexContent ∧
      (∀ tbls, pub.Tables = some tbls →
        fs1.read (o.outputDir ++ ["index.ts"]) = some (mainIndexContent tbls)) ∧
      (pub.Tables = none →
        fs1.read (o.outputDir ++ ["index.ts"]) = fs.read (o.outputDir ++ ["index.ts"])) := by
  refine ⟨_, run_eq fs d o db pub hdb hpub hok, ?_, ?_, ?_, ?_, ?_⟩
  · rw [runResult_read_storage _ _ _ _ "types.ts" (by rw [lastWriteOf_storageOps_types]; simp),
      lastWriteOf_storageOps_types]
  · rw [runResult_read_storage _ _ _ _ "hooks.ts" (by rw [lastWriteOf_storageOps_hooks]; simp),
      lastWriteOf_storageOps_hooks]
  · rw [runResult_read_storage _ _ _ _ "index.ts" (by rw [lastWriteOf_storageOps_index]; simp),
      lastWriteOf_storageOps_index]
  · intro tbls hT
    exact runResult_read_index_tables fs pub o.outputDir _ tbls hT
  · intro hT
    exact runResult_read_index_no_tables fs pub o.outputDir _ hT

/-- C1, witness: the amended statement applied to the empty schema on a
fresh file system. -/
theorem C1_witness :
    ∃ fs1, run emptyFS declNoProps opts0 = Except.ok fs1 ∧
      fs1.read (opts0.outputDir ++ ["storage", "types.ts"]) = some storageTypesContent ∧
      fs1.read (opts0.outputDir ++ ["storage", "hooks.ts"]) =
        some (storageHooksContent (opts0.supabaseImportPath.getD "@/lib/supabase")) ∧
      fs1.read (opts0.outputDir ++ ["storage", "index.ts"]) = some storageIndexContent ∧
      (∀ tbls, pubNoProps.Tables = some tbls →
        fs1.read (opts0.outputDir ++ ["index.ts"]) = some (mainIndexContent tbls)) ∧
      (pubNoProps.Tables = none →
        fs1.read (opts0.outputDir ++ ["index.ts"]) = emptyFS.read (opts0.outputDir ++ ["index.ts"])) :=
  C1_storage_unconditional_main_index_tables_only emptyFS declNoProps opts0 _ _ rfl rfl
    (fun tbls h => by cases h)

/-- C4, counterexample: a declaration whose public type lacks both the
Functions and the Enums property on which run nevertheless fails, because
a present table's Relationships value parses to a non-array; this
contradicts the claim that run does not fail whenever public lacks a
Tables, Functions, or Enums property. -/
theorem C4_counterexample :
    declBadRel.Database = some ⟨some pubBadRel⟩ ∧
    pubBadRel.Functions = none ∧ pubBadRel.Enums = none ∧
    run emptyFS declBadRel opts0 =
      Except.error "TypeError: relationships value is not an array of relationship records" :=
  ⟨rfl, rfl, rfl, rfl⟩

/-- C4, amended: run throws exactly for a missing Database alias or a
missing public property, as claimed; a public type lacking the Tables
property always completes, and with Tables present run completes provided
every table's Relationships value is processable (a malformed value
aborts the run regardless of which of the three properties are absent). -/
theorem C4_error_conditions (fs : FS) (d : InputDecl) (o : ExtractorOptions) :
    (d.Database = none → run fs d o = Except.error "Could not find type alias Database") ∧
    (∀ db, d.Database = some db → db.publicProp = none →
      run fs d o = Except.error "No \"public\" property found in Database") ∧
    (∀ db pub, d.Database = some db → db.publicProp = some pub → pub.Tables = none →
      ∃ fs1, run fs d o = Except.ok fs1) ∧
    (∀ db pub, d.Database = some db → db.publicProp = some pub →
      (∀ tbls, pub.Tables = some tbls → ∀ t ∈ tbls,
        (tableRelOps t o.outputDir (o.supabaseImportPath.getD "@/lib/supabase")).isSome) →
      ∃ fs1, run fs d o = Except.ok fs1) := by
  refine ⟨?_, ?_, ?_, ?_⟩
  · intro h
    exact run_error_noDb fs d o h
  · intro db h1 h2
    exact run_error_noPublic fs d o db h1 h2
  · intro db pub h1 h2 hT
    exact ⟨_, run_eq fs d o db pub h1 h2 (fun tbls h => by rw [hT] at h; cases h)⟩
  · intro db pub h1 h2 hok
    exact ⟨_, run_eq fs d o db pub h1 h2 hok⟩

/-- C4, witness: the error conditions applied to a declaration without a
Database alias and to the empty-schema declaration. -/
theorem C4_witness :
    run emptyFS ⟨none⟩ opts0 = Except.error "Could not find type alias Database" ∧
    (∃ fs1, run emptyFS declNoProps opts0 = Except.ok fs1) :=
  ⟨(C4_error_conditions emptyFS ⟨none⟩ opts0).1 rfl,
   (C4_error_conditions emptyFS declNoProps opts0).2.2.1 _ _ rfl rfl rfl⟩

/-- Reading the enums file out of the final state of a successful run:
no later phase touches it. -/
theorem runResult_read_enums (fs : FS) (pub : PublicDesc) (dir : Path) (sip : String)
    (enums : List EnumDesc) (hE : pub.Enums = some enums) :
    (runResult fs pub dir sip).read (dir ++ ["enums.ts"]) = some (enumsContent enums) := by
  have hw2 : lastWriteOf (w2ops (midFS fs pub dir sip) pub dir sip) (dir ++ ["enums.ts"]) =
      none := by
    rw [w2ops, lastWriteOf_append, lastWriteOf_append]
    rw [mainIndexOps_none_at pub dir _ (append_single_ne dir _ _ (by decide))]
    rw [storageOps_none_at_single dir sip "enums.ts"]
    rw [hookPartOps_none_at _ pub dir sip _ (by
      intro x lit he
      have h3 := congrArg List.length he
      simp only [List.length_append, List.length_cons, List.length_singleton] at h3
      omega)]
  have hfn : lastWriteOf (fnPartOps pub dir) (dir ++ ["enums.ts"]) = none :=
    fnPartOps_none_at_single pub dir "enums.ts" (by decide)
  have hen : lastWriteOf (enumsOps pub dir) (dir ++ ["enums.ts"]) =
      some (enumsContent enums) := by
    rw [enumsOps, hE, pathJoin_plain _ _ plain_enumsts, lastWriteOf]
    simp [lwStep]
  rw [runResult, read_applyOps, hw2, midFS, read_applyOps, w1ops, lastWriteOf_cons,
    lastWriteOf_append, lastWriteOf_append, lastWriteOf_append, hfn, hen]

/-- C8: on every accepted declaration whose public type has an Enums
property, run writes enums.ts, and for each enum in declaration order the
file contains the alias line export type pascalCase(name) = L1 | ... | Lk;
whose members are exactly the quoted string-literal members of the enum
union in order, other union members being dropped. -/
theorem C8_enum_alias_lines
    (fs : FS) (d : InputDecl) (o : ExtractorOptions) (db : DatabaseDesc) (pub : PublicDesc)
    (enums : List EnumDesc)
    (hdb : d.Database = some db) (hpub : db.publicProp = some pub)
    (hE : pub.Enums = some enums)
    (hok : ∀ tbls, pub.Tables = some tbls → ∀ t ∈ tbls,
      (tableRelOps t o.outputDir (o.supabaseImportPath.getD "@/lib/supabase")).isSome) :
    ∃ fs1, run fs d o = Except.ok fs1 ∧
      fs1.read (o.outputDir ++ ["enums.ts"]) = some (enumsContent enums) ∧
      ∀ e ∈ enums, ∃ pre post, enumsContent enums =
        pre ++ ("export type " ++ pascalCase e.name ++ " = " ++
          String.intercalate " | " (e.members.filterMap (fun m =>
            match m with
            | UnionMember.strLit v => some ("\"" ++ v ++ "\"")
            | UnionMember.other => none)) ++ ";") ++ post := by
  refine ⟨_, run_eq fs d o db pub hdb hpub hok, ?_, ?_⟩
  · exact runResult_read_enums fs pub o.outputDir _ enums hE
  · intro e he
    have hmem : enumAliasLine e ∈
        ["/** Auto-generated Enums from `public` schema. */"] ++ enums.map enumAliasLine :=
      List.mem_append.mpr (Or.inr (List.mem_map.mpr ⟨e, he, rfl⟩))
    obtain ⟨pre, post, hp⟩ := intercalate_mem_decomp "\n\n" _ _ hmem
    exact ⟨pre, post, by rw [enumsContent, hp]; rfl⟩

/-- C8, witness: the alias-line statement applied to a schema holding one
enum with a non-literal member. -/
theorem C8_witness :
    ∃ fs1, run emptyFS declEnums opts0 = Except.ok fs1 ∧
      fs1.read (opts0.outputDir ++ ["enums.ts"]) = some (enumsContent [enumA]) ∧
      ∀ e ∈ [enumA], ∃ pre post, enumsContent [enumA] =
        pre ++ ("export type " ++ pascalCase e.name ++ " = " ++
          String.intercalate " | " (e.members.filterMap (fun m =>
            match m with
            | UnionMember.strLit v => some ("\"" ++ v ++ "\"")
            | UnionMember.other => none)) ++ ";") ++ post :=
  C8_enum_alias_lines emptyFS declEnums opts0 _ _ [enumA] rfl rfl rfl
    (fun tbls h => by cases h)

/-- Joining two plain segments below a directory. -/
theorem pathJoin_pair (dir : Path) (n lit : String) (hn : plainSeg n) (hl : plainSeg lit) :
    pathJoin (pathJoin dir n) lit = dir ++ [n, lit] := by
  rw [pathJoin_plain _ _ hl, pathJoin_plain _ _ hn, List.append_assoc]
  rfl

/-- Two-segment suffixes with different second components give different
paths. -/
theorem pair_path_ne (dir : Path) (n : String) {a b : String} (h : a ≠ b) :
    dir ++ [n, a] ≠ dir ++ [n, b] := by
  intro he
  have h2 := List.append_cancel_left he
  injection h2 with _ h3
  injection h3 with h4 _
  exact h h4

/-- No last write in an indexed flatMap whose blocks all miss the
path. -/
theorem lastWriteOf_flatMap_none {α : Type} (f : α → List WriteOp) (l : List α) (p : Path)
    (h : ∀ u ∈ l, lastWriteOf (f u) p = none) :
    lastWriteOf (l.flatMap f) p = none := by
  induction l with
  | nil => rfl
  | cons u rest ih =>
    rw [List.flatMap_cons, lastWriteOf_append,
      ih (fun v hv => h v (List.mem_cons_of_mem _ hv))]
    exact h u (List.mem_cons_self _ _)

/-- When only one block of an indexed flatMap can touch the path,
its last write is the whole list's last write. -/
theorem lastWriteOf_flatMap_isolate {α : Type} (f : α → List WriteOp) (tbls l1 l2 : List α)
    (t : α) (heq : tbls = l1 ++ t :: l2) (p : Path)
    (h1 : ∀ u ∈ l1, lastWriteOf (f u) p = none)
    (h2 : ∀ u ∈ l2, lastWriteOf (f u) p = none) :
    lastWriteOf (tbls.flatMap f) p = lastWriteOf (f t) p := by
  subst heq
  rw [List.flatMap_append, List.flatMap_cons, lastWriteOf_append, lastWriteOf_append,
    lastWriteOf_flatMap_none f l2 p h2, lastWriteOf_flatMap_none f l1 p h1]
  cases hx : lastWriteOf (f t) p <;> rfl

/-- A member of a list with pairwise distinct keys splits the list with
all other members keyed differently. -/
theorem nodup_decomp_names {α β : Type} (key : α → β) (tbls : List α) (t : α) (ht : t ∈ tbls)
    (hnd : (tbls.map key).Nodup) :
    ∃ l1 l2, tbls = l1 ++ t :: l2 ∧
      (∀ u ∈ l1, key u ≠ key t) ∧ (∀ u ∈ l2, key u ≠ key t) := by
  obtain ⟨l1, l2, heq⟩ := List.append_of_mem ht
  refine ⟨l1, l2, heq, ?_, ?_⟩
  · intro u hu hne
    rw [heq, List.map_append, List.map_cons] at hnd
    rcases List.nodup_append.mp hnd with ⟨_, _, hdisj⟩
    exact hdisj (List.mem_map.mpr ⟨u, hu, rfl⟩) (by rw [hne]; exact List.mem_cons_self _ _)
  · intro u hu hne
    rw [heq, List.map_append, List.map_cons] at hnd
    rcases List.nodup_append.mp hnd with ⟨_, hcons, _⟩
    rcases List.nodup_cons.mp hcons with ⟨hnot, _⟩
    exact hnot (by rw [← hne]; exact List.mem_map.mpr ⟨u, hu, rfl⟩)

/-- A table module's plain writes never reach another table's directory. -/
theorem tableModuleOps_none_at (u : TableDesc) (dir : Path) (hu : plainSeg u.name)
    (tn lit : String) (hne : u.name ≠ tn) :
    lastWriteOf (tableModuleOps u dir) (dir ++ [tn, lit]) = none := by
  refine lastWriteOf_eq_none _ _ ?_
  intro q c hq hqp
  rw [tableModuleOps] at hq
  simp only [List.mem_cons] at hq
  rcases hq with h1 | h1 | h1 | h1
  · cases h1
  · injection h1 with e1 _
    rw [e1, pathJoin_pair dir u.name "types.ts" hu plain_typests] at hqp
    have h2 := List.append_cancel_left hqp
    injection h2 with h3 _
    exact hne h3
  · injection h1 with e1 _
    rw [e1, pathJoin_pair dir u.name "index.ts" hu plain_indexts] at hqp
    have h2 := List.append_cancel_left hqp
    injection h2 with h3 _
    exact hne h3
  · cases h1

/-- Shape of the writes of one table's relationship-and-hooks step. -/
theorem tableRelOpsGetD_mem_write (u : TableDesc) (dir : Path) (sip : String)
    (q : Path) (c : String) (h : WriteOp.write q c ∈ (tableRelOps u dir sip).getD []) :
    q = pathJoin dir u.name ++ ["relationships.json"] ∨
    q = pathJoin dir u.name ++ ["relations.ts"] ∨
    (q = pathJoin dir u.name ++ ["hooks.ts"] ∧ c = tableHooksContent u.name sip) := by
  rw [tableRelOps] at h
  cases hz : jsLengthIsZero (extractTableRelationships u.name u) with
  | error e => rw [hz] at h; cases h
  | ok b =>
    cases b with
    | true =>
      rw [hz] at h
      simp only [Option.getD_some, List.mem_singleton] at h
      injection h with e1 e2
      exact Or.inr (Or.inr ⟨by rw [e1, pathJoin_plain _ _ plain_hooksts], e2.symm ▸ rfl⟩)
    | false =>
      rw [hz] at h
      cases ha : asRelRecords (extractTableRelationships u.name u) with
      | none => rw [ha] at h; cases h
      | some rels =>
        rw [ha] at h
        simp only [Option.getD_some, List.mem_cons] at h
        rcases h with h1 | h1 | h1 | h1
        · injection h1 with e1 _
          exact Or.inl (by rw [e1, pathJoin_plain _ _ plain_relationshipsjson])
        · injection h1 with e1 _
          exact Or.inr (Or.inl (by rw [e1, pathJoin_plain _ _ plain_relationsts]))
        · injection h1 with e1 e2
          exact Or.inr (Or.inr ⟨by rw [e1, pathJoin_plain _ _ plain_hooksts], e2.symm ▸ rfl⟩)
        · cases h1

/-- One table's relationship-and-hooks writes never reach another
table's directory. -/
theorem tableRelOpsGetD_none_at (u : TableDesc) (dir : Path) (sip : String)
    (hu : plainSeg u.name) (tn lit : String) (hne : u.name ≠ tn) :
    lastWriteOf ((tableRelOps u dir sip).getD []) (dir ++ [tn, lit]) = none := by
  refine lastWriteOf_eq_none _ _ ?_
  intro q c hq hqp
  rcases tableRelOpsGetD_mem_write u dir sip q c hq with he | he | ⟨he, _⟩ <;>
  · rw [pathJoin_plain _ _ hu, List.append_assoc] at he
    rw [he] at hqp
    have h2 := List.append_cancel_left hqp
    injection h2 with h3 _
    exact hne h3

/-- The function-extraction phase never writes into a differently named
two-segment directory. -/
theorem fnPartOps_none_at_pair (pub : PublicDesc) (dir : Path) (tn lit : String)
    (h : tn ≠ "functions") :
    lastWriteOf (fnPartOps pub dir) (dir ++ [tn, lit]) = none := by
  rw [fnPartOps]
  cases pub.Functions with
  | none => rfl
  | some fns =>
    refine lastWriteOf_eq_none _ _ ?_
    intro q c hq hqp
    rcases functionsOps_mem_write fns dir q c hq with ⟨f, _, _, he, _⟩ | ⟨he, _⟩
    · rw [pathJoin_functions] at he
      rw [he] at hqp
      simp only [List.append_assoc] at hqp
      have h2 := List.append_cancel_left hqp
      injection h2 with h3 _
      exact h h3.symm
    · rw [pathJoin_functions] at he
      rw [he] at hqp
      simp only [List.append_assoc] at hqp
      have h2 := List.append_cancel_left hqp
      injection h2 with h3 _
      exact h h3.symm

/-- The function-hooks phase never writes into a differently named
two-segment directory. -/
theorem hookPartOps_none_at_pair (mid : FS) (pub : PublicDesc) (dir : Path) (sip : String)
    (tn lit : String) (h : tn ≠ "functions") :
    lastWriteOf (hookPartOps mid pub dir sip) (dir ++ [tn, lit]) = none := by
  refine hookPartOps_none_at mid pub dir sip _ ?_
  intro x l he
  simp only [List.append_assoc] at he
  have h2 := List.append_cancel_left he
  injection h2 with h3 _
  exact h h3

/-- The storage phase never writes into a differently named two-segment
directory. -/
theorem storageOps_none_at_pair (dir : Path) (sip : String) (tn lit : String)
    (h : tn ≠ "storage") :
    lastWriteOf (storageOps dir sip) (dir ++ [tn, lit]) = none := by
  refine lastWriteOf_eq_none _ _ ?_
  intro q c hq hqp
  rcases storageOps_mem_write dir sip q c hq with ⟨he, _⟩ | ⟨he, _⟩ | ⟨he, _⟩ <;>
  · rw [he] at hqp
    have h2 := List.append_cancel_left hqp
    injection h2 with h3 _
    exact h h3.symm

/-- Reading a file of one table's module directory out of the final state
of a successful run: only that table's own operations can decide it. -/
theorem runResult_read_table (fs : FS) (pub : PublicDesc) (dir : Path) (sip : String)
    (tbls : List TableDesc) (t : TableDesc) (lit : String)
    (hT : pub.Tables = some tbls) (ht : t ∈ tbls)
    (hplain : ∀ u ∈ tbls, plainSeg u.name)
    (hnd : (tbls.map TableDesc.name).Nodup)
    (hnf : t.name ≠ "functions") (hns : t.name ≠ "storage") :
    (runResult fs pub dir sip).read (dir ++ [t.name, lit]) =
      (match lastWriteOf (tableModuleOps t dir ++ (tableRelOps t dir sip).getD [])
          (dir ++ [t.name, lit]) with
       | some c => some c
       | none => fs.read (dir ++ [t.name, lit])) := by
  obtain ⟨l1, l2, heq, h1, h2⟩ := nodup_decomp_names TableDesc.name tbls t ht hnd
  have hpl1 : ∀ u ∈ l1, plainSeg u.name := fun u hu =>
    hplain u (by rw [heq]; exact List.mem_append.mpr (Or.inl hu))
  have hpl2 : ∀ u ∈ l2, plainSeg u.name := fun u hu =>
    hplain u (by rw [heq]; exact List.mem_append.mpr (Or.inr (List.mem_cons_of_mem _ hu)))
  have hmod : lastWriteOf (tablesOps tbls dir) (dir ++ [t.name, lit]) =
      lastWriteOf (tableModuleOps t dir) (dir ++ [t.name, lit]) := by
    rw [tablesOps]
    exact lastWriteOf_flatMap_isolate _ tbls l1 l2 t heq _
      (fun u hu => tableModuleOps_none_at u dir (hpl1 u hu) t.name lit (h1 u hu))
      (fun u hu => tableModuleOps_none_at u dir (hpl2 u hu) t.name lit (h2 u hu))
  have hrel : lastWriteOf (relTablesOps tbls dir sip) (dir ++ [t.name, lit]) =
      lastWriteOf ((tableRelOps t dir sip).getD []) (dir ++ [t.name, lit]) := by
    rw [relTablesOps]
    exact lastWriteOf_flatMap_isolate _ tbls l1 l2 t heq _
      (fun u hu => tableRelOpsGetD_none_at u dir sip (hpl1 u hu) t.name lit (h1 u hu))
      (fun u hu => tableRelOpsGetD_none_at u dir sip (hpl2 u hu) t.name lit (h2 u hu))
  have htp : tablesPartOps pub dir sip = tablesOps tbls dir ++ relTablesOps tbls dir sip := by
    rw [tablesPartOps, hT]
  have hw2 : lastWriteOf (w2ops (midFS fs pub dir sip) pub dir sip)
      (dir ++ [t.name, lit]) = none := by
    rw [w2ops, lastWriteOf_append, lastWriteOf_append,
      mainIndexOps_none_at pub dir _ (ne_of_len (by simp)),
      storageOps_none_at_pair dir sip t.name lit hns,
      hookPartOps_none_at_pair (midFS fs pub dir sip) pub dir sip t.name lit hnf]
  rw [runResult, read_applyOps, hw2, midFS, read_applyOps, w1ops, lastWriteOf_cons,
    lastWriteOf_append, lastWriteOf_append, lastWriteOf_append,
    fnPartOps_none_at_pair pub dir t.name lit hnf,
    enumsOps_none_at pub dir _ (ne_of_len (by simp)),
    htp, lastWriteOf_append, hrel, hmod,
    btOps_none_at pub dir _ (ne_of_len (by simp)),
    ← lastWriteOf_append]
  cases hx : lastWriteOf (tableModuleOps t dir ++ (tableRelOps t dir sip).getD [])
      (dir ++ [t.name, lit]) <;> rfl

/-- The relations file of a table whose relationship extraction yields an
empty value keeps its prior content: generateRelationshipTypes returns
early. -/
theorem runResult_relations_skip (fs : FS) (pub : PublicDesc) (dir : Path) (sip : String)
    (tbls : List TableDesc) (t : TableDesc)
    (hT : pub.Tables = some tbls) (ht : t ∈ tbls)
    (hplain : ∀ u ∈ tbls, plainSeg u.name)
    (hnd : (tbls.map TableDesc.name).Nodup)
    (hnf : t.name ≠ "functions") (hns : t.name ≠ "storage")
    (hz : jsLengthIsZero (extractTableRelationships t.name t) = Except.ok true) :
    (runResult fs pub dir sip).read (dir ++ [t.name, "relations.ts"]) =
      fs.read (dir ++ [t.name, "relations.ts"]) := by
  have hpt : plainSeg t.name := hplain t ht
  rw [runResult_read_table fs pub dir sip tbls t "relations.ts" hT ht hplain hnd hnf hns]
  have hlist : tableModuleOps t dir ++ (tableRelOps t dir sip).getD [] =
      [WriteOp.mkdir (pathJoin dir t.name),
       WriteOp.write (pathJoin (pathJoin dir t.name) "types.ts") (tableTypesContent t),
       WriteOp.write (pathJoin (pathJoin dir t.name) "index.ts") (moduleIndexContent t.name),
       WriteOp.write (pathJoin (pathJoin dir t.name) "hooks.ts")
         (tableHooksContent t.name sip)] := by
    simp only [tableModuleOps, tableRelOps, hz]
    rfl
  rw [hlist,
    pathJoin_pair dir t.name "types.ts" hpt plain_typests,
    pathJoin_pair dir t.name "index.ts" hpt plain_indexts,
    pathJoin_pair dir t.name "hooks.ts" hpt plain_hooksts,
    lastWriteOf]
  simp only [List.foldl_cons, List.foldl_nil, lwStep]
  simp

/-- The relations file of a table whose relationship extraction yields a
nonempty conforming record list holds the generated relation aliases. -/
theorem runResult_relations_present (fs : FS) (pub : PublicDesc) (dir : Path) (sip : String)
    (tbls : List TableDesc) (t : TableDesc) (rels : List RelRecord)
    (hT : pub.Tables = some tbls) (ht : t ∈ tbls)
    (hplain : ∀ u ∈ tbls, plainSeg u.name)
    (hnd : (tbls.map TableDesc.name).Nodup)
    (hnf : t.name ≠ "functions") (hns : t.name ≠ "storage")
    (hz : jsLengthIsZero (extractTableRelationships t.name t) = Except.ok false)
    (ha : asRelRecords (extractTableRelationships t.name t) = some rels) :
    (runResult fs pub dir sip).read (dir ++ [t.name, "relations.ts"]) =
      some (relationsContent t.name rels) := by
  have hpt : plainSeg t.name := hplain t ht
  rw [runResult_read_table fs pub dir sip tbls t "relations.ts" hT ht hplain hnd hnf hns]
  have hlist : tableModuleOps t dir ++ (tableRelOps t dir sip).getD [] =
      [WriteOp.mkdir (pathJoin dir t.name),
       WriteOp.write (pathJoin (pathJoin dir t.name) "types.ts") (tableTypesContent t),
       WriteOp.write (pathJoin (pathJoin dir t.name) "index.ts") (moduleIndexContent t.name),
       WriteOp.write (pathJoin (pathJoin dir t.name) "relationships.json")
         (jsonStringify 0 (extractTableRelationships t.name t)),
       WriteOp.write (pathJoin (pathJoin dir t.name) "relations.ts")
         (relationsContent t.name rels),
       WriteOp.write (pathJoin (pathJoin dir t.name) "hooks.ts")
         (tableHooksContent t.name sip)] := by
    simp only [tableModuleOps, tableRelOps, hz, ha]
    rfl
  rw [hlist,
    pathJoin_pair dir t.name "types.ts" hpt plain_typests,
    pathJoin_pair dir t.name "index.ts" hpt plain_indexts,
    pathJoin_pair dir t.name "relationships.json" hpt plain_relationshipsjson,
    pathJoin_pair dir t.name "relations.ts" hpt plain_relationsts,
    pathJoin_pair dir t.name "hooks.ts" hpt plain_hooksts,
    lastWriteOf]
  simp only [List.foldl_cons, List.foldl_nil, lwStep]
  simp

/-- The types file of every table module holds the generated type
aliases in the final state of a successful run. -/
theorem runResult_read_types (fs : FS) (pub : PublicDesc) (dir : Path) (sip : String)
    (tbls : List TableDesc) (t : TableDesc)
    (hT : pub.Tables = some tbls) (ht : t ∈ tbls)
    (hplain : ∀ u ∈ tbls, plainSeg u.name)
    (hnd : (tbls.map TableDesc.name).Nodup)
    (hnf : t.name ≠ "functions") (hns : t.name ≠ "storage") :
    (runResult fs pub dir sip).read (dir ++ [t.name, "types.ts"]) =
      some (tableTypesContent t) := by
  have hpt : plainSeg t.name := hplain t ht
  rw [runResult_read_table fs pub dir sip tbls t "types.ts" hT ht hplain hnd hnf hns]
  have hrn : lastWriteOf ((tableRelOps t dir sip).getD [])
      (dir ++ [t.name, "types.ts"]) = none := by
    refine lastWriteOf_eq_none _ _ ?_
    intro q c hq hqp
    rcases tableRelOpsGetD_mem_write t dir sip q c hq with he | he | ⟨he, _⟩ <;>
    · rw [pathJoin_plain _ _ hpt, List.append_assoc] at he
      rw [he] at hqp
      exact pair_path_ne dir t.name (by decide) hqp
  rw [lastWriteOf_append, hrn, tableModuleOps,
    pathJoin_pair dir t.name "types.ts" hpt plain_typests,
    pathJoin_pair dir t.name "index.ts" hpt plain_indexts,
    lastWriteOf]
  simp only [List.foldl_cons, List.foldl_nil, lwStep]
  simp

/-- The index file of every table module holds the module re-export in
the final state of a successful run. -/
theorem runResult_read_module_index (fs : FS) (pub : PublicDesc) (dir : Path) (sip : String)
    (tbls : List TableDesc) (t : TableDesc)
    (hT : pub.Tables = some tbls) (ht : t ∈ tbls)
    (hplain : ∀ u ∈ tbls, plainSeg u.name)
    (hnd : (tbls.map TableDesc.name).Nodup)
    (hnf : t.name ≠ "functions") (hns : t.name ≠ "storage") :
    (runResult fs pub dir sip).read (dir ++ [t.name, "index.ts"]) =
      some (moduleIndexContent t.name) := by
  have hpt : plainSeg t.name := hplain t ht
  rw [runResult_read_table fs pub dir sip tbls t "index.ts" hT ht hplain hnd hnf hns]
  have hrn : lastWriteOf ((tableRelOps t dir sip).getD [])
      (dir ++ [t.name, "index.ts"]) = none := by
    refine lastWriteOf_eq_none _ _ ?_
    intro q c hq hqp
    rcases tableRelOpsGetD_mem_write t dir sip q c hq with he | he | ⟨he, _⟩ <;>
    · rw [pathJoin_plain _ _ hpt, List.append_assoc] at he
      rw [he] at hqp
      exact pair_path_ne dir t.name (by decide) hqp
  rw [lastWriteOf_append, hrn, tableModuleOps,
    pathJoin_pair dir t.name "types.ts" hpt plain_typests,
    pathJoin_pair dir t.name "index.ts" hpt plain_indexts,
    lastWriteOf]
  simp only [List.foldl_cons, List.foldl_nil, lwStep]
  simp

/-- The hooks file of every table module that processes without throwing
holds the generated hooks in the final state of a successful run. -/
theorem runResult_read_hooks (fs : FS) (pub : PublicDesc) (dir : Path) (sip : String)
    (tbls : List TableDesc) (t : TableDesc)
    (hT : pub.Tables = some tbls) (ht : t ∈ tbls)
    (hplain : ∀ u ∈ tbls, plainSeg u.name)
    (hnd : (tbls.map TableDesc.name).Nodup)
    (hnf : t.name ≠ "functions") (hns : t.name ≠ "storage")
    (hsome : (tableRelOps t dir sip).isSome) :
    (runResult fs pub dir sip).read (dir ++ [t.name, "hooks.ts"]) =
      some (tableHooksContent t.name sip) := by
  have hpt : plainSeg t.name := hplain t ht
  rw [runResult_read_table fs pub dir sip tbls t "hooks.ts" hT ht hplain hnd hnf hns]
  have hrl : lastWriteOf ((tableRelOps t dir sip).getD [])
      (dir ++ [t.name, "hooks.ts"]) = some (tableHooksContent t.name sip) := by
    rw [tableRelOps] at hsome ⊢
    cases hz : jsLengthIsZero (extractTableRelationships t.name t) with
    | error e => rw [hz] at hsome; simp at hsome
    | ok b =>
      cases b with
      | true =>
        rw [pathJoin_pair dir t.name "hooks.ts" hpt plain_hooksts]
        simp [lastWriteOf, lwStep]
      | false =>
        rw [hz] at hsome
        cases ha : asRelRecords (extractTableRelationships t.name t) with
        | none => rw [ha] at hsome; simp at hsome
        | some rels =>
          rw [pathJoin_pair dir t.name "relationships.json" hpt plain_relationshipsjson,
            pathJoin_pair dir t.name "relations.ts" hpt plain_relationsts,
            pathJoin_pair dir t.name "hooks.ts" hpt plain_hooksts]
          simp [lastWriteOf, lwStep]
  rw [lastWriteOf_append, hrl]

/-- C3, counterexample: a table without a Relationships property gets its
types, index and hooks files but no relations.ts, contradicting the claim
that a relations file is written for every table. -/
theorem C3_counterexample :
    ∃ fs1, run emptyFS ⟨some ⟨some ⟨some [⟨"users", none, none, none, none⟩], none, none⟩⟩⟩
        opts0 = Except.ok fs1 ∧
      fs1.read ["out", "users", "hooks.ts"] =
        some (tableHooksContent "users" "@/lib/supabase") ∧
      fs1.read ["out", "users", "relations.ts"] = none := by
  refine ⟨_, rfl, ?_, ?_⟩ <;> rfl

/-- C3, amended: every table module of an accepted run holds types.ts,
index.ts and hooks.ts, but relations.ts is written only when the
relationship extraction yields a nonempty conforming record list; on an
empty or absent Relationships value the relations path keeps its prior
content. -/
theorem C3_relations_only_when_nonempty
    (fs : FS) (d : InputDecl) (o : ExtractorOptions) (db : DatabaseDesc) (pub : PublicDesc)
    (tbls : List TableDesc) (t : TableDesc)
    (hdb : d.Database = some db) (hpub : db.publicProp = some pub)
    (hT : pub.Tables = some tbls) (ht : t ∈ tbls)
    (hplain : ∀ u ∈ tbls, plainSeg u.name)
    (hnd : (tbls.map TableDesc.name).Nodup)
    (hnf : t.name ≠ "functions") (hns : t.name ≠ "storage")
    (hok : ∀ tbls2, pub.Tables = some tbls2 → ∀ u ∈ tbls2,
      (tableRelOps u o.outputDir (o.supabaseImportPath.getD "@/lib/supabase")).isSome) :
    ∃ fs1, run fs d o = Except.ok fs1 ∧
      fs1.read (o.outputDir ++ [t.name, "types.ts"]) = some (tableTypesContent t) ∧
      fs1.read (o.outputDir ++ [t.name, "index.ts"]) = some (moduleIndexContent t.name) ∧
      fs1.read (o.outputDir ++ [t.name, "hooks.ts"]) =
        some (tableHooksContent t.name (o.supabaseImportPath.getD "@/lib/supabase")) ∧
      (jsLengthIsZero (extractTableRelationships t.name t) = Except.ok true →
        fs1.read (o.outputDir ++ [t.name, "relations.ts"]) =
          fs.read (o.outputDir ++ [t.name, "relations.ts"])) ∧
      (∀ rels, jsLengthIsZero (extractTableRelationships t.name t) = Except.ok false →
        asRelRecords (extractTableRelationships t.name t) = some rels →
        fs1.read (o.outputDir ++ [t.name, "relations.ts"]) =
          some (relationsContent t.name rels)) := by
  refine ⟨_, run_eq fs d o db pub hdb hpub hok, ?_, ?_, ?_, ?_, ?_⟩
  · exact runResult_read_types fs pub o.outputDir _ tbls t hT ht hplain hnd hnf hns
  · exact runResult_read_module_index fs pub o.outputDir _ tbls t hT ht hplain hnd hnf hns
  · exact runResult_read_hooks fs pub o.outputDir _ tbls t hT ht hplain hnd hnf hns
      (hok tbls hT t ht)
  · intro hz
    exact runResult_relations_skip fs pub o.outputDir _ tbls t hT ht hplain hnd hnf hns hz
  · intro rels hz ha
    exact runResult_relations_present fs pub o.outputDir _ tbls t rels hT ht hplain hnd
      hnf hns hz ha

/-- C3, witness: the amended statement applied to the one-table schema
without relationships. -/
theorem C3_witness :
    ∃ fs1, run emptyFS declUsers opts0 = Except.ok fs1 ∧
      fs1.read (opts0.outputDir ++ [tUsers.name, "types.ts"]) =
        some (tableTypesContent tUsers) ∧
      fs1.read (opts0.outputDir ++ [tUsers.name, "index.ts"]) =
        some (moduleIndexContent tUsers.name) ∧
      fs1.read (opts0.outputDir ++ [tUsers.name, "hooks.ts"]) =
        some (tableHooksContent tUsers.name (opts0.supabaseImportPath.getD "@/lib/supabase")) ∧
      (jsLengthIsZero (extractTableRelationships tUsers.name tUsers) = Except.ok true →
        fs1.read (opts0.outputDir ++ [tUsers.name, "relations.ts"]) =
          emptyFS.read (opts0.outputDir ++ [tUsers.name, "relations.ts"])) ∧
      (∀ rels, jsLengthIsZero (extractTableRelationships tUsers.name tUsers) = Except.ok false →
        asRelRecords (extractTableRelationships tUsers.name tUsers) = some rels →
        fs1.read (opts0.outputDir ++ [tUsers.name, "relations.ts"]) =
          some (relationsContent tUsers.name rels)) :=
  C3_relations_only_when_nonempty emptyFS declUsers opts0 _ _ [tUsers] tUsers rfl rfl rfl
    (List.mem_singleton.mpr rfl) (by decide) (by simp) (by decide) (by decide)
    (fun tbls2 h u hu => by
      injection h with h2
      subst h2
      rcases List.mem_singleton.mp hu with rfl
      rfl)

/-- Any line of the types file occurs verbatim in it. -/
theorem tableTypes_mem_decomp (t : TableDesc) (elem : String)
    (h : elem ∈
      ["/** Auto-generated type definitions for table: " ++ t.name ++ " */\n",
       baseTypeImports (setAddAll (setAddAll (setAddAll []
         (findBaseTypes (jsOrDefault (typeToString t.Row) "{}")))
         (findBaseTypes (jsOrDefault (typeToString t.Insert) "{}")))
         (findBaseTypes (jsOrDefault (typeToString t.Update) "{}"))),
       "export type " ++ pascalCase t.name ++ "Row = " ++
         cleanMokuImports (formatTypeDefinition (jsOrDefault (typeToString t.Row) "{}")) ++
         ";\n",
       "export type " ++ pascalCase t.name ++ "Insert = " ++
         cleanMokuImports (formatTypeDefinition (jsOrDefault (typeToString t.Insert) "{}")) ++
         ";\n",
       "export type " ++ pascalCase t.name ++ "Update = " ++
         cleanMokuImports (formatTypeDefinition (jsOrDefault (typeToString t.Update) "{}")) ++
         ";\n",
       "/**\n * Filter parameters for " ++ t.name ++ " queries\n * Makes all properties from " ++
         pascalCase t.name ++ "Row optional and adds array operators\n */\nexport type " ++
         pascalCase t.name ++ "FilterParams = \x7b\n  [K in keyof " ++ pascalCase t.name ++
         "Row]?: " ++ pascalCase t.name ++ "Row[K] | " ++ pascalCase t.name ++
         "Row[K][] | null;\n\x7d & \x7b\n  limit?: number;\n  offset?: number;\n  order?: \x7b\n    column: keyof " ++
         pascalCase t.name ++ "Row;\n    direction?: \x27asc\x27 | \x27desc\x27;\n  \x7d;\n\x7d;"]) :
    ∃ pre post, tableTypesContent t = pre ++ elem ++ post :=
  intercalate_mem_decomp "\n" _ elem h

/-- C5, counterexample: a table named storage has its module clobbered by
the storage module written afterwards, so its types.ts does not hold the
generated table aliases, contradicting the claim for every table. -/
theorem C5_counterexample :
    ∃ fs1, run emptyFS declStorage opts0 = Except.ok fs1 ∧
      fs1.read ["out", "storage", "types.ts"] = some storageTypesContent ∧
      storageTypesContent ≠ tableTypesContent tStorage := by
  refine ⟨_, rfl, rfl, ?_⟩
  decide

/-- C5, amended: for every table of an accepted run not named storage or
functions, the module holds types.ts with the Row, Insert and Update
aliases (whose bodies collapse to an empty object literal when the
corresponding property is absent) and the FilterParams alias, and hooks.ts
with the generated data-access hooks; a table named storage is instead
clobbered by the storage module. -/
theorem C5_table_module_contents
    (fs : FS) (d : InputDecl) (o : ExtractorOptions) (db : DatabaseDesc) (pub : PublicDesc)
    (tbls : List TableDesc) (t : TableDesc)
    (hdb : d.Database = some db) (hpub : db.publicProp = some pub)
    (hT : pub.Tables = some tbls) (ht : t ∈ tbls)
    (hplain : ∀ u ∈ tbls, plainSeg u.name)
    (hnd : (tbls.map TableDesc.name).Nodup)
    (hnf : t.name ≠ "functions") (hns : t.name ≠ "storage")
    (hok : ∀ tbls2, pub.Tables = some tbls2 → ∀ u ∈ tbls2,
      (tableRelOps u o.outputDir (o.supabaseImportPath.getD "@/lib/supabase")).isSome) :
    ∃ fs1, run fs d o = Except.ok fs1 ∧
      fs1.read (o.outputDir ++ [t.name, "types.ts"]) = some (tableTypesContent t) ∧
      fs1.read (o.outputDir ++ [t.name, "hooks.ts"]) =
        some (tableHooksContent t.name (o.supabaseImportPath.getD "@/lib/supabase")) ∧
      (∃ pre post, tableTypesContent t =
        pre ++ ("export type " ++ pascalCase t.name ++ "Row = " ++
          cleanMokuImports (formatTypeDefinition (jsOrDefault (typeToString t.Row) "{}")) ++
          ";\n") ++ post) ∧
      (∃ pre post, tableTypesContent t =
        pre ++ ("export type " ++ pascalCase t.name ++ "Insert = " ++
          cleanMokuImports (formatTypeDefinition (jsOrDefault (typeToString t.Insert) "{}")) ++
          ";\n") ++ post) ∧
      (∃ pre post, tableTypesContent t =
        pre ++ ("export type " ++ pascalCase t.name ++ "Update = " ++
          cleanMokuImports (formatTypeDefinition (jsOrDefault (typeToString t.Update) "{}")) ++
          ";\n") ++ post) ∧
      (∃ pre post, tableTypesContent t =
        pre ++ ("export type " ++ pascalCase t.name ++ "FilterParams = ") ++ post) ∧
      (t.Row = none →
        cleanMokuImports (formatTypeDefinition (jsOrDefault (typeToString t.Row) "{}")) = "{}") ∧
      (t.Insert = none →
        cleanMokuImports (formatTypeDefinition (jsOrDefault (typeToString t.Insert) "{}")) = "{}") ∧
      (t.Update = none →
        cleanMokuImports (formatTypeDefinition (jsOrDefault (typeToString t.Update) "{}")) = "{}") := by
  refine ⟨_, run_eq fs d o db pub hdb hpub hok, ?_, ?_, ?_, ?_, ?_, ?_, ?_, ?_, ?_⟩
  · exact runResult_read_types fs pub o.outputDir _ tbls t hT ht hplain hnd hnf hns
  · exact runResult_read_hooks fs pub o.outputDir _ tbls t hT ht hplain hnd hnf hns
      (hok tbls hT t ht)
  · exact tableTypes_mem_decomp t _
      (List.mem_cons_of_mem _ (List.mem_cons_of_mem _ (List.mem_cons_self _ _)))
  · exact tableTypes_mem_decomp t _
      (List.mem_cons_of_mem _ (List.mem_cons_of_mem _ (List.mem_cons_of_mem _
        (List.mem_cons_self _ _))))
  · exact tableTypes_mem_decomp t _
      (List.mem_cons_of_mem _ (List.mem_cons_of_mem _ (List.mem_cons_of_mem _
        (List.mem_cons_of_mem _ (List.mem_cons_self _ _)))))
  · obtain ⟨pre, post, hp⟩ := tableTypes_mem_decomp t _
      (List.mem_cons_of_mem _ (List.mem_cons_of_mem _ (List.mem_cons_of_mem _
        (List.mem_cons_of_mem _ (List.mem_cons_of_mem _ (List.mem_cons_self
          ("/**\n * Filter parameters for " ++ t.name ++
            " queries\n * Makes all properties from " ++
            pascalCase t.name ++ "Row optional and adds array operators\n */\nexport type " ++
            pascalCase t.name ++ "FilterParams = \x7b\n  [K in keyof " ++ pascalCase t.name ++
            "Row]?: " ++ pascalCase t.name ++ "Row[K] | " ++ pascalCase t.name ++
            "Row[K][] | null;\n\x7d & \x7b\n  limit?: number;\n  offset?: number;\n  order?: \x7b\n    column: keyof " ++
            pascalCase t.name ++ "Row;\n    direction?: \x27asc\x27 | \x27desc\x27;\n  \x7d;\n\x7d;")
          []))))))
    refine ⟨pre ++ ("/**\n * Filter parameters for " ++ t.name ++
      " queries\n * Makes all properties from " ++ pascalCase t.name ++
      "Row optional and adds array operators\n */\n"),
      ("\x7b\n  [K in keyof " ++ pascalCase t.name ++ "Row]?: " ++ pascalCase t.name ++
        "Row[K] | " ++ pascalCase t.name ++
        "Row[K][] | null;\n\x7d & \x7b\n  limit?: number;\n  offset?: number;\n  order?: \x7b\n    column: keyof " ++
        pascalCase t.name ++ "Row;\n    direction?: \x27asc\x27 | \x27desc\x27;\n  \x7d;\n\x7d;") ++ post, ?_⟩
    rw [hp]
    have e1 : ("Row optional and adds array operators\n */\nexport type " : String) =
        "Row optional and adds array operators\n */\n" ++ "export type " := rfl
    have e2 : ("FilterParams = \x7b\n  [K in keyof " : String) =
        "FilterParams = " ++ "\x7b\n  [K in keyof " := rfl
    rw [e1, e2]
    simp only [String.append_assoc]
  · intro h
    rw [h]
    rfl
  · intro h
    rw [h]
    rfl
  · intro h
    rw [h]
    rfl

/-- C5, witness: the module-content statement applied to the one-table
schema with absent Row, Insert and Update properties. -/
theorem C5_witness :
    ∃ fs1, run emptyFS declUsers opts0 = Except.ok fs1 ∧
      fs1.read (opts0.outputDir ++ [tUsers.name, "types.ts"]) =
        some (tableTypesContent tUsers) ∧
      fs1.read (opts0.outputDir ++ [tUsers.name, "hooks.ts"]) =
        some (tableHooksContent tUsers.name (opts0.supabaseImportPath.getD "@/lib/supabase")) ∧
      (∃ pre post, tableTypesContent tUsers =
        pre ++ ("export type " ++ pascalCase tUsers.name ++ "Row = " ++
          cleanMokuImports (formatTypeDefinition (jsOrDefault (typeToString tUsers.Row) "{}")) ++
          ";\n") ++ post) ∧
      (∃ pre post, tableTypesContent tUsers =
        pre ++ ("export type " ++ pascalCase tUsers.name ++ "Insert = " ++
          cleanMokuImports (formatTypeDefinition (jsOrDefault (typeToString tUsers.Insert) "{}")) ++
          ";\n") ++ post) ∧
      (∃ pre post, tableTypesContent tUsers =
        pre ++ ("export type " ++ pascalCase tUsers.name ++ "Update = " ++
          cleanMokuImports (formatTypeDefinition (jsOrDefault (typeToString tUsers.Update) "{}")) ++
          ";\n") ++ post) ∧
      (∃ pre post, tableTypesContent tUsers =
        pre ++ ("export type " ++ pascalCase tUsers.name ++ "FilterParams = ") ++ post) ∧
      (tUsers.Row = none →
        cleanMokuImports (formatTypeDefinition (jsOrDefault (typeToString tUsers.Row) "{}")) =
          "{}") ∧
      (tUsers.Insert = none →
        cleanMokuImports (formatTypeDefinition (jsOrDefault (typeToString tUsers.Insert) "{}")) =
          "{}") ∧
      (tUsers.Update = none →
        cleanMokuImports (formatTypeDefinition (jsOrDefault (typeToString tUsers.Update) "{}")) =
          "{}") :=
  C5_table_module_contents emptyFS declUsers opts0 _ _ [tUsers] tUsers rfl rfl rfl
    (List.mem_singleton.mpr rfl) (by decide) (by simp) (by decide) (by decide)
    (fun tbls2 h u hu => by
      injection h with h2
      subst h2
      rcases List.mem_singleton.mp hu with rfl
      rfl)

/-- C9, counterexample: a Relationships type stringifying to plain 5 is
cleaned into valid JSON that parses to a number, so extractTableRelationships
returns a non-list value, and the run aborts with a TypeError instead of
merely omitting the relations output. -/
theorem C9_counterexample :
    extractTableRelationships tBadRel.name tBadRel = Json.num "5" ∧
    run emptyFS declBadRel
      ⟨"database.types.ts", ["out2"], "tsconfig.json", none⟩ =
      Except.error "TypeError: relationships value is not an array of relationship records" :=
  ⟨rfl, rfl⟩

/-- C9, amended: extractTableRelationships never throws and returns the
empty array when the Relationships property is absent or its cleaned
string fails to parse, as claimed; but when the cleaned string parses to
a non-array the raw value is returned, and the relationship step of the
run is defined only for array values with conforming records, a numeric
value making it throw. -/
theorem C9_extract_relationships_totality (t : TableDesc) (dir : Path) (sip : String) :
    (t.Relationships = none → extractTableRelationships t.name t = Json.arr []) ∧
    (∀ s, t.Relationships = some s →
      jsonParse (cleanRelationshipsText (jsOrDefault (typeToString (some s)) "[]")) = none →
      extractTableRelationships t.name t = Json.arr []) ∧
    (∀ rels, extractTableRelationships t.name t = Json.arr rels →
      (asRelRecords (Json.arr rels)).isSome → (tableRelOps t dir sip).isSome) ∧
    (∀ raw, extractTableRelationships t.name t = Json.num raw →
      tableRelOps t dir sip = none) := by
  refine ⟨?_, ?_, ?_, ?_⟩
  · intro h
    simp only [extractTableRelationships, h]
  · intro s h hp
    simp only [extractTableRelationships, h, hp]
  · intro rels he hsome
    simp only [tableRelOps, he]
    cases rels with
    | nil => rfl
    | cons a l =>
      obtain ⟨r, hr⟩ := Option.isSome_iff_exists.mp hsome
      rw [hr]
      rfl
  · intro raw he
    simp only [tableRelOps, he]
    rfl

/-- C9, witness: the totality statement applied to the relationship-free
table and to the numeric-relationships table. -/
theorem C9_witness :
    extractTableRelationships tUsers.name tUsers = Json.arr [] ∧
    tableRelOps tBadRel ["out"] "@/lib/supabase" = none :=
  ⟨(C9_extract_relationships_totality tUsers ["out"] "@/lib/supabase").1 rfl,
   (C9_extract_relationships_totality tBadRel ["out"] "@/lib/supabase").2.2.2 "5" rfl⟩

/-- Joining preserves plain paths. -/
theorem plainPath_pathJoin (dir : Path) (s : String) (h : plainPath dir) :
    plainPath (pathJoin dir s) :=
  pathJoin_segs_plain dir s h

/-- A child relation determines the child path. -/
theorem childOf_eq (p q : Path) (n : String) (h : childOf p q = some n) : q = p ++ [n] := by
  rw [childOf] at h
  by_cases ht : q.take p.length = p
  · rw [if_pos ht] at h
    cases hd : q.drop p.length with
    | nil =>
      rw [hd] at h
      exact Option.noConfusion h
    | cons a l =>
      cases l with
      | nil =>
        rw [hd] at h
        have h2 : some a = some n := h
        injection h2 with h3
        subst h3
        calc q = q.take p.length ++ q.drop p.length := (List.take_append_drop _ _).symm
          _ = p ++ [a] := by rw [ht, hd]
      | cons b l2 =>
        rw [hd] at h
        exact Option.noConfusion h
  · rw [if_neg ht] at h
    exact Option.noConfusion h

/-- Deduplication keeps only original members. -/
theorem mem_dedupKeepFirst (x : String) (l : List String) (h : x ∈ dedupKeepFirst l) :
    x ∈ l := by
  induction l with
  | nil => cases h
  | cons a xs ih =>
    rw [dedupKeepFirst] at h
    rcases List.mem_cons.mp h with rfl | h2
    · exact List.mem_cons_self _ _
    · exact List.mem_cons_of_mem _ (ih (List.mem_of_mem_filter h2))

/-- Directory listings of a well-formed file system yield plain names. -/
theorem childNames_plain (fs : FS) (p : Path) (hwf : FSWF fs) :
    ∀ n ∈ fs.childNames p, plainSeg n := by
  intro n hn
  rw [FS.childNames] at hn
  have h2 := mem_dedupKeepFirst n _ hn
  obtain ⟨q, hq, hcq⟩ := List.mem_filterMap.mp h2
  have hq2 : q = p ++ [n] := childOf_eq p q n hcq
  have hplainq : plainPath q := by
    rcases List.mem_append.mp hq with hd | hf2
    · exact hwf.1 q hd
    · obtain ⟨e, he, he2⟩ := List.mem_map.mp hf2
      rw [← he2]
      exact hwf.2 e he
  exact hplainq n (by rw [hq2]; exact List.mem_append.mpr (Or.inr (List.mem_singleton.mpr rfl)))

/-- One operation with a plain target preserves well-formedness. -/
theorem FSWF_applyOp (fs : FS) (op : WriteOp) (h : FSWF fs)
    (hop : plainPath (opPath op)) : FSWF (applyOp fs op) := by
  cases op with
  | mkdir p =>
    show FSWF (fs.ensureDir p)
    rw [FS.ensureDir]
    by_cases he : fs.existsSync p
    · rw [if_pos he]; exact h
    · rw [if_neg he]
      constructor
      · intro q hq
        rcases List.mem_append.mp hq with h1 | h2
        · exact h.1 q h1
        · have h3 := List.mem_of_mem_filter h2
          rw [prefixesOf] at h3
          obtain ⟨i, _, h4⟩ := List.mem_map.mp h3
          rw [← h4]
          intro seg hseg
          exact hop seg (List.mem_of_mem_take hseg)
      · intro e he2
        exact h.2 e he2
  | write p c =>
    show FSWF (fs.writeFileSync p c)
    rw [FS.writeFileSync]
    by_cases hx : fs.files.any (fun e => e.1 = p)
    · rw [if_pos hx]
      constructor
      · intro q hq; exact h.1 q hq
      · intro e he2
        obtain ⟨e0, he0, he02⟩ := List.mem_map.mp he2
        by_cases hp : e0.1 = p
        · rw [← he02, if_pos hp]
          exact hop
        · rw [← he02, if_neg hp]
          exact h.2 e0 he0
    · rw [if_neg hx]
      constructor
      · intro q hq; exact h.1 q hq
      · intro e he2
        rcases List.mem_append.mp he2 with h1 | h1
        · exact h.2 e h1
        · rcases List.mem_singleton.mp h1 with rfl
          exact hop

/-- An operation list with plain targets preserves well-formedness. -/
theorem FSWF_applyOps (ops : List WriteOp) (fs : FS) (h : FSWF fs)
    (hops : ∀ op ∈ ops, plainPath (opPath op)) : FSWF (applyOps ops fs) := by
  induction ops generalizing fs with
  | nil => exact h
  | cons op rest ih =>
    rw [applyOps, List.foldl_cons]
    exact ih (applyOp fs op)
      (FSWF_applyOp fs op h (hops op (List.mem_cons_self _ _)))
      (fun op2 h2 => hops op2 (List.mem_cons_of_mem _ h2))

/-- Table-module operations target plain paths. -/
theorem opsPlain_tableModuleOps (t : TableDesc) (dir : Path) (hdir : plainPath dir) :
    ∀ op ∈ tableModuleOps t dir, plainPath (opPath op) := by
  intro op hop
  rw [tableModuleOps] at hop
  simp only [List.mem_cons] at hop
  rcases hop with rfl | rfl | rfl | h
  · exact plainPath_pathJoin _ _ hdir
  · exact plainPath_pathJoin _ _ (plainPath_pathJoin _ _ hdir)
  · exact plainPath_pathJoin _ _ (plainPath_pathJoin _ _ hdir)
  · cases h

/-- Relationship-step operations target plain paths. -/
theorem opsPlain_tableRelOpsGetD (t : TableDesc) (dir : Path) (sip : String)
    (hdir : plainPath dir) : ∀ op ∈ (tableRelOps t dir sip).getD [], plainPath (opPath op) := by
  intro op hop
  rw [tableRelOps] at hop
  cases hz : jsLengthIsZero (extractTableRelationships t.name t) with
  | error e => rw [hz] at hop; cases hop
  | ok b =>
    cases b with
    | true =>
      rw [hz] at hop
      simp only [Option.getD_some, List.mem_singleton] at hop
      subst hop
      exact plainPath_pathJoin _ _ (plainPath_pathJoin _ _ hdir)
    | false =>
      rw [hz] at hop
      cases ha : asRelRecords (extractTableRelationships t.name t) with
      | none => rw [ha] at hop; cases hop
      | some rels =>
        rw [ha] at hop
        simp only [Option.getD_some, List.mem_cons] at hop
        rcases hop with rfl | rfl | rfl | h
        · exact plainPath_pathJoin _ _ (plainPath_pathJoin _ _ hdir)
        · exact plainPath_pathJoin _ _ (plainPath_pathJoin _ _ hdir)
        · exact plainPath_pathJoin _ _ (plainPath_pathJoin _ _ hdir)
        · cases h

/-- Table-phase operations target plain paths. -/
theorem opsPlain_tablesPartOps (pub : PublicDesc) (dir : Path) (sip : String)
    (hdir : plainPath dir) : ∀ op ∈ tablesPartOps pub dir sip, plainPath (opPath op) := by
  intro op hop
  cases hT : pub.Tables with
  | none => simp only [tablesPartOps, hT] at hop; cases hop
  | some tbls =>
    simp only [tablesPartOps, hT] at hop
    rcases List.mem_append.mp hop with h1 | h1
    · rw [tablesOps] at h1
      obtain ⟨t, _, h2⟩ := List.mem_flatMap.mp h1
      exact opsPlain_tableModuleOps t dir hdir op h2
    · rw [relTablesOps] at h1
      obtain ⟨t, _, h2⟩ := List.mem_flatMap.mp h1
      exact opsPlain_tableRelOpsGetD t dir sip hdir op h2

/-- Base-types operations target plain paths. -/
theorem opsPlain_btOps (pub : PublicDesc) (dir : Path) (hdir : plainPath dir) :
    ∀ op ∈ btOps pub dir, plainPath (opPath op) := by
  intro op hop
  rw [btOps] at hop
  by_cases h0 : (btNames pub).length = 0
  · rw [if_pos h0] at hop; cases hop
  · rw [if_neg h0] at hop
    rcases List.mem_singleton.mp hop with rfl
    exact plainPath_pathJoin _ _ hdir

/-- Enums operations target plain paths. -/
theorem opsPlain_enumsOps (pub : PublicDesc) (dir : Path) (hdir : plainPath dir) :
    ∀ op ∈ enumsOps pub dir, plainPath (opPath op) := by
  intro op hop
  cases hE : pub.Enums with
  | none => simp only [enumsOps, hE] at hop; cases hop
  | some enums =>
    simp only [enumsOps, hE] at hop
    rcases List.mem_singleton.mp hop with rfl
    exact plainPath_pathJoin _ _ hdir

/-- Function-extraction operations target plain paths. -/
theorem opsPlain_fnPartOps (pub : PublicDesc) (dir : Path) (hdir : plainPath dir) :
    ∀ op ∈ fnPartOps pub dir, plainPath (opPath op) := by
  intro op hop
  cases hF : pub.Functions with
  | none => simp only [fnPartOps, hF] at hop; cases hop
  | some fns =>
    simp only [fnPartOps, hF, functionsOps] at hop
    rcases List.mem_cons.mp hop with rfl | h1
    · exact plainPath_pathJoin _ _ hdir
    · rcases List.mem_append.mp h1 with h2 | h2
      · obtain ⟨f, _, h3⟩ := List.mem_flatMap.mp h2
        rw [fnModuleOps] at h3
        by_cases hu : jsStartsWith f.name "_"
        · rw [if_pos hu] at h3; cases h3
        · rw [if_neg hu] at h3
          rcases List.mem_cons.mp h3 with rfl | h4
          · exact plainPath_pathJoin _ _ (plainPath_pathJoin _ _ hdir)
          · rcases List.mem_singleton.mp h4 with rfl
            exact plainPath_pathJoin _ _
              (plainPath_pathJoin _ _ (plainPath_pathJoin _ _ hdir))
      · rcases List.mem_singleton.mp h2 with rfl
        exact plainPath_pathJoin _ _ (plainPath_pathJoin _ _ hdir)

/-- First-phase operations target plain paths. -/
theorem opsPlain_w1ops (pub : PublicDesc) (dir : Path) (sip : String)
    (hdir : plainPath dir) : ∀ op ∈ w1ops pub dir sip, plainPath (opPath op) := by
  intro op hop
  rw [w1ops] at hop
  rcases List.mem_cons.mp hop with rfl | h1
  · exact hdir
  · rcases List.mem_append.mp h1 with h2 | h2
    · rcases List.mem_append.mp h2 with h3 | h3
      · rcases List.mem_append.mp h3 with h4 | h4
        · exact opsPlain_btOps pub dir hdir op h4
        · exact opsPlain_tablesPartOps pub dir sip hdir op h4
      · exact opsPlain_enumsOps pub dir hdir op h3
    · exact opsPlain_fnPartOps pub dir hdir op h2

/-- The intermediate state of a run from a well-formed file system stays
well formed. -/
theorem FSWF_midFS (fs : FS) (pub : PublicDesc) (dir : Path) (sip : String)
    (h : FSWF fs) (hdir : plainPath dir) : FSWF (midFS fs pub dir sip) :=
  FSWF_applyOps _ fs h (opsPlain_w1ops pub dir sip hdir)

/-- The function-hooks phase never writes the functions index when the
listed children are plain names. -/
theorem hookOpsOf_none_at_index (mid : FS) (fdir : Path) (sip : String)
    (hplainchild : ∀ n ∈ mid.childNames fdir, plainSeg n) :
    lastWriteOf (hookOpsOf mid fdir sip) (fdir ++ ["index.ts"]) = none := by
  refine lastWriteOf_eq_none _ _ ?_
  intro q c hq hqp
  obtain ⟨n, hn, _, hsh⟩ := hookOps_mem_write mid fdir sip q c hq
  have hpn := hplainchild n hn
  rw [plainSeg] at hpn
  rcases hsh with ⟨he, _⟩ | ⟨he, _⟩ <;>
  · rw [hpn] at he
    rw [he] at hqp
    simp only [List.append_assoc] at hqp
    have h2 := List.append_cancel_left hqp
    have h3 := congrArg List.length h2
    simp at h3

/-- The last function-extraction write to a function module's types file
is its generated content. -/
theorem lastWriteOf_functionsOps_types (fns : List FunctionDesc) (dir : Path)
    (f : FunctionDesc) (hf : f ∈ fns) (hu : ¬jsStartsWith f.name "_")
    (hplainF : ∀ g ∈ fns, plainSeg g.name)
    (hndF : (fns.map FunctionDesc.name).Nodup) :
    lastWriteOf (functionsOps fns dir) (dir ++ ["functions", f.name, "types.ts"]) =
      some (functionTypesContent f) := by
  obtain ⟨l1, l2, heq, h1, h2⟩ := nodup_decomp_names FunctionDesc.name fns f hf hndF
  have hnone : ∀ g : FunctionDesc, g ∈ l1 ∨ g ∈ l2 →
      lastWriteOf (fnModuleOps g (pathJoin dir "functions"))
        (dir ++ ["functions", f.name, "types.ts"]) = none := by
    intro g hg
    have hgf : g ∈ fns := by
      rw [heq]
      rcases hg with h3 | h3
      · exact List.mem_append.mpr (Or.inl h3)
      · exact List.mem_append.mpr (Or.inr (List.mem_cons_of_mem _ h3))
    have hgp := hplainF g hgf
    have hgne : g.name ≠ f.name := by
      rcases hg with h3 | h3
      · exact h1 g h3
      · exact h2 g h3
    rw [fnModuleOps]
    by_cases hgu : jsStartsWith g.name "_"
    · rw [if_pos hgu]; rfl
    · rw [if_neg hgu]
      refine lastWriteOf_eq_none _ _ ?_
      intro q c hq hqp
      rcases List.mem_cons.mp hq with h4 | h4
      · cases h4
      · rcases List.mem_singleton.mp h4 with h5
        injection h5 with e1 _
        rw [e1, pathJoin_plain _ _ plain_typests, pathJoin_plain _ _ hgp,
          pathJoin_functions] at hqp
        simp only [List.append_assoc] at hqp
        have h6 := List.append_cancel_left hqp
        injection h6 with _ h7
        injection h7 with h8 _
        exact hgne h8
  have hflat : lastWriteOf (fns.flatMap (fun g => fnModuleOps g (pathJoin dir "functions")))
      (dir ++ ["functions", f.name, "types.ts"]) =
      lastWriteOf (fnModuleOps f (pathJoin dir "functions"))
        (dir ++ ["functions", f.name, "types.ts"]) :=
    lastWriteOf_flatMap_isolate _ fns l1 l2 f heq _
      (fun u hu2 => hnone u (Or.inl hu2)) (fun u hu2 => hnone u (Or.inr hu2))
  have hself : lastWriteOf (fnModuleOps f (pathJoin dir "functions"))
      (dir ++ ["functions", f.name, "types.ts"]) = some (functionTypesContent f) := by
    simp only [fnModuleOps]
    rw [if_neg hu, pathJoin_plain _ _ plain_typests,
      pathJoin_plain _ _ (hplainF f hf), pathJoin_functions]
    simp [lastWriteOf, lwStep, List.append_assoc]
  have hidx : lastWriteOf
      [WriteOp.write (pathJoin (pathJoin dir "functions") "index.ts")
        (functionsIndexContent ((fns.filter (fun g => !jsStartsWith g.name "_")).map
          (fun g => g.name)))]
      (dir ++ ["functions", f.name, "types.ts"]) = none := by
    refine lastWriteOf_eq_none _ _ ?_
    intro q c hq hqp
    rcases List.mem_singleton.mp hq with h5
    injection h5 with e1 _
    rw [e1, pathJoin_plain _ _ plain_indexts, pathJoin_functions] at hqp
    simp only [List.append_assoc] at hqp
    have h6 := List.append_cancel_left hqp
    have h7 := congrArg List.length h6
    simp at h7
  rw [functionsOps, lastWriteOf_cons, lastWriteOf_append, hidx, hflat, hself]

/-- The last function-extraction write to the functions index is the
re-export list over the kept names. -/
theorem lastWriteOf_functionsOps_index (fns : List FunctionDesc) (dir : Path) :
    lastWriteOf (functionsOps fns dir) (dir ++ ["functions", "index.ts"]) =
      some (functionsIndexContent ((fns.filter (fun g => !jsStartsWith g.name "_")).map
        (fun g => g.name))) := by
  rw [functionsOps, lastWriteOf_cons, lastWriteOf_append]
  have hidx : lastWriteOf
      [WriteOp.write (pathJoin (pathJoin dir "functions") "index.ts")
        (functionsIndexContent ((fns.filter (fun g => !jsStartsWith g.name "_")).map
          (fun g => g.name)))]
      (dir ++ ["functions", "index.ts"]) =
      some (functionsIndexContent ((fns.filter (fun g => !jsStartsWith g.name "_")).map
        (fun g => g.name))) := by
    rw [pathJoin_plain _ _ plain_indexts, pathJoin_functions]
    simp [lastWriteOf, lwStep, List.append_assoc]
  rw [hidx]

/-- Reading a function module's types file out of the final state of a
successful run. -/
theorem runResult_read_fn_types (fs : FS) (pub : PublicDesc) (dir : Path) (sip : String)
    (fns : List FunctionDesc) (f : FunctionDesc)
    (hF : pub.Functions = some fns) (hf : f ∈ fns) (hu : ¬jsStartsWith f.name "_")
    (hplainF : ∀ g ∈ fns, plainSeg g.name)
    (hndF : (fns.map FunctionDesc.name).Nodup) :
    (runResult fs pub dir sip).read (dir ++ ["functions", f.name, "types.ts"]) =
      some (functionTypesContent f) := by
  have hw2 : lastWriteOf (w2ops (midFS fs pub dir sip) pub dir sip)
      (dir ++ ["functions", f.name, "types.ts"]) = none := by
    rw [w2ops, lastWriteOf_append, lastWriteOf_append]
    rw [mainIndexOps_none_at pub dir _ (ne_of_len (by simp))]
    have hst : lastWriteOf (storageOps dir sip)
        (dir ++ ["functions", f.name, "types.ts"]) = none := by
      refine lastWriteOf_eq_none _ _ ?_
      intro q c hq hqp
      rcases storageOps_mem_write dir sip q c hq with ⟨he, _⟩ | ⟨he, _⟩ | ⟨he, _⟩ <;>
        exact ne_of_len (by simp) (he ▸ hqp)
    rw [hst]
    have hhk : lastWriteOf (hookPartOps (midFS fs pub dir sip) pub dir sip)
        (dir ++ ["functions", f.name, "types.ts"]) = none := by
      rw [hookPartOps]
      cases pub.Functions with
      | none => rfl
      | some fns2 =>
        refine lastWriteOf_eq_none _ _ ?_
        intro q c hq hqp
        obtain ⟨n, _, _, hsh⟩ := hookOps_mem_write _ _ sip q c hq
        rw [pathJoin_functions] at hsh
        rcases hsh with ⟨he, _⟩ | ⟨he, _⟩ <;>
        · rw [he] at hqp
          simp only [List.append_assoc] at hqp
          have h2 := List.append_cancel_left hqp
          injection h2 with _ h3
          exact absurd (append_singleton_inj_right _ [f.name] _ _ h3) (by decide)
    rw [hhk]
  have hfp : fnPartOps pub dir = functionsOps fns dir := by rw [fnPartOps, hF]
  rw [runResult, read_applyOps, hw2, midFS, read_applyOps, w1ops, lastWriteOf_cons,
    lastWriteOf_append, hfp, lastWriteOf_functionsOps_types fns dir f hf hu hplainF hndF]

/-- Reading the functions index out of the final state of a successful
run started on a well-formed file system. -/
theorem runResult_read_fn_index (fs : FS) (pub : PublicDesc) (dir : Path) (sip : String)
    (fns : List FunctionDesc) (hF : pub.Functions = some fns)
    (hwf : FSWF fs) (hdir : plainPath dir) :
    (runResult fs pub dir sip).read (dir ++ ["functions", "index.ts"]) =
      some (functionsIndexContent ((fns.filter (fun g => !jsStartsWith g.name "_")).map
        (fun g => g.name))) := by
  have hpf : (pathJoin dir "functions") ++ ["index.ts"] = dir ++ ["functions", "index.ts"] := by
    rw [pathJoin_functions, List.append_assoc]
    rfl
  have hw2 : lastWriteOf (w2ops (midFS fs pub dir sip) pub dir sip)
      (dir ++ ["functions", "index.ts"]) = none := by
    rw [w2ops, lastWriteOf_append, lastWriteOf_append]
    rw [mainIndexOps_none_at pub dir _ (ne_of_len (by simp))]
    rw [storageOps_none_at_pair dir sip "functions" "index.ts" (by decide)]
    have hhk : lastWriteOf (hookPartOps (midFS fs pub dir sip) pub dir sip)
        (dir ++ ["functions", "index.ts"]) = none := by
      rw [hookPartOps]
      cases pub.Functions with
      | none => rfl
      | some fns2 =>
        rw [← hpf]
        exact hookOpsOf_none_at_index (midFS fs pub dir sip) (pathJoin dir "functions") sip
          (childNames_plain _ _ (FSWF_midFS fs pub dir sip hwf hdir))
    rw [hhk]
  have hfp : fnPartOps pub dir = functionsOps fns dir := by rw [fnPartOps, hF]
  rw [runResult, read_applyOps, hw2, midFS, read_applyOps, w1ops, lastWriteOf_cons,
    lastWriteOf_append, hfp, lastWriteOf_functionsOps_index fns dir]

/-- Any line of a function module's types file occurs verbatim in it. -/
theorem fnTypes_mem_decomp (f : FunctionDesc) (elem : String)
    (h : elem ∈
      ["/** Auto-generated type definitions for RPC function: " ++ f.name ++ " */\n",
       baseTypeImports (setAddAll (setAddAll []
         (findBaseTypes (jsOrDefault (typeToString f.Args) "{}")))
         (findBaseTypes (jsOrDefault (typeToString f.Returns) "void"))),
       "export type " ++ pascalCase f.name ++ "Args = " ++
         cleanDbImports (formatTypeDefinition (jsOrDefault (typeToString f.Args) "{}")) ++
         ";\n",
       "export type " ++ pascalCase f.name ++ "Returns = " ++
         cleanDbImports (formatTypeDefinition (jsOrDefault (typeToString f.Returns) "void")) ++
         ";\n"]) :
    ∃ pre post, functionTypesContent f = pre ++ elem ++ post :=
  intercalate_mem_decomp "\n" _ elem h

/-- Every listed function name yields a verbatim re-export line in the
functions index. -/
theorem fnIndex_mem_decomp (names : List String) (n : String) (h : n ∈ names) :
    ∃ pre post, functionsIndexContent names =
      pre ++ ("export * from \x27./" ++ n ++ "\x27;") ++ post :=
  intercalate_mem_decomp "\n" _ _
    (List.mem_append.mpr (Or.inr (List.mem_map.mpr ⟨n, h, rfl⟩)))

/-- C2, counterexample: a function whose name starts with an underscore
is listed under public.Functions, but run writes no types.ts for it and
the functions index omits its re-export, contradicting the claim for
every listed function. -/
theorem C2_counterexample :
    ∃ fs1, run emptyFS declPriv opts0 = Except.ok fs1 ∧
      fs1.read ["out", "functions", "_private", "types.ts"] = none ∧
      fs1.read ["out", "functions", "index.ts"] = some (functionsIndexContent []) := by
  refine ⟨_, rfl, ?_, ?_⟩ <;> rfl

/-- C2, amended: for every function of an accepted run whose name does
not start with an underscore, the per-function module holds a types.ts
with the pascalCase Args and Returns aliases, and the functions index
holds the re-export line of that module; underscore-named functions are
skipped. -/
theorem C2_function_modules
    (fs : FS) (d : InputDecl) (o : ExtractorOptions) (db : DatabaseDesc) (pub : PublicDesc)
    (fns : List FunctionDesc) (f : FunctionDesc)
    (hdb : d.Database = some db) (hpub : db.publicProp = some pub)
    (hF : pub.Functions = some fns) (hf : f ∈ fns)
    (hu : ¬jsStartsWith f.name "_")
    (hplainF : ∀ g ∈ fns, plainSeg g.name)
    (hndF : (fns.map FunctionDesc.name).Nodup)
    (hwf : FSWF fs) (hdir : plainPath o.outputDir)
    (hok : ∀ tbls, pub.Tables = some tbls → ∀ t ∈ tbls,
      (tableRelOps t o.outputDir (o.supabaseImportPath.getD "@/lib/supabase")).isSome) :
    ∃ fs1, run fs d o = Except.ok fs1 ∧
      fs1.read (o.outputDir ++ ["functions", f.name, "types.ts"]) =
        some (functionTypesContent f) ∧
      (∃ pre post, functionTypesContent f =
        pre ++ ("export type " ++ pascalCase f.name ++ "Args = " ++
          cleanDbImports (formatTypeDefinition (jsOrDefault (typeToString f.Args) "{}")) ++
          ";\n") ++ post) ∧
      (∃ pre post, functionTypesContent f =
        pre ++ ("export type " ++ pascalCase f.name ++ "Returns = " ++
          cleanDbImports (formatTypeDefinition (jsOrDefault (typeToString f.Returns) "void")) ++
          ";\n") ++ post) ∧
      fs1.read (o.outputDir ++ ["functions", "index.ts"]) =
        some (functionsIndexContent ((fns.filter (fun g => !jsStartsWith g.name "_")).map
          (fun g => g.name))) ∧
      (∃ pre post,
        functionsIndexContent ((fns.filter (fun g => !jsStartsWith g.name "_")).map
          (fun g => g.name)) =
          pre ++ ("export * from \x27./" ++ f.name ++ "\x27;") ++ post) := by
  refine ⟨_, run_eq fs d o db pub hdb hpub hok, ?_, ?_, ?_, ?_, ?_⟩
  · exact runResult_read_fn_types fs pub o.outputDir _ fns f hF hf hu hplainF hndF
  · exact fnTypes_mem_decomp f _
      (List.mem_cons_of_mem _ (List.mem_cons_of_mem _ (List.mem_cons_self _ _)))
  · exact fnTypes_mem_decomp f _
      (List.mem_cons_of_mem _ (List.mem_cons_of_mem _ (List.mem_cons_of_mem _
        (List.mem_cons_self _ _))))
  · exact runResult_read_fn_index fs pub o.outputDir _ fns hF hwf hdir
  · refine fnIndex_mem_decomp _ f.name (List.mem_map.mpr ⟨f, ?_, rfl⟩)
    refine List.mem_filter.mpr ⟨hf, ?_⟩
    cases hx : jsStartsWith f.name "_"
    · rfl
    · exact absurd hx hu

/-- C2, witness: the function-module statement applied to the one-function
schema. -/
theorem C2_witness :
    ∃ fs1, run emptyFS declFns opts0 = Except.ok fs1 ∧
      fs1.read (opts0.outputDir ++ ["functions", fAdd.name, "types.ts"]) =
        some (functionTypesContent fAdd) ∧
      (∃ pre post, functionTypesContent fAdd =
        pre ++ ("export type " ++ pascalCase fAdd.name ++ "Args = " ++
          cleanDbImports (formatTypeDefinition (jsOrDefault (typeToString fAdd.Args) "{}")) ++
          ";\n") ++ post) ∧
      (∃ pre post, functionTypesContent fAdd =
        pre ++ ("export type " ++ pascalCase fAdd.name ++ "Returns = " ++
          cleanDbImports (formatTypeDefinition (jsOrDefault (typeToString fAdd.Returns) "void")) ++
          ";\n") ++ post) ∧
      fs1.read (opts0.outputDir ++ ["functions", "index.ts"]) =
        some (functionsIndexContent (([fAdd].filter (fun g => !jsStartsWith g.name "_")).map
          (fun g => g.name))) ∧
      (∃ pre post,
        functionsIndexContent (([fAdd].filter (fun g => !jsStartsWith g.name "_")).map
          (fun g => g.name)) =
          pre ++ ("export * from \x27./" ++ fAdd.name ++ "\x27;") ++ post) :=
  C2_function_modules emptyFS declFns opts0 _ _ [fAdd] fAdd rfl rfl rfl
    (List.mem_singleton.mpr rfl) (by decide) (by decide) (by simp)
    ⟨fun p hp => absurd hp (List.not_mem_nil _), fun e he => absurd he (List.not_mem_nil _)⟩
    (by intro seg hseg; rcases List.mem_singleton.mp hseg with rfl; decide)
    (fun tbls h => by cases h)

/-- Occurrences survive prepending text. -/
theorem occursRefIn_append_left (pre l : List Char) (n : String) (h : occursRefIn l n) :
    occursRefIn (pre ++ l) n := by
  obtain ⟨h1, h2, a, mid, b, h3⟩ := h
  exact ⟨h1, h2, pre ++ a, mid, b, by rw [h3]; simp [List.append_assoc]⟩

/-- The first-split function decomposes its input. -/
theorem splitFirst?_eq (pat l a b : List Char) (h : splitFirst? pat l = some (a, b)) :
    l = a ++ pat ++ b := by
  induction l generalizing a b with
  | nil =>
    rw [splitFirst?] at h
    by_cases hp : pat.isEmpty = true
    · rw [if_pos hp] at h
      injection h with h1
      injection h1 with h2 h3
      subst h2; subst h3
      rw [List.isEmpty_iff.mp hp]
      rfl
    · rw [if_neg hp] at h
      cases h
  | cons c rest ih =>
    rw [splitFirst?] at h
    by_cases hp : pat.isPrefixOf (c :: rest) = true
    · rw [if_pos hp] at h
      injection h with h1
      injection h1 with h2 h3
      subst h2; subst h3
      obtain ⟨t, ht⟩ := List.isPrefixOf_iff_prefix.mp hp
      have hdt : (c :: rest).drop pat.length = t := by rw [← ht, List.drop_left]
      rw [hdt, ← ht]
      rfl
    · rw [if_neg hp] at h
      cases hs : splitFirst? pat rest with
      | none => rw [hs] at h; cases h
      | some ab =>
        obtain ⟨a1, b1⟩ := ab
        rw [hs] at h
        have h1 : some (c :: a1, b1) = some (a, b) := h
        injection h1 with h2
        injection h2 with h3 h4
        subst h3; subst h4
        rw [show rest = a1 ++ pat ++ b1 from ih a1 b1 hs]
        rfl

/-- The rightmost-split function decomposes its input at an accepted
suffix. -/
theorem lastMatchSplit?_eq (matchAt : List Char → Option (List Char)) (l a b : List Char)
    (h : lastMatchSplit? matchAt l = some (a, b)) :
    ∃ suffix, l = a ++ suffix ∧ matchAt suffix = some b := by
  induction l generalizing a b with
  | nil =>
    rw [lastMatchSplit?] at h
    cases hm : matchAt [] with
    | none => rw [hm] at h; cases h
    | some b0 =>
      rw [hm] at h
      injection h with h1
      injection h1 with h2 h3
      subst h2; subst h3
      exact ⟨[], rfl, hm⟩
  | cons c rest ih =>
    rw [lastMatchSplit?] at h
    cases hl : lastMatchSplit? matchAt rest with
    | some ab =>
      obtain ⟨a1, b1⟩ := ab
      rw [hl] at h
      have h1 : some (c :: a1, b1) = some (a, b) := h
      injection h1 with h2
      injection h2 with h3 h4
      subst h3; subst h4
      obtain ⟨suffix, hs1, hs2⟩ := ih a1 b1 hl
      exact ⟨suffix, by rw [hs1]; rfl, hs2⟩
    | none =>
      rw [hl] at h
      cases hm : matchAt (c :: rest) with
      | none => rw [hm] at h; cases h
      | some b0 =>
        rw [hm] at h
        injection h with h1
        injection h1 with h2 h3
        subst h2; subst h3
        exact ⟨c :: rest, rfl, hm⟩

/-- An accepted capture position starts with the moku literal and a word
character. -/
theorem mokuCaptureAt_eq (l b : List Char) (h : mokuCaptureAt l = some b) :
    l = mokuLit ++ b ∧ ∃ r rest, b = r :: rest ∧ isWordChar r = true := by
  rw [mokuCaptureAt] at h
  by_cases hp : mokuLit.isPrefixOf l = true
  · rw [if_pos hp] at h
    obtain ⟨t, ht⟩ := List.isPrefixOf_iff_prefix.mp hp
    cases hd : l.drop mokuLit.length with
    | nil =>
      rw [hd] at h
      exact Option.noConfusion h
    | cons r rest =>
      rw [hd] at h
      have h2 : (if isWordChar r = true then some (r :: rest) else none) = some b := h
      by_cases hw : isWordChar r = true
      · rw [if_pos hw] at h2
        injection h2 with h1
        subst h1
        have hdt : l.drop mokuLit.length = t := by rw [← ht, List.drop_left]
        have htr : t = r :: rest := hdt.symm.trans hd
        exact ⟨by rw [← ht, htr], r, rest, rfl, hw⟩
      · rw [if_neg hw] at h2
        cases h2
  · rw [if_neg hp] at h
    cases h

/-- Every capture of a search step occurs inside a reference, and the
remainder is a suffix of the input. -/
theorem findBaseTypesStep_sound (fuel : Nat) (l : List Char) (cap : String) (rest : List Char)
    (h : findBaseTypesStep fuel l = some (cap, rest)) :
    occursRefIn l cap ∧ ∃ a, l = a ++ rest := by
  induction fuel generalizing l with
  | zero => rw [findBaseTypesStep] at h; cases h
  | succ fuel ih =>
    rw [findBaseTypesStep] at h
    cases hsp : splitFirst? impOpen l with
    | none => rw [hsp] at h; cases h
    | some pq =>
      obtain ⟨pre, afterImp⟩ := pq
      rw [hsp] at h
      have hl : l = pre ++ impOpen ++ afterImp := splitFirst?_eq impOpen l pre afterImp hsp
      have h0 : (match lastMatchSplit? mokuCaptureAt
          (afterImp.takeWhile (fun c => !isLineBreak c)) with
        | some ab => some (String.mk (ab.2.takeWhile isWordChar),
            ab.2.dropWhile isWordChar ++ afterImp.dropWhile (fun c => !isLineBreak c))
        | none => findBaseTypesStep fuel afterImp) = some (cap, rest) := h
      cases hlm : lastMatchSplit? mokuCaptureAt
          (afterImp.takeWhile (fun c => !isLineBreak c)) with
      | none =>
        rw [hlm] at h0
        have h2 : findBaseTypesStep fuel afterImp = some (cap, rest) := h0
        obtain ⟨hocc, a, ha⟩ := ih afterImp h2
        refine ⟨?_, ⟨(pre ++ impOpen) ++ a, ?_⟩⟩
        · rw [hl]
          exact occursRefIn_append_left (pre ++ impOpen) afterImp cap
            (by rw [show pre ++ impOpen ++ afterImp = (pre ++ impOpen) ++ afterImp from rfl] at hl
                exact hocc)
        · rw [hl, ha]
          simp [List.append_assoc]
      | some ab =>
        obtain ⟨a2, b2⟩ := ab
        rw [hlm] at h0
        have h2 : some (String.mk (b2.takeWhile isWordChar),
            b2.dropWhile isWordChar ++ afterImp.dropWhile (fun c => !isLineBreak c)) =
            some (cap, rest) := h0
        injection h2 with h3
        injection h3 with hc hr
        obtain ⟨suffix, hs1, hs2⟩ := lastMatchSplit?_eq mokuCaptureAt _ a2 b2 hlm
        obtain ⟨hsfx, r, rest2, hb2, hw⟩ := mokuCaptureAt_eq suffix b2 hs2
        have hcd : cap.data = b2.takeWhile isWordChar := by rw [← hc]
        have hWAW : afterImp.takeWhile (fun c => !isLineBreak c) ++
            afterImp.dropWhile (fun c => !isLineBreak c) = afterImp :=
          List.takeWhile_append_dropWhile _ _
        have hb2split : b2.takeWhile isWordChar ++ b2.dropWhile isWordChar = b2 :=
          List.takeWhile_append_dropWhile _ _
        have e1 : l = pre ++ impOpen ++
            (afterImp.takeWhile (fun c => !isLineBreak c) ++
             afterImp.dropWhile (fun c => !isLineBreak c)) := by
          rw [hWAW]; exact hl
        rw [hs1] at e1
        rw [hsfx] at e1
        rw [← hb2split] at e1
        refine ⟨⟨?_, ?_, pre, a2,
          b2.dropWhile isWordChar ++ afterImp.dropWhile (fun c => !isLineBreak c), ?_⟩,
          ⟨pre ++ impOpen ++ a2 ++ mokuLit ++ b2.takeWhile isWordChar, ?_⟩⟩
        · rw [hcd, hb2, List.takeWhile_cons_of_pos hw]
          simp
        · intro c hc2
          rw [hcd] at hc2
          exact List.mem_takeWhile_imp hc2
        · rw [hcd, e1]
          simp only [List.append_assoc]
        · rw [← hr, e1]
          simp only [List.append_assoc]

/-- Every name collected by the search loop was in the accumulator or
occurs inside a reference. -/
theorem findBaseTypesLoop_sound (fuel : Nat) (l : List Char) (acc : List String) :
    ∀ n ∈ findBaseTypesLoop fuel l acc, n ∈ acc ∨ occursRefIn l n := by
  induction fuel generalizing l acc with
  | zero =>
    intro n hn
    rw [findBaseTypesLoop] at hn
    exact Or.inl hn
  | succ fuel ih =>
    intro n hn
    rw [findBaseTypesLoop] at hn
    cases hst : findBaseTypesStep fuel l with
    | none =>
      rw [hst] at hn
      exact Or.inl hn
    | some cr =>
      obtain ⟨cap, rest⟩ := cr
      rw [hst] at hn
      have hn2 : n ∈ findBaseTypesLoop fuel rest (if cap ∈ acc then acc else acc ++ [cap]) := hn
      obtain ⟨hocc, a, hsub⟩ := findBaseTypesStep_sound fuel l cap rest hst
      rcases ih rest _ n hn2 with h1 | h1
      · by_cases hc : cap ∈ acc
        · rw [if_pos hc] at h1
          exact Or.inl h1
        · rw [if_neg hc] at h1
          rcases List.mem_append.mp h1 with h2 | h2
          · exact Or.inl h2
          · rcases List.mem_singleton.mp h2 with rfl
            exact Or.inr hocc
      · refine Or.inr ?_
        rw [hsub]
        exact occursRefIn_append_left a rest n h1

/-- Every name findBaseTypes extracts occurs inside a moku import
reference of the input string. -/
theorem findBaseTypes_sound (s : String) : ∀ n ∈ findBaseTypes s, occursRef s n := by
  intro n hn
  rcases findBaseTypesLoop_sound (s.length + 1) s.data [] n hn with h | h
  · cases h
  · exact h

/-- Membership in a set-insertion batch comes from the accumulator or the
batch. -/
theorem setAddAll_mem (acc xs : List String) (n : String) (h : n ∈ setAddAll acc xs) :
    n ∈ acc ∨ n ∈ xs := by
  induction xs generalizing acc with
  | nil => exact Or.inl h
  | cons x rest ih =>
    have h2 : n ∈ setAddAll (if x ∈ acc then acc else acc ++ [x]) rest := h
    rcases ih _ h2 with h3 | h3
    · by_cases hc : x ∈ acc
      · rw [if_pos hc] at h3
        exact Or.inl h3
      · rw [if_neg hc] at h3
        rcases List.mem_append.mp h3 with h4 | h4
        · exact Or.inl h4
        · rcases List.mem_singleton.mp h4 with rfl
          exact Or.inr (List.mem_cons_self _ _)
    · exact Or.inr (List.mem_cons_of_mem _ h3)

/-- Every name collected over the tables occurs in some table's Row,
Insert or Update type string. -/
theorem extractAllBaseTypes_sound (tables : List TableDesc) (acc : List String) :
    ∀ n ∈ extractAllBaseTypes tables acc, n ∈ acc ∨ ∃ t ∈ tables,
      occursRef (jsOrDefault (typeToString t.Row) "{}") n ∨
      occursRef (jsOrDefault (typeToString t.Insert) "{}") n ∨
      occursRef (jsOrDefault (typeToString t.Update) "{}") n := by
  induction tables generalizing acc with
  | nil =>
    intro n hn
    exact Or.inl hn
  | cons t ts ih =>
    intro n hn
    have hn2 : n ∈ extractAllBaseTypes ts
        (setAddAll (setAddAll (setAddAll acc
          (findBaseTypes (jsOrDefault (typeToString t.Row) "{}")))
          (findBaseTypes (jsOrDefault (typeToString t.Insert) "{}")))
          (findBaseTypes (jsOrDefault (typeToString t.Update) "{}"))) := hn
    rcases ih _ n hn2 with h1 | ⟨u, hu, h2⟩
    · rcases setAddAll_mem _ _ n h1 with h2 | h2
      · rcases setAddAll_mem _ _ n h2 with h3 | h3
        · rcases setAddAll_mem _ _ n h3 with h4 | h4
          · exact Or.inl h4
          · exact Or.inr ⟨t, List.mem_cons_self _ _,
              Or.inl (findBaseTypes_sound _ n h4)⟩
        · exact Or.inr ⟨t, List.mem_cons_self _ _,
            Or.inr (Or.inl (findBaseTypes_sound _ n h3))⟩
      · exact Or.inr ⟨t, List.mem_cons_self _ _,
          Or.inr (Or.inr (findBaseTypes_sound _ n h2))⟩
    · exact Or.inr ⟨u, List.mem_cons_of_mem _ hu, h2⟩

/-- Reading the base-types file out of the final state of a successful
run: written with the collected names exactly when some were found. -/
theorem runResult_read_basetypes (fs : FS) (pub : PublicDesc) (dir : Path) (sip : String) :
    (runResult fs pub dir sip).read (dir ++ ["base-types.ts"]) =
      (if (btNames pub).length = 0 then fs.read (dir ++ ["base-types.ts"])
       else some (baseTypesContent (btNames pub))) := by
  have hw2 : lastWriteOf (w2ops (midFS fs pub dir sip) pub dir sip)
      (dir ++ ["base-types.ts"]) = none := by
    rw [w2ops, lastWriteOf_append, lastWriteOf_append]
    rw [mainIndexOps_none_at pub dir _ (append_single_ne dir _ _ (by decide))]
    rw [storageOps_none_at_single dir sip "base-types.ts"]
    rw [hookPartOps_none_at _ pub dir sip _ (by
      intro x lit he
      have h3 := congrArg List.length he
      simp only [List.length_append, List.length_cons, List.length_singleton] at h3
      omega)]
  have hfn : lastWriteOf (fnPartOps pub dir) (dir ++ ["base-types.ts"]) = none :=
    fnPartOps_none_at_single pub dir "base-types.ts" (by decide)
  have hen : lastWriteOf (enumsOps pub dir) (dir ++ ["base-types.ts"]) = none :=
    enumsOps_none_at pub dir _ (append_single_ne dir _ _ (by decide))
  have htp : lastWriteOf (tablesPartOps pub dir sip) (dir ++ ["base-types.ts"]) = none := by
    rw [tablesPartOps]
    cases pub.Tables with
    | none => rfl
    | some tbls =>
      rw [lastWriteOf_append]
      have h2 : lastWriteOf (relTablesOps tbls dir sip) (dir ++ ["base-types.ts"]) = none := by
        refine lastWriteOf_eq_none _ _ ?_
        intro q c hq hqp
        obtain ⟨t, _, hsh⟩ := relTablesOps_mem_write tbls dir sip q c hq
        rcases hsh with he | he | ⟨he, _⟩ <;>
          exact absurd (append_singleton_inj_right _ _ _ _ ((he ▸ hqp) :
            pathJoin dir t.name ++ _ = dir ++ ["base-types.ts"])) (by decide)
      have h1 : lastWriteOf (tablesOps tbls dir) (dir ++ ["base-types.ts"]) = none := by
        refine lastWriteOf_eq_none _ _ ?_
        intro q c hq hqp
        obtain ⟨t, _, hsh⟩ := tablesOps_mem_write tbls dir q c hq
        rcases hsh with ⟨he, _⟩ | ⟨he, _⟩ <;>
          exact absurd (append_singleton_inj_right _ _ _ _ ((he ▸ hqp) :
            pathJoin dir t.name ++ _ = dir ++ ["base-types.ts"])) (by decide)
      rw [h2, h1]
  have hbt : lastWriteOf (btOps pub dir) (dir ++ ["base-types.ts"]) =
      (if (btNames pub).length = 0 then none
       else some (baseTypesContent (btNames pub))) := by
    rw [btOps]
    by_cases h0 : (btNames pub).length = 0
    · rw [if_pos h0, if_pos h0]
      rfl
    · rw [if_neg h0, if_neg h0, pathJoin_plain _ _ plain_basetypests, lastWriteOf]
      simp [lwStep]
  rw [runResult, read_applyOps, hw2, midFS, read_applyOps, w1ops, lastWriteOf_cons,
    lastWriteOf_append, lastWriteOf_append, lastWriteOf_append, hfn, hen, htp, hbt]
  by_cases h0 : (btNames pub).length = 0
  · rw [if_pos h0, if_pos h0]
    rfl
  · rw [if_neg h0, if_neg h0]

/-- C6, counterexample: with two references on one line the greedy
dot-star commits to the last literal occurrence, so only the final
identifier is extracted although an earlier identifier also occurs in a
reference, contradicting the exactness claim. -/
theorem C6_counterexample :
    findBaseTypes
      "import(\"a/moku/lib/database.types\").Foo import(\"b/moku/lib/database.types\").Bar" =
      ["Bar"] ∧
    occursRef
      "import(\"a/moku/lib/database.types\").Foo import(\"b/moku/lib/database.types\").Bar"
      "Foo" ∧
    "Foo" ∉ findBaseTypes
      "import(\"a/moku/lib/database.types\").Foo import(\"b/moku/lib/database.types\").Bar" := by
  refine ⟨rfl, ⟨by decide, by decide, [], ['a'],
    (" import(\"b/moku/lib/database.types\").Bar").data, by decide⟩, by decide⟩

/-- C6, amended: every extracted shared type name occurs in some table's
stringified Row, Insert or Update type inside a moku import reference
(but not conversely: the greedy regex can drop earlier references on a
line); run writes base-types.ts with one export line per collected name
exactly when the collection is nonempty, and leaves the path untouched
otherwise. -/
theorem C6_base_types_extraction
    (fs : FS) (d : InputDecl) (o : ExtractorOptions) (db : DatabaseDesc) (pub : PublicDesc)
    (hdb : d.Database = some db) (hpub : db.publicProp = some pub)
    (hok : ∀ tbls, pub.Tables = some tbls → ∀ t ∈ tbls,
      (tableRelOps t o.outputDir (o.supabaseImportPath.getD "@/lib/supabase")).isSome) :
    ∃ fs1, run fs d o = Except.ok fs1 ∧
      (∀ n ∈ btNames pub, ∃ tbls, pub.Tables = some tbls ∧ ∃ t ∈ tbls,
        occursRef (jsOrDefault (typeToString t.Row) "{}") n ∨
        occursRef (jsOrDefault (typeToString t.Insert) "{}") n ∨
        occursRef (jsOrDefault (typeToString t.Update) "{}") n) ∧
      (btNames pub ≠ [] →
        fs1.read (o.outputDir ++ ["base-types.ts"]) =
          some (baseTypesContent (btNames pub)) ∧
        ∀ n ∈ btNames pub, ∃ pre post, baseTypesContent (btNames pub) =
          pre ++ ("export type " ++ n ++ " = any;") ++ post) ∧
      (btNames pub = [] →
        fs1.read (o.outputDir ++ ["base-types.ts"]) =
          fs.read (o.outputDir ++ ["base-types.ts"])) := by
  refine ⟨_, run_eq fs d o db pub hdb hpub hok, ?_, ?_, ?_⟩
  · intro n hn
    cases hT : pub.Tables with
    | none =>
      simp only [btNames, hT] at hn
      cases hn
    | some tbls =>
      simp only [btNames, hT] at hn
      rcases extractAllBaseTypes_sound tbls [] n hn with h | ⟨t, ht2, h⟩
      · cases h
      · exact ⟨tbls, rfl, t, ht2, h⟩
  · intro hne
    constructor
    · rw [runResult_read_basetypes,
        if_neg (fun h0 => hne (List.length_eq_zero.mp h0))]
    · intro n hn
      obtain ⟨pre, post, hp⟩ := intercalate_mem_decomp "\n"
        (["/** Auto-generated base types extracted from database schema */", ""] ++
          (btNames pub).map (fun typeName =>
            "export type " ++ typeName ++
              " = any; // Replace with actual type definition if needed"))
        ("export type " ++ n ++ " = any; // Replace with actual type definition if needed")
        (List.mem_append.mpr (Or.inr (List.mem_map.mpr ⟨n, hn, rfl⟩)))
      refine ⟨pre, " // Replace with actual type definition if needed" ++ post, ?_⟩
      have e1 : (" = any; // Replace with actual type definition if needed" : String) =
          " = any;" ++ " // Replace with actual type definition if needed" := rfl
      calc baseTypesContent (btNames pub)
          = pre ++ ("export type " ++ n ++
              " = any; // Replace with actual type definition if needed") ++ post := hp
        _ = pre ++ ("export type " ++ n ++ " = any;") ++
              (" // Replace with actual type definition if needed" ++ post) := by
            rw [e1]
            simp only [String.append_assoc]
  · intro hemp
    rw [runResult_read_basetypes, if_pos (by rw [hemp]; rfl)]

/-- C6, witness: the base-types statement applied to the one-table schema
with a referenced base type. -/
theorem C6_witness :
    ∃ fs1, run emptyFS declRef opts0 = Except.ok fs1 ∧
      (∀ n ∈ btNames pubRef, ∃ tbls, pubRef.Tables = some tbls ∧ ∃ t ∈ tbls,
        occursRef (jsOrDefault (typeToString t.Row) "{}") n ∨
        occursRef (jsOrDefault (typeToString t.Insert) "{}") n ∨
        occursRef (jsOrDefault (typeToString t.Update) "{}") n) ∧
      (btNames pubRef ≠ [] →
        fs1.read (opts0.outputDir ++ ["base-types.ts"]) =
          some (baseTypesContent (btNames pubRef)) ∧
        ∀ n ∈ btNames pubRef, ∃ pre post, baseTypesContent (btNames pubRef) =
          pre ++ ("export type " ++ n ++ " = any;") ++ post) ∧
      (btNames pubRef = [] →
        fs1.read (opts0.outputDir ++ ["base-types.ts"]) =
          emptyFS.read (opts0.outputDir ++ ["base-types.ts"])) :=
  C6_base_types_extraction emptyFS declRef opts0 _ _ rfl rfl
    (fun tbls h t ht => by
      injection h with h2
      subst h2
      rcases List.mem_singleton.mp ht with rfl
      rfl)

/-- Lower-casing after upper-casing agrees with plain lower-casing. -/
theorem toLower_toUpper (c : Char) : c.toUpper.toLower = c.toLower := by
  by_cases h : 97 ≤ c.toNat ∧ c.toNat ≤ 122
  · have hc : c = Char.ofNat c.toNat := (Char.ofNat_toNat c).symm
    obtain ⟨h1, h2⟩ := h
    generalize hn : c.toNat = n at h1 h2 hc
    interval_cases n <;> rw [hc] <;> decide
  · have he : c.toUpper = c := by
      rw [Char.toUpper, if_neg h]
    rw [he]

/-- Alphanumeric characters are word characters. -/
theorem alphaNum_isWordChar (c : Char) (h : (c.isAlpha || c.isDigit) = true) :
    isWordChar c = true := by
  simp only [isWordChar, h, Bool.true_or]

/-- Alphanumeric characters are not separators. -/
theorem alphaNum_not_sep (c : Char) (h : (c.isAlpha || c.isDigit) = true) :
    isSep c = false := by
  cases hs : isSep c
  · rfl
  · exfalso
    simp only [isSep, Bool.or_eq_true, beq_iff_eq] at hs
    rcases hs with rfl | rfl <;> exact absurd h (by decide)

/-- The casing scanner passes a separator-free block through unchanged. -/
theorem caseScan_pass (l t : List Char) (hl : ∀ c ∈ l, isSep c = false) :
    caseScan (l ++ t) = l ++ caseScan t := by
  induction l with
  | nil => rfl
  | cons c rest ih =>
    cases hre : rest ++ t with
    | nil =>
      obtain ⟨hrest, ht⟩ := List.append_eq_nil.mp hre
      subst hrest; subst ht
      rfl
    | cons r rr =>
      rw [List.cons_append, hre, caseScan]
      have hc := hl c (List.mem_cons_self _ _)
      simp only [hc, Bool.false_and, Bool.false_eq_true, if_false]
      rw [← hre, ih (fun c2 hc2 => hl c2 (List.mem_cons_of_mem _ hc2))]
      rfl

/-- The casing scanner turns each separator-and-segment block into the
segment with its first character upper-cased. -/
theorem caseScan_render (parts : List (Char × List Char))
    (hp : ∀ p ∈ parts, isSep p.1 = true ∧ p.2 ≠ [] ∧
      ∀ c ∈ p.2, (c.isAlpha || c.isDigit) = true) :
    caseScan (parts.flatMap (fun p => p.1 :: p.2)) =
      parts.flatMap (fun p => upperFirst p.2) := by
  induction parts with
  | nil => rfl
  | cons p ps ih =>
    obtain ⟨hsep, hne, hal⟩ := hp p (List.mem_cons_self _ _)
    obtain ⟨c1, r1, hp2⟩ : ∃ c1 r1, p.2 = c1 :: r1 := by
      cases hq : p.2 with
      | nil => exact absurd hq hne
      | cons a b => exact ⟨a, b, rfl⟩
    have hc1 : (c1.isAlpha || c1.isDigit) = true := hal c1 (by
      rw [hp2]; exact List.mem_cons_self _ _)
    rw [List.flatMap_cons, List.flatMap_cons, hp2]
    rw [show (p.1 :: c1 :: r1) ++ ps.flatMap (fun q => q.1 :: q.2) =
      p.1 :: c1 :: (r1 ++ ps.flatMap (fun q => q.1 :: q.2)) from rfl]
    rw [caseScan, if_pos (by rw [hsep, alphaNum_isWordChar c1 hc1]; rfl)]
    rw [caseScan_pass r1 _ (fun c hc => alphaNum_not_sep c (hal c (by
      rw [hp2]; exact List.mem_cons_of_mem _ hc)))]
    rw [ih (fun q hq => hp q (List.mem_cons_of_mem _ hq))]
    rfl

/-- pascalCase on a string whose first character is a word character. -/
theorem pascalCase_data (s : String) (c : Char) (rest : List Char)
    (hs : s.data = c :: rest) (hw : isWordChar c = true) :
    pascalCase s = String.mk (c.toUpper :: caseScan rest) := by
  cases s with
  | mk d =>
    have hd : d = c :: rest := hs
    subst hd
    show (if isWordChar c = true then String.mk (c.toUpper :: caseScan rest)
      else String.mk (caseScan (c :: rest))) = String.mk (c.toUpper :: caseScan rest)
    rw [if_pos hw]

/-- camelCase lower-cases exactly the first character of the pascalCase
rendering when the name starts with a word character. -/
theorem camelCase_eq_lowerFirst (s : String) (c : Char) (rest : List Char)
    (hs : s.data = c :: rest) (hw : isWordChar c = true) :
    camelCase s = lowerFirst (pascalCase s) := by
  cases s with
  | mk d =>
    have hd : d = c :: rest := hs
    subst hd
    cases rest with
    | nil =>
      rw [pascalCase_data _ c [] rfl hw]
      show (if isWordChar c = true then String.mk [c.toLower] else String.mk [c]) =
        lowerFirst (String.mk (c.toUpper :: caseScan []))
      rw [if_pos hw]
      show String.mk [c.toLower] = String.mk [c.toUpper.toLower]
      rw [toLower_toUpper]
    | cons r rr =>
      rw [pascalCase_data _ c (r :: rr) rfl hw]
      show (if isWordChar c = true then String.mk (c.toLower :: caseScan (r :: rr))
        else if (isSep c && isWordChar r) = true then String.mk (r.toLower :: caseScan rr)
        else String.mk (c :: caseScan (r :: rr))) =
        lowerFirst (String.mk (c.toUpper :: caseScan (r :: rr)))
      rw [if_pos hw]
      show String.mk (c.toLower :: caseScan (r :: rr)) =
        String.mk (c.toUpper.toLower :: caseScan (r :: rr))
      rw [toLower_toUpper]

/-- C10: on names made of nonempty alphanumeric segments separated by
single underscore or hyphen characters, pascalCase concatenates the
segments with each first character upper-cased (all separators removed),
and camelCase is the pascalCase rendering with its very first character
lower-cased. -/
theorem C10_pascal_camel (seg0 : List Char) (parts : List (Char × List Char))
    (h0 : seg0 ≠ []) (h0a : ∀ c ∈ seg0, (c.isAlpha || c.isDigit) = true)
    (hp : ∀ p ∈ parts, isSep p.1 = true ∧ p.2 ≠ [] ∧
      ∀ c ∈ p.2, (c.isAlpha || c.isDigit) = true) :
    pascalCase (String.mk (renderName seg0 parts)) =
      String.mk (upperFirst seg0 ++ parts.flatMap (fun p => upperFirst p.2)) ∧
    camelCase (String.mk (renderName seg0 parts)) =
      lowerFirst (pascalCase (String.mk (renderName seg0 parts))) := by
  obtain ⟨c0, rest0, rfl⟩ : ∃ c0 rest0, seg0 = c0 :: rest0 := by
    cases hs : seg0 with
    | nil => exact absurd hs h0
    | cons a b => exact ⟨a, b, rfl⟩
  have hw0 : isWordChar c0 = true :=
    alphaNum_isWordChar c0 (h0a c0 (List.mem_cons_self _ _))
  have hdata : (String.mk (renderName (c0 :: rest0) parts)).data =
      c0 :: (rest0 ++ parts.flatMap (fun p => p.1 :: p.2)) := rfl
  constructor
  · rw [pascalCase_data _ c0 (rest0 ++ parts.flatMap (fun p => p.1 :: p.2)) hdata hw0]
    rw [caseScan_pass rest0 _ (fun c hc =>
      alphaNum_not_sep c (h0a c (List.mem_cons_of_mem _ hc)))]
    rw [caseScan_render parts hp]
    rfl
  · exact camelCase_eq_lowerFirst _ c0 _ hdata hw0

/-- C10, witness: the casing statement applied to the segments of the
name api_usage_logs. -/
theorem C10_witness :
    pascalCase (String.mk (renderName ("api").data
      [('_', ("usage").data), ('_', ("logs").data)])) =
      String.mk (upperFirst ("api").data ++
        [('_', ("usage").data), ('_', ("logs").data)].flatMap (fun p => upperFirst p.2)) ∧
    camelCase (String.mk (renderName ("api").data
      [('_', ("usage").data), ('_', ("logs").data)])) =
      lowerFirst (pascalCase (String.mk (renderName ("api").data
        [('_', ("usage").data), ('_', ("logs").data)]))) :=
  C10_pascal_camel ("api").data [('_', ("usage").data), ('_', ("logs").data)]
    (by decide) (by decide) (by decide)

/-- A path of the wrong length is no immediate child. -/
theorem childOf_none_of_len (p q : Path) (h : q.length ≠ p.length + 1) :
    childOf p q = none := by
  cases hc : childOf p q with
  | none => rfl
  | some n =>
    have h2 := childOf_eq p q n hc
    exact absurd (by rw [h2]; simp : q.length = p.length + 1) h

/-- A path that extends no single name is no immediate child. -/
theorem childOf_none_of_ne (p q : Path) (h : ∀ n, q ≠ p ++ [n]) :
    childOf p q = none := by
  cases hc : childOf p q with
  | none => rfl
  | some n => exact absurd (childOf_eq p q n hc) (h n)

/-- Written paths come from write operations. -/
theorem mem_writePaths (ops : List WriteOp) (q : Path) (h : q ∈ writePaths ops) :
    ∃ c, WriteOp.write q c ∈ ops := by
  rw [writePaths] at h
  obtain ⟨op, hop, hq⟩ := List.mem_filterMap.mp h
  cases op with
  | mkdir p => cases hq
  | write p c =>
    have h2 : some p = some q := hq
    injection h2 with h3
    subst h3
    exact ⟨c, hop⟩

/-- mkdir targets come from mkdir operations. -/
theorem mem_mkdirTargets (ops : List WriteOp) (q : Path) (h : q ∈ mkdirTargets ops) :
    WriteOp.mkdir q ∈ ops := by
  rw [mkdirTargets] at h
  obtain ⟨op, hop, hq⟩ := List.mem_filterMap.mp h
  cases op with
  | write p c => cases hq
  | mkdir p =>
    have h2 : some p = some q := hq
    injection h2 with h3
    subst h3
    exact hop

/-- mkdirTargets distributes over appends. -/
theorem mkdirTargets_append (a b : List WriteOp) :
    mkdirTargets (a ++ b) = mkdirTargets a ++ mkdirTargets b := by
  simp [mkdirTargets, List.filterMap_append]

/-- Applying operations appends new directories stemming from mkdir
targets. -/
theorem dirs_applyOps_append (ops : List WriteOp) (fs : FS) :
    ∃ ex, (applyOps ops fs).dirs = fs.dirs ++ ex ∧
      ∀ q ∈ ex, ∃ p, p ∈ mkdirTargets ops ∧ ∃ i, q = p.take (i + 1) := by
  induction ops generalizing fs with
  | nil => exact ⟨[], by simp [applyOps], fun q hq => absurd hq (List.not_mem_nil _)⟩
  | cons op rest ih =>
    rw [applyOps_cons]
    obtain ⟨ex, hex, hprop⟩ := ih (applyOp fs op)
    cases op with
    | write p c =>
      refine ⟨ex, ?_, ?_⟩
      · rw [hex]
        congr 1
        exact FS.dirs_writeFileSync fs p c
      · intro q hq
        obtain ⟨p2, hp2, i, hi⟩ := hprop q hq
        exact ⟨p2, by rw [mkdirTargets_cons_write]; exact hp2, i, hi⟩
    | mkdir p =>
      have hd : (fs.ensureDir p).dirs = fs.dirs ++
          (if fs.existsSync p = true then []
           else (prefixesOf p).filter (fun r => r ∉ fs.dirs)) := by
        rw [FS.ensureDir]
        by_cases he : fs.existsSync p = true
        · rw [if_pos he, if_pos he]
          simp
        · rw [if_neg he, if_neg he]
          rfl
      refine ⟨(if fs.existsSync p = true then []
        else (prefixesOf p).filter (fun r => r ∉ fs.dirs)) ++ ex, ?_, ?_⟩
      · rw [hex]
        show (fs.ensureDir p).dirs ++ ex = _
        rw [hd, List.append_assoc]
      · intro q hq
        rcases List.mem_append.mp hq with h1 | h1
        · by_cases he : fs.existsSync p = true
          · rw [if_pos he] at h1
            cases h1
          · rw [if_neg he] at h1
            have h2 := List.mem_of_mem_filter h1
            rw [prefixesOf] at h2
            obtain ⟨i, _, hi⟩ := List.mem_map.mp h2
            exact ⟨p, by rw [mkdirTargets_cons_mkdir]; exact List.mem_cons_self _ _, i, hi.symm⟩
        · obtain ⟨p2, hp2, i, hi⟩ := hprop q h1
          exact ⟨p2, by rw [mkdirTargets_cons_mkdir]; exact List.mem_cons_of_mem _ hp2, i, hi⟩

/-- Applying operations appends new keys stemming from written paths. -/
theorem keys_applyOps_append (ops : List WriteOp) (fs : FS) :
    ∃ ex, (applyOps ops fs).files.map (fun e => e.1) =
        fs.files.map (fun e => e.1) ++ ex ∧
      ∀ q ∈ ex, q ∈ writePaths ops := by
  induction ops generalizing fs with
  | nil => exact ⟨[], by simp [applyOps], fun q hq => absurd hq (List.not_mem_nil _)⟩
  | cons op rest ih =>
    rw [applyOps_cons]
    obtain ⟨ex, hex, hprop⟩ := ih (applyOp fs op)
    cases op with
    | mkdir p =>
      refine ⟨ex, ?_, ?_⟩
      · rw [hex]
        congr 2
        exact FS.files_ensureDir fs p
      · intro q hq
        rw [writePaths_cons_mkdir]
        exact hprop q hq
    | write p c =>
      by_cases hp : p ∈ fs.files.map (fun e => e.1)
      · refine ⟨ex, ?_, ?_⟩
        · rw [hex]
          congr 1
          show (fs.writeFileSync p c).files.map (fun e => e.1) = _
          rw [keys_writeFileSync, if_pos hp]
        · intro q hq
          rw [writePaths_cons_write]
          exact List.mem_cons_of_mem _ (hprop q hq)
      · refine ⟨p :: ex, ?_, ?_⟩
        · rw [hex]
          rw [show (applyOp fs (WriteOp.write p c)).files.map (fun e => e.1) =
            fs.files.map (fun e => e.1) ++ [p] from by
              show (fs.writeFileSync p c).files.map (fun e => e.1) = _
              rw [keys_writeFileSync, if_neg hp]]
          rw [List.append_assoc]
          rfl
        · intro q hq
          rw [writePaths_cons_write]
          rcases List.mem_cons.mp hq with rfl | h1
          · exact List.mem_cons_self _ _
          · exact List.mem_cons_of_mem _ (hprop q h1)

/-- Applying operations keeps the key list duplicate-free. -/
theorem keys_nodup_applyOps (ops : List WriteOp) (fs : FS)
    (h : (fs.files.map (fun e => e.1)).Nodup) :
    ((applyOps ops fs).files.map (fun e => e.1)).Nodup := by
  induction ops generalizing fs with
  | nil => exact h
  | cons op rest ih =>
    rw [applyOps_cons]
    refine ih (applyOp fs op) ?_
    cases op with
    | mkdir p =>
      rw [show (applyOp fs (WriteOp.mkdir p)).files = (fs.ensureDir p).files from rfl,
        FS.files_ensureDir]
      exact h
    | write p c =>
      rw [show (applyOp fs (WriteOp.write p c)).files = (fs.writeFileSync p c).files from rfl]
      rw [keys_writeFileSync]
      by_cases hp : p ∈ fs.files.map (fun e => e.1)
      · rw [if_pos hp]
        exact h
      · rw [if_neg hp]
        rw [List.nodup_append]
        refine ⟨h, List.nodup_singleton _, ?_⟩
        intro a ha hb
        rcases List.mem_singleton.mp hb with rfl
        exact hp ha

/-- Directory listings only depend on the directory and key lists. -/
theorem childNames_congr (fs1 fs2 : FS) (hd : fs1.dirs = fs2.dirs)
    (hk : fs1.files.map (fun e => e.1) = fs2.files.map (fun e => e.1)) (p : Path) :
    fs1.childNames p = fs2.childNames p := by
  rw [FS.childNames, FS.childNames, hd, hk]

/-- Directory listings ignore appended paths that are no children. -/
theorem childNames_extension (fs1 fs2 : FS) (p : Path)
    (hd : ∃ ex, fs1.dirs = fs2.dirs ++ ex ∧ ∀ q ∈ ex, childOf p q = none)
    (hk : ∃ ex, fs1.files.map (fun e => e.1) = fs2.files.map (fun e => e.1) ++ ex ∧
      ∀ q ∈ ex, childOf p q = none) :
    fs1.childNames p = fs2.childNames p := by
  obtain ⟨exd, hd1, hd2⟩ := hd
  obtain ⟨exk, hk1, hk2⟩ := hk
  rw [FS.childNames, FS.childNames, hd1, hk1]
  congr 1
  rw [List.filterMap_append, List.filterMap_append, List.filterMap_append,
    List.filterMap_append]
  rw [show List.filterMap (childOf p) exd = [] from List.filterMap_eq_nil.mpr hd2,
    show List.filterMap (childOf p) exk = [] from List.filterMap_eq_nil.mpr hk2]
  simp

/-- Directory tests ignore appended paths other than the tested one. -/
theorem isDir_extension (fs1 fs2 : FS) (q : Path)
    (hd : ∃ ex, fs1.dirs = fs2.dirs ++ ex ∧ q ∉ ex) :
    fs1.isDir q = fs2.isDir q := by
  obtain ⟨ex, h1, h2⟩ := hd
  rw [FS.isDir, FS.isDir, h1]
  refine decide_eq_decide.mpr ?_
  rw [List.mem_append]
  exact ⟨fun h => h.resolve_right (fun hx => h2 hx), Or.inl⟩

/-- flatMap congruence over members. -/
theorem flatMap_congr_mem {α β : Type} (l : List α) (f g : α → List β)
    (h : ∀ x ∈ l, f x = g x) : l.flatMap f = l.flatMap g := by
  induction l with
  | nil => rfl
  | cons a rest ih =>
    rw [List.flatMap_cons, List.flatMap_cons, h a (List.mem_cons_self _ _),
      ih (fun x hx => h x (List.mem_cons_of_mem _ hx))]

/-- The hook operations agree on states with the same listing and
directory tests. -/
theorem hookOpsOf_congr (fs1 fs2 : FS) (fdir : Path) (sip : String)
    (hc : fs1.childNames fdir = fs2.childNames fdir)
    (hi : ∀ n ∈ fs2.childNames fdir,
      fs1.isDir (pathJoin fdir n) = fs2.isDir (pathJoin fdir n)) :
    hookOpsOf fs1 fdir sip = hookOpsOf fs2 fdir sip := by
  rw [hookOpsOf, hookOpsOf, hc]
  exact flatMap_congr_mem _ _ _ (fun n hn => by rw [hi n hn])

/-- The hooks phase creates no directories. -/
theorem mkdirTargets_hookOpsOf (fs : FS) (fdir : Path) (sip : String) :
    mkdirTargets (hookOpsOf fs fdir sip) = [] := by
  rw [hookOpsOf]
  induction fs.childNames fdir with
  | nil => rfl
  | cons n rest ih =>
    rw [List.flatMap_cons, mkdirTargets_append, ih]
    by_cases h1 : n = "index.ts"
    · rw [if_pos h1]
      rfl
    · rw [if_neg h1]
      by_cases h2 : fs.isDir (pathJoin fdir n) = true
      · rw [if_pos h2]
        rfl
      · rw [if_neg h2]
        rfl

/-- The second phase creates only the storage directory. -/
theorem mkdirTargets_w2ops (mid : FS) (pub : PublicDesc) (dir : Path) (sip : String) :
    mkdirTargets (w2ops mid pub dir sip) = [pathJoin dir "storage"] := by
  rw [w2ops, mkdirTargets_append, mkdirTargets_append]
  have h1 : mkdirTargets (hookPartOps mid pub dir sip) = [] := by
    rw [hookPartOps]
    cases pub.Functions with
    | none => rfl
    | some fns => exact mkdirTargets_hookOpsOf mid _ sip
  have h3 : mkdirTargets (mainIndexOps pub dir) = [] := by
    rw [mainIndexOps]
    cases pub.Tables with
    | none => rfl
    | some tbls => rfl
  rw [h1, h3]
  simp [storageOps, mkdirTargets]

/-- Every directory the first phase creates lies below the output
directory. -/
theorem w1ops_mkdir_shape (pub : PublicDesc) (dir : Path) (sip : String) (q : Path)
    (h : WriteOp.mkdir q ∈ w1ops pub dir sip) : ∃ t, q = dir ++ t := by
  rw [w1ops] at h
  rcases List.mem_cons.mp h with heq | h1
  · injection heq with e1
    exact ⟨[], by rw [e1, List.append_nil]⟩
  · rcases List.mem_append.mp h1 with h2 | h2
    · rcases List.mem_append.mp h2 with h3 | h3
      · rcases List.mem_append.mp h3 with h4 | h4
        · rw [btOps] at h4
          by_cases h0 : (btNames pub).length = 0
          · rw [if_pos h0] at h4
            cases h4
          · rw [if_neg h0] at h4
            rcases List.mem_singleton.mp h4 with h5
            cases h5
        · cases hT : pub.Tables with
          | none =>
            simp only [tablesPartOps, hT] at h4
            cases h4
          | some tbls =>
            simp only [tablesPartOps, hT] at h4
            rcases List.mem_append.mp h4 with h5 | h5
            · rw [tablesOps] at h5
              obtain ⟨t, _, h6⟩ := List.mem_flatMap.mp h5
              rw [tableModuleOps] at h6
              simp only [List.mem_cons] at h6
              rcases h6 with heq | heq | heq | h7
              · injection heq with e1
                exact ⟨_, e1⟩
              · cases heq
              · cases heq
              · cases h7
            · rw [relTablesOps] at h5
              obtain ⟨t, _, h6⟩ := List.mem_flatMap.mp h5
              rw [tableRelOps] at h6
              cases hz : jsLengthIsZero (extractTableRelationships t.name t) with
              | error e =>
                rw [hz] at h6
                cases h6
              | ok b =>
                cases b with
                | true =>
                  rw [hz] at h6
                  simp only [Option.getD_some, List.mem_singleton] at h6
                  cases h6
                | false =>
                  rw [hz] at h6
                  cases ha : asRelRecords (extractTableRelationships t.name t) with
                  | none =>
                    rw [ha] at h6
                    cases h6
                  | some rels =>
                    rw [ha] at h6
                    simp only [Option.getD_some, List.mem_cons] at h6
                    rcases h6 with heq | heq | heq | h7
                    · cases heq
                    · cases heq
                    · cases heq
                    · cases h7
      · cases hE : pub.Enums with
        | none =>
          simp only [enumsOps, hE] at h3
          cases h3
        | some enums =>
          simp only [enumsOps, hE] at h3
          rcases List.mem_singleton.mp h3 with h5
          cases h5
    · cases hF : pub.Functions with
      | none =>
        simp only [fnPartOps, hF] at h2
        cases h2
      | some fns =>
        simp only [fnPartOps, hF, functionsOps] at h2
        rcases List.mem_cons.mp h2 with heq | h3
        · injection heq with e1
          exact ⟨["functions"], e1.trans (pathJoin_functions dir)⟩
        · rcases List.mem_append.mp h3 with h4 | h4
          · obtain ⟨f, _, h5⟩ := List.mem_flatMap.mp h4
            rw [fnModuleOps] at h5
            by_cases hu : jsStartsWith f.name "_"
            · rw [if_pos hu] at h5
              cases h5
            · rw [if_neg hu] at h5
              rcases List.mem_cons.mp h5 with heq | h6
              · injection heq with e1
                refine ⟨"functions" ::
                  (jsSplit '/' f.name).filter (fun seg => seg ≠ "" && seg ≠ "."), ?_⟩
                rw [e1, pathJoin, pathJoin_functions, List.append_assoc]
                rfl
              · rcases List.mem_singleton.mp h6 with heq2
                cases heq2
          · rcases List.mem_singleton.mp h4 with heq
            cases heq

/-- The inputs of the second run's hook phase agree with the first
run's: the listing of the functions directory is unchanged by the second
first-phase pass. -/
theorem hook_inputs_stable (fs : FS) (pub : PublicDesc) (dir : Path) (sip : String)
    (hwf : FSWF fs) (hdir : plainPath dir) (hdne : dir ≠ []) :
    w2ops (midFS (runResult fs pub dir sip) pub dir sip) pub dir sip =
      w2ops (midFS fs pub dir sip) pub dir sip := by
  have hmidwf : FSWF (midFS fs pub dir sip) := FSWF_midFS fs pub dir sip hwf hdir
  obtain ⟨exd, hexd, hexdP⟩ := dirs_applyOps_append
    (w2ops (midFS fs pub dir sip) pub dir sip) (midFS fs pub dir sip)
  have hexdLen : ∀ q ∈ exd, q.length ≤ dir.length + 1 := by
    intro q hq
    obtain ⟨p, hp, i, hi⟩ := hexdP q hq
    rw [mkdirTargets_w2ops] at hp
    rcases List.mem_singleton.mp hp with rfl
    rw [hi, pathJoin_plain _ _ plain_storage]
    calc (List.take (i + 1) (dir ++ ["storage"])).length
        = min (i + 1) ((dir ++ ["storage"]).length) := List.length_take _ _
      _ ≤ (dir ++ ["storage"]).length := Nat.min_le_right _ _
      _ = dir.length + 1 := by simp
  obtain ⟨exk, hexk, hexkP⟩ := keys_applyOps_append
    (w2ops (midFS fs pub dir sip) pub dir sip) (midFS fs pub dir sip)
  have hexkC : ∀ q ∈ exk, childOf (dir ++ ["functions"]) q = none := by
    intro q hq
    obtain ⟨c, hc⟩ := mem_writePaths _ q (hexkP q hq)
    rw [w2ops] at hc
    rcases List.mem_append.mp hc with h1 | h1
    · rcases List.mem_append.mp h1 with h2 | h2
      · cases hF : pub.Functions with
        | none =>
          simp only [hookPartOps, hF] at h2
          cases h2
        | some fns =>
          simp only [hookPartOps, hF] at h2
          obtain ⟨n, hn, _, hsh⟩ := hookOps_mem_write _ _ _ q c h2
          have hpn := childNames_plain _ _ hmidwf n hn
          rw [plainSeg] at hpn
          refine childOf_none_of_len _ _ ?_
          rcases hsh with ⟨he, _⟩ | ⟨he, _⟩ <;>
          · rw [hpn, pathJoin_functions] at he
            rw [he]
            simp only [List.length_append, List.length_cons, List.length_singleton,
              List.length_nil]
            omega
      · rcases storageOps_mem_write dir sip q c h2 with ⟨he, _⟩ | ⟨he, _⟩ | ⟨he, _⟩ <;>
        · refine childOf_none_of_ne _ _ ?_
          intro n hne2
          rw [he] at hne2
          simp only [List.append_assoc] at hne2
          have h3 := List.append_cancel_left hne2
          injection h3 with h4 _
          exact absurd h4 (by decide)
    · cases hT : pub.Tables with
      | none =>
        simp only [mainIndexOps, hT] at h1
        cases h1
      | some tbls =>
        simp only [mainIndexOps, hT] at h1
        rcases List.mem_singleton.mp h1 with h2
        injection h2 with e1 _
        refine childOf_none_of_len _ _ ?_
        rw [e1, pathJoin_plain _ _ plain_indexts]
        simp only [List.length_append, List.length_cons, List.length_singleton,
          List.length_nil]
        omega
  have hmkt1 : ∀ p ∈ mkdirTargets (w1ops pub dir sip),
      (runResult fs pub dir sip).existsSync p = true := by
    intro p hp
    have hne : p ≠ [] := by
      obtain ⟨t, ht⟩ := w1ops_mkdir_shape pub dir sip p (mem_mkdirTargets _ _ hp)
      rw [ht]
      intro hc2
      exact hdne (List.append_eq_nil.mp hc2).1
    exact FS.existsSync_mono_applyOps _ _ p (mkdirTargets_exist _ fs p hp hne)
  have hw1k : ∀ p ∈ writePaths (w1ops pub dir sip),
      p ∈ (runResult fs pub dir sip).files.map (fun e => e.1) := by
    intro p hp
    exact mem_keys_mono_applyOps _ _ p (writePaths_in_keys _ fs p hp)
  have hdm2 : (midFS (runResult fs pub dir sip) pub dir sip).dirs =
      (runResult fs pub dir sip).dirs :=
    dirs_applyOps_of_exists _ _ hmkt1
  have hkm2 : (midFS (runResult fs pub dir sip) pub dir sip).files.map (fun e => e.1) =
      (runResult fs pub dir sip).files.map (fun e => e.1) :=
    keys_applyOps_of_present _ _ hw1k
  have hch : (midFS (runResult fs pub dir sip) pub dir sip).childNames
      (pathJoin dir "functions") =
      (midFS fs pub dir sip).childNames (pathJoin dir "functions") := by
    have hc1 := childNames_congr _ _ hdm2 hkm2 (pathJoin dir "functions")
    have hc2 : (runResult fs pub dir sip).childNames (pathJoin dir "functions") =
        (midFS fs pub dir sip).childNames (pathJoin dir "functions") := by
      rw [pathJoin_functions]
      refine childNames_extension _ _ _ ⟨exd, hexd, ?_⟩ ⟨exk, hexk, hexkC⟩
      intro q hq
      refine childOf_none_of_len _ _ ?_
      have hlen := hexdLen q hq
      simp only [List.length_append, List.length_cons, List.length_singleton,
        List.length_nil]
      omega
    exact hc1.trans hc2
  have hii : ∀ n ∈ (midFS fs pub dir sip).childNames (pathJoin dir "functions"),
      (midFS (runResult fs pub dir sip) pub dir sip).isDir
        (pathJoin (pathJoin dir "functions") n) =
      (midFS fs pub dir sip).isDir (pathJoin (pathJoin dir "functions") n) := by
    intro n hn
    have hpn := childNames_plain _ _ hmidwf n hn
    refine isDir_extension _ _ _ ⟨exd, ?_, ?_⟩
    · rw [hdm2]
      exact hexd
    · intro hmem
      have hlen := hexdLen _ hmem
      rw [pathJoin_plain _ _ hpn, pathJoin_functions] at hlen
      simp only [List.length_append, List.length_cons, List.length_singleton,
        List.length_nil] at hlen
      omega
  have hhp : hookPartOps (midFS (runResult fs pub dir sip) pub dir sip) pub dir sip =
      hookPartOps (midFS fs pub dir sip) pub dir sip := by
    rw [hookPartOps, hookPartOps]
    cases pub.Functions with
    | none => rfl
    | some fns => exact hookOpsOf_congr _ _ _ sip hch hii
  rw [w2ops, w2ops, hhp]

/-- Applying the whole operation sequence of a run to its own result
changes nothing. -/
theorem runResult_idempotent (fs : FS) (pub : PublicDesc) (dir : Path) (sip : String)
    (hwf : FSWF fs) (hdir : plainPath dir) (hdne : dir ≠ [])
    (hnd : (fs.files.map (fun e => e.1)).Nodup) :
    runResult (runResult fs pub dir sip) pub dir sip = runResult fs pub dir sip := by
  have hw2eq := hook_inputs_stable fs pub dir sip hwf hdir hdne
  have hfs1 : runResult fs pub dir sip =
      applyOps (w1ops pub dir sip ++ w2ops (midFS fs pub dir sip) pub dir sip) fs := by
    rw [runResult, midFS, applyOps_append]
  have hrr1 : runResult (runResult fs pub dir sip) pub dir sip =
      applyOps (w1ops pub dir sip ++ w2ops (midFS fs pub dir sip) pub dir sip)
        (runResult fs pub dir sip) := by
    show applyOps (w2ops (midFS (runResult fs pub dir sip) pub dir sip) pub dir sip)
        (midFS (runResult fs pub dir sip) pub dir sip) = _
    rw [hw2eq]
    rw [show midFS (runResult fs pub dir sip) pub dir sip =
      applyOps (w1ops pub dir sip) (runResult fs pub dir sip) from rfl]
    rw [applyOps_append]
  have hmkt1 : ∀ p ∈ mkdirTargets (w1ops pub dir sip),
      (runResult fs pub dir sip).existsSync p = true := by
    intro p hp
    have hne : p ≠ [] := by
      obtain ⟨t, ht⟩ := w1ops_mkdir_shape pub dir sip p (mem_mkdirTargets _ _ hp)
      rw [ht]
      intro hc2
      exact hdne (List.append_eq_nil.mp hc2).1
    exact FS.existsSync_mono_applyOps _ _ p (mkdirTargets_exist _ fs p hp hne)
  have hnoop : applyOps (w1ops pub dir sip ++
      w2ops (midFS fs pub dir sip) pub dir sip) (runResult fs pub dir sip) =
      runResult fs pub dir sip := by
    refine applyOps_noop _ _ ?_ ?_ ?_
    · intro p hp
      rw [mkdirTargets_append] at hp
      rcases List.mem_append.mp hp with h1 | h1
      · exact hmkt1 p h1
      · rw [mkdirTargets_w2ops] at h1
        rcases List.mem_singleton.mp h1 with rfl
        exact mkdirTargets_exist (w2ops (midFS fs pub dir sip) pub dir sip) _ _
          (by rw [mkdirTargets_w2ops]; exact List.mem_singleton.mpr rfl)
          (by
            rw [pathJoin_plain _ _ plain_storage]
            intro hc2
            exact List.cons_ne_nil _ _ (List.append_eq_nil.mp hc2).2)
    · intro p c hl
      rw [hfs1, read_applyOps, hl]
    · rw [hfs1]
      exact keys_nodup_applyOps _ fs hnd
  rw [hrr1, hnoop]

/-- C7, counterexample: a stale directory under functions in the
pre-existing output tree receives a generated hooks file, so the set of
written files depends on pre-existing state beyond the files the run
itself writes, contradicting the no-dependence claim. -/
theorem C7_counterexample :
    ∃ fs1 fs2,
      run ⟨[["out"], ["out", "functions"], ["out", "functions", "old"]], []⟩ declFns opts0 =
        Except.ok fs1 ∧
      run emptyFS declFns opts0 = Except.ok fs2 ∧
      fs1.read ["out", "functions", "old", "hooks.ts"] =
        some (functionHooksContent "old" "@/lib/supabase") ∧
      fs2.read ["out", "functions", "old", "hooks.ts"] = none := by
  refine ⟨_, _, rfl, rfl, ?_, ?_⟩ <;> rfl

/-- C7, amended: the result of a run is determined by the declaration,
the options and the starting state, and a second run over its own output
reproduces it byte for byte: on a well-formed starting state every
generated file's content is identical across the two runs.  Dependence on
other pre-existing state remains: stale directories under functions/
receive hook files. -/
theorem C7_run_idempotent (fs : FS) (d : InputDecl) (o : ExtractorOptions) (fs1 : FS)
    (hwf : FSWF fs) (hdir : plainPath o.outputDir) (hdne : o.outputDir ≠ [])
    (hnd : (fs.files.map (fun e => e.1)).Nodup)
    (h : run fs d o = Except.ok fs1) :
    run fs1 d o = Except.ok fs1 := by
  obtain ⟨db, pub, hdb, hpub, hok⟩ := run_ok_inv fs d o fs1 h
  rw [run_eq fs d o db pub hdb hpub hok] at h
  injection h with h1
  subst h1
  rw [run_eq _ d o db pub hdb hpub hok]
  rw [runResult_idempotent fs pub o.outputDir _ hwf hdir hdne hnd]

/-- C7, witness: a run on the empty file system followed by a second run
over its own output. -/
theorem C7_witness :
    ∃ fs1, run emptyFS declUsers opts0 = Except.ok fs1 ∧
      run fs1 declUsers opts0 = Except.ok fs1 :=
  ⟨_, rfl, C7_run_idempotent emptyFS declUsers opts0 _
    ⟨fun p hp => absurd hp (List.not_mem_nil _), fun e he => absurd he (List.not_mem_nil _)⟩
    (by intro seg hseg; rcases List.mem_singleton.mp hseg with rfl; decide)
    (by decide) (by exact List.nodup_nil) rfl⟩

end SupabaseToHooks
